import Mathlib

/-!
# A verification of the IndexedHeap repository

This file gives a shallow embedding of the two source files of the repository,
`indexedheap.py` (an indexed binary min-heap supporting decrease/increase-key)
and `dijkstra.py` (Dijkstra shortest paths over a nonnegatively weighted
directed multigraph), and proves the specified properties about them.

Modelling conventions:
* Python numbers: edge weights are integers (`ℤ`); path distances, which may be
  `math.inf`, are `WithTop ℤ` (written `DistW` below).  `⊤ + w = ⊤`, finite
  arithmetic is exact, and `⊤ < ⊤` is false, matching IEEE infinity as used.
* Python exceptions are modelled with `Except QErr`; the error names follow the
  spec's taxonomy (`ValidationError`, `EmptyQueueError`, `ItemNotFoundError`).
* Python `set` and `dict` iteration: a `set` is modelled as an insertion-ordered
  duplicate-free list, a `dict` as an insertion-ordered association list, which
  fixes one deterministic refinement of Python's unspecified set ordering.
* `defaultdict` lookups that insert a default value on a missing key are
  modelled faithfully (`ddProbe` below returns the possibly-extended map).
* Unbounded loops (the search loop and the predecessor walk-back) take explicit
  fuel; exhausted fuel is a distinguished error that the theorems prove
  unreachable.  All definitions are structurally recursive so that concrete
  runs reduce inside the kernel.
-/

set_option maxRecDepth 8000
set_option linter.unusedSectionVars false

/-- The error taxonomy of the spec (§7), plus bookkeeping errors:
`indexError` for an out-of-range list subscript on a corrupted structure, and
`outOfFuel` for the fuel instrumentation of unbounded loops. -/
inductive QErr where
  | validationError
  | emptyQueueError
  | itemNotFoundError
  | keyError
  | indexError
  | outOfFuel
deriving DecidableEq, Repr

/-- Strict comparison of Python tuples `(weight, item)`: lexicographic, weight
first. -/
def pairLt {W I : Type} [LinearOrder W] [LinearOrder I] (a b : W × I) : Prop :=
  a.1 < b.1 ∨ (a.1 = b.1 ∧ a.2 < b.2)

instance {W I : Type} [LinearOrder W] [LinearOrder I] (a b : W × I) :
    Decidable (pairLt a b) := by
  unfold pairLt; infer_instance

/-- Non-strict counterpart of `pairLt`. -/
def pairLe {W I : Type} [LinearOrder W] [LinearOrder I] (a b : W × I) : Prop :=
  pairLt a b ∨ a = b

/-- Insert an index into a sorted duplicate-free list of indices; no-op when
present (Python `set.add`).  Keeping the lists sorted gives a canonical
representation of the index sets. -/
def addIdx (l : List Nat) (i : Nat) : List Nat :=
  if i ∈ l then l else List.orderedInsert (· ≤ ·) i l

/-- Remove an index from a list of indices (Python `set.remove`; at every call
site the invariant guarantees the element is present). -/
def removeIdx (l : List Nat) (i : Nat) : List Nat :=
  l.erase i

/-- Source `_IndexedWeightList`: a list of `(weight, item)` pairs together with
an auxiliary mapping from each item to the set of indices holding it, modelled
as a sorted duplicate-free list of indices. -/
structure IndexedWeightList (W I : Type) where
  arr : List (W × I)
  index : I → List Nat

namespace IndexedWeightList

variable {W I : Type} [LinearOrder W] [LinearOrder I]

/-- Source `_IndexedWeightList.__init__`: store the pairs and scan them to
build the item-to-indices mapping. -/
def ofList (l : List (W × I)) : IndexedWeightList W I :=
  { arr := l
    index := fun it => (List.range l.length).filter fun j =>
      match l.get? j with
      | some p => decide (p.2 = it)
      | none => false }

/-- Source `_IndexedWeightList.__setitem__`: overwrite slot `i` with `p`,
removing `i` from the old item's index set and adding it to the new item's.
A Python subscript out of range would raise; the heap routines never produce
one, and the model makes it the identity. -/
def setPair (s : IndexedWeightList W I) (i : Nat) (p : W × I) :
    IndexedWeightList W I :=
  match s.arr.get? i with
  | none => s
  | some old =>
    { arr := s.arr.set i p
      index := fun it =>
        let idx1 : List Nat :=
          if it = old.2 then removeIdx (s.index it) i else s.index it
        if it = p.2 then addIdx idx1 i else idx1 }

/-- Source `_IndexedWeightList.append`: add a pair at the end and record its
index. -/
def appendPair (s : IndexedWeightList W I) (p : W × I) : IndexedWeightList W I :=
  { arr := s.arr ++ [p]
    index := fun it =>
      if it = p.2 then addIdx (s.index it) s.arr.length else s.index it }

/-- Source `_IndexedWeightList.pop`: remove and return the last pair,
unrecording its index; `none` models the IndexError on an empty list. -/
def popLast (s : IndexedWeightList W I) :
    Option ((W × I) × IndexedWeightList W I) :=
  match s.arr.getLast? with
  | none => none
  | some p =>
    some (p,
      { arr := s.arr.dropLast
        index := fun it =>
          if it = p.2 then removeIdx (s.index it) (s.arr.length - 1)
          else s.index it })

/-- Source `_IndexedWeightList.index`: `only, = self._index[item]` succeeds
exactly when the index set of `item` is a singleton. -/
def indexOf (s : IndexedWeightList W I) (it : I) : Option Nat :=
  match s.index it with
  | [j] => some j
  | _ => none

/-- Source `_IndexedWeightList.__contains__`: `bool(self._index[item])`. -/
def hasItem (s : IndexedWeightList W I) (it : I) : Bool :=
  !(s.index it).isEmpty

/-- Python tuple swap `arr[i], arr[j] = arr[j], arr[i]`: both old values are
read, then written back through `__setitem__` left to right. -/
def swapPair (s : IndexedWeightList W I) (i j : Nat) : IndexedWeightList W I :=
  match s.arr.get? i, s.arr.get? j with
  | some a, some b => setPair (setPair s i b) j a
  | _, _ => s

end IndexedWeightList

namespace pyheapq

variable {W I : Type} [LinearOrder W] [LinearOrder I]

/-- Modelled from the spec: the repository's pure-Python `pyheapq` module is
imported by `indexedheap.py` but is not under `src/`.  Spec §4.1 describes the
restoration step for a decreased key as repeatedly swapping an element with its
parent while it is smaller ("sift up ... toward the root"); the module's name
for this routine (called as `pyheapq.siftdown(heap, startpos, pos)`) is kept.
All slot writes go through the indexed list so the index map is maintained.
The fuel argument makes the recursion structural; `pos` strictly decreases, so
fuel `pos + 1` always suffices. -/
def siftdownFuel : Nat → IndexedWeightList W I → Nat → Nat → IndexedWeightList W I
  | 0, s, _, _ => s
  | fuel+1, s, start, pos =>
    if pos ≤ start then s
    else
      let parent := (pos - 1) / 2
      match s.arr.get? pos, s.arr.get? parent with
      | some a, some b =>
        if pairLt a b then siftdownFuel fuel (s.swapPair pos parent) start parent
        else s
      | _, _ => s

/-- Modelled from the spec: sift the element at `pos` toward the root while it
is smaller than its parent (spec §4.1), stopping at `start`. -/
def siftdown (s : IndexedWeightList W I) (start pos : Nat) : IndexedWeightList W I :=
  siftdownFuel (pos + 1) s start pos

/-- Modelled from the spec: the restoration step for an increased key swaps an
element with its smaller child while a child is smaller ("sift down ... toward
the leaves", spec §4.1); the module's name for this routine (called as
`pyheapq.siftup(heap, pos)`) is kept.  The fuel argument makes the recursion
structural; the position strictly increases below the length, so fuel
`arr.length` always suffices. -/
def siftupFuel : Nat → IndexedWeightList W I → Nat → IndexedWeightList W I
  | 0, s, _ => s
  | fuel+1, s, pos =>
    let n := s.arr.length
    if 2*pos+1 < n then
      let c :=
        if 2*pos+2 < n then
          match s.arr.get? (2*pos+1), s.arr.get? (2*pos+2) with
          | some a, some b => if pairLt b a then 2*pos+2 else 2*pos+1
          | _, _ => 2*pos+1
        else 2*pos+1
      match s.arr.get? c, s.arr.get? pos with
      | some a, some b =>
        if pairLt a b then siftupFuel fuel (s.swapPair pos c) c else s
      | _, _ => s
    else s

/-- Modelled from the spec: sift the element at `pos` toward the leaves while
some child is smaller (spec §4.1). -/
def siftup (s : IndexedWeightList W I) (pos : Nat) : IndexedWeightList W I :=
  siftupFuel s.arr.length s pos

/-- Modelled from the spec: `heapify` "builds the heap from an arbitrary
(unordered) initial collection in linear time" (spec §4.1) by sifting each
internal node toward the leaves, last internal node first. -/
def heapifyAux : Nat → IndexedWeightList W I → IndexedWeightList W I
  | 0, s => s
  | k+1, s => heapifyAux k (siftup s k)

/-- Modelled from the spec: bottom-up heap construction (spec §4.1). -/
def heapify (s : IndexedWeightList W I) : IndexedWeightList W I :=
  heapifyAux (s.arr.length / 2) s

/-- Modelled from the spec: `push` "inserts a new item at the end and sifts
up" (spec §4.1). -/
def heappush (s : IndexedWeightList W I) (p : W × I) : IndexedWeightList W I :=
  let s1 := s.appendPair p
  siftdown s1 0 (s1.arr.length - 1)

/-- Modelled from the spec: `pop` removes and returns the minimum, restoring
the invariant by "swap last element into root slot, sift down" (spec §4.1);
`none` models the IndexError on an empty heap. -/
def heappop (s : IndexedWeightList W I) :
    Option ((W × I) × IndexedWeightList W I) :=
  match s.popLast with
  | none => none
  | some (last, s1) =>
    match s1.arr.get? 0 with
    | none => some (last, s1)
    | some root => some (root, siftup (s1.setPair 0 last) 0)

/-- Modelled from the spec: `pop_then_push` "removes the current minimum and
inserts the new (item, weight) at the vacated root slot, sifting to restore
order"; it fails if the queue was empty before the call (spec §4.1). -/
def heapreplace (s : IndexedWeightList W I) (p : W × I) :
    Option ((W × I) × IndexedWeightList W I) :=
  match s.arr.get? 0 with
  | none => none
  | some root => some (root, siftup (s.setPair 0 p) 0)

/-- Modelled from the spec: `push_then_pop`; "if the pushed item is itself the
new minimum, it is returned immediately", otherwise the root is returned and
the new pair takes its slot and sifts down (spec §4.1). -/
def heappushpop (s : IndexedWeightList W I) (p : W × I) :
    (W × I) × IndexedWeightList W I :=
  match s.arr.get? 0 with
  | none => (p, s)
  | some root =>
    if pairLt root p then (root, siftup (s.setPair 0 p) 0) else (p, s)

end pyheapq

/-- Source `IndexedHeap`: a priority queue with modifiable priorities, wrapping
an `_IndexedWeightList` of `(weight, item)` pairs. -/
structure IndexedHeap (W I : Type) where
  heap : IndexedWeightList W I

namespace IndexedHeap

variable {W I : Type} [LinearOrder W] [LinearOrder I]

/-- Source `IndexedHeap.__init__`: collect the pairs and heapify. -/
def ofList (l : List (W × I)) : IndexedHeap W I :=
  ⟨pyheapq.heapify (IndexedWeightList.ofList l)⟩

/-- Source `IndexedHeap.__len__`. -/
def size (h : IndexedHeap W I) : Nat :=
  h.heap.arr.length

/-- Source `IndexedHeap.__contains__`. -/
def contains (h : IndexedHeap W I) (it : I) : Bool :=
  h.heap.hasItem it

/-- Source `IndexedHeap.push`. -/
def push (h : IndexedHeap W I) (it : I) (w : W) : IndexedHeap W I :=
  ⟨pyheapq.heappush h.heap (w, it)⟩

/-- Source `IndexedHeap.pop`: returns the item of the popped pair; fails with
`EmptyQueueError` on an empty queue. -/
def pop (h : IndexedHeap W I) : Except QErr (I × IndexedHeap W I) :=
  match pyheapq.heappop h.heap with
  | none => .error .emptyQueueError
  | some (p, s) => .ok (p.2, ⟨s⟩)

/-- Source `IndexedHeap.peek`: `weight, item = self.heap[0]`; fails with
`EmptyQueueError` on an empty queue. -/
def peek (h : IndexedHeap W I) : Except QErr I :=
  match h.heap.arr.get? 0 with
  | none => .error .emptyQueueError
  | some p => .ok p.2

/-- Source `IndexedHeap.pushpop` (first push, then pop). -/
def pushpop (h : IndexedHeap W I) (it : I) (w : W) : I × IndexedHeap W I :=
  let r := pyheapq.heappushpop h.heap (w, it)
  (r.1.2, ⟨r.2⟩)

/-- Source `IndexedHeap.poppush` (first pop, then push); fails with
`EmptyQueueError` if the queue was empty before the call. -/
def poppush (h : IndexedHeap W I) (it : I) (w : W) :
    Except QErr (I × IndexedHeap W I) :=
  match pyheapq.heapreplace h.heap (w, it) with
  | none => .error .emptyQueueError
  | some (p, s) => .ok (p.2, ⟨s⟩)

/-- Source `IndexedHeap.change_weight`: locate the item's slot through the
index mapping (failing with `ItemNotFoundError` when the item is absent),
overwrite the stored weight, then dispatch on the sign of the change:
decreased weights sift toward the root (`pyheapq.siftdown`), increased weights
sift toward the leaves (`pyheapq.siftup`), equal weights do nothing more. -/
def change_weight (h : IndexedHeap W I) (it : I) (w : W) :
    Except QErr (IndexedHeap W I) :=
  match h.heap.indexOf it with
  | none => .error .itemNotFoundError
  | some i =>
    match h.heap.arr.get? i with
    | none => .error .indexError
    | some q =>
      let s1 := h.heap.setPair i (w, q.2)
      if w < q.1 then
        match s1.indexOf q.2 with
        | none => .error .itemNotFoundError
        | some j => .ok ⟨pyheapq.siftdown s1 0 j⟩
      else if q.1 < w then
        match s1.indexOf q.2 with
        | none => .error .itemNotFoundError
        | some j => .ok ⟨pyheapq.siftup s1 j⟩
      else .ok ⟨s1⟩

/-- Source `IndexedHeap.__bool__`. -/
def nonempty (h : IndexedHeap W I) : Bool :=
  !h.heap.arr.isEmpty

end IndexedHeap

/-! ## The graph and the search (`dijkstra.py`) -/

/-- Distances: a nonnegative number or `math.inf`. -/
abbrev DistW := WithTop ℤ

/-- Model of `defaultdict(list)` mapping a vertex to its outgoing
`(destination, weight)` edges: an insertion-ordered association list. -/
abbrev EdgeMap := List (Nat × List (Nat × ℤ))

/-- Pure lookup with the `defaultdict` default `[]`. -/
def lookupD (m : EdgeMap) (k : Nat) : List (Nat × ℤ) :=
  match m with
  | [] => []
  | (k', l) :: rest => if k' = k then l else lookupD rest k

/-- `defaultdict` subscript: returns the stored list, inserting `(k, [])` into
the mapping when the key is missing — the mutation Python performs on a missing
key. -/
def ddProbe (m : EdgeMap) (k : Nat) : List (Nat × ℤ) × EdgeMap :=
  match m with
  | [] => ([], [(k, [])])
  | (k', l) :: rest =>
    if k' = k then (l, (k', l) :: rest)
    else
      let r := ddProbe rest k
      (r.1, (k', l) :: r.2)

/-- `self.edges[source].append((destination, weight))`: append to the stored
list, creating the key when missing. -/
def ddAppend (m : EdgeMap) (k : Nat) (p : Nat × ℤ) : EdgeMap :=
  match m with
  | [] => [(k, [p])]
  | (k', l) :: rest =>
    if k' = k then (k', l ++ [p]) :: rest else (k', l) :: ddAppend rest k p

/-- Add a vertex to the vertex set (`self.vertices |= {...}`), modelled as an
insertion-ordered duplicate-free list. -/
def addVert (l : List Nat) (v : Nat) : List Nat :=
  if v ∈ l then l else l ++ [v]

/-- Source `Graph`: a set of vertices and the outgoing-edge mapping. -/
structure Graph where
  vertices : List Nat
  edges : EdgeMap

/-- Source `Graph.__init__`. -/
def Graph.empty : Graph := ⟨[], []⟩

/-- Source `Graph.add_edge`: reject negative weights with the spec's
`ValidationError`, otherwise add both endpoints to the vertex set and append
the edge. -/
def Graph.add_edge (g : Graph) (source destination : Nat) (weight : ℤ) :
    Except QErr Graph :=
  if weight < 0 then .error .validationError
  else .ok
    { vertices := addVert (addVert g.vertices destination) source
      edges := ddAppend g.edges source (destination, weight) }

/-- The local state of `Graph.distance_and_shortest_path`: the distance and
predecessor maps, the indexed heap of unexplored vertices, and the edge
mapping (carried because `defaultdict` probes extend it). -/
structure SearchSt where
  dist : Nat → DistW
  pred : Nat → Option Nat
  h : IndexedHeap DistW Nat
  edges : EdgeMap

/-- One relaxation: if the path through `v` improves `distance[neighbor]`,
update the distance and predecessor maps and the heap key. -/
def relaxEdge (v : Nat) (vdist : DistW) (st : SearchSt) (e : Nat × ℤ) :
    Except QErr SearchSt :=
  let alt : DistW := vdist + (e.2 : ℤ)
  if alt < st.dist e.1 then
    match st.h.change_weight e.1 alt with
    | .error err => .error err
    | .ok h' => .ok
      { st with
        dist := fun x => if x = e.1 then alt else st.dist x
        pred := fun x => if x = e.1 then some v else st.pred x
        h := h' }
  else .ok st

/-- The `for neighbor, edge_weight in self.edges[v]` loop. -/
def relaxList (v : Nat) (vdist : DistW) :
    SearchSt → List (Nat × ℤ) → Except QErr SearchSt
  | st, [] => .ok st
  | st, e :: rest =>
    match relaxEdge v vdist st e with
    | .error err => .error err
    | .ok st' => relaxList v vdist st' rest

/-- The `while h.peek() != destination` loop.  One fuel unit is spent per
iteration; every iteration pops one vertex, so fuel equal to the number of
vertices suffices (proved, never assumed). -/
def dspLoop (destination : Nat) : Nat → SearchSt → Except QErr SearchSt
  | 0, _ => .error .outOfFuel
  | fuel+1, st =>
    match st.h.peek with
    | .error e => .error e
    | .ok top =>
      if top = destination then .ok st
      else
        match st.h.pop with
        | .error e => .error e
        | .ok (v, h') =>
          let vdist := st.dist v
          let pr := ddProbe st.edges v
          match relaxList v vdist { st with h := h', edges := pr.2 } pr.1 with
          | .error e => .error e
          | .ok st' => dspLoop destination fuel st'

/-- The predecessor walk-back
`path = [destination]; while path[-1] != source: path.append(predecessor[path[-1]])`,
producing the pre-reversal list; `none` models a missing predecessor (Python
KeyError) or a walk longer than the fuel. -/
def traceAux (pred : Nat → Option Nat) (source : Nat) :
    Nat → Nat → Option (List Nat)
  | 0, cur => if cur = source then some [cur] else none
  | fuel+1, cur =>
    if cur = source then some [cur]
    else
      match pred cur with
      | none => none
      | some p => (traceAux pred source fuel p).map (cur :: ·)

/-- Source `Graph.distance_and_shortest_path`.  Returns the result pair
together with the graph as it stands after the call (the `defaultdict` edge
mapping can gain empty entries from probing). -/
def Graph.distance_and_shortest_path (g : Graph) (source destination : Nat) :
    Except QErr ((DistW × Option (List Nat)) × Graph) :=
  if source ∈ g.vertices ∧ destination ∈ g.vertices then
    let dist0 : Nat → DistW := fun v => if v = source then 0 else ⊤
    let h0 := IndexedHeap.ofList (g.vertices.map fun v => (dist0 v, v))
    match dspLoop destination g.vertices.length
        ⟨dist0, fun _ => none, h0, g.edges⟩ with
    | .error e => .error e
    | .ok st =>
      if st.dist destination = ⊤ then .ok ((⊤, none), ⟨g.vertices, st.edges⟩)
      else
        match traceAux st.pred source g.vertices.length destination with
        | none => .error .keyError
        | some revpath =>
          .ok ((st.dist destination, some revpath.reverse), ⟨g.vertices, st.edges⟩)
  else .ok ((⊤, none), g)

/-! ## Order lemmas for the Python tuple comparison -/

section PairOrder

variable {W I : Type} [LinearOrder W] [LinearOrder I]

theorem pairLt_irrefl (a : W × I) : ¬ pairLt a a := by
  simp [pairLt]

theorem pairLt_trans {a b c : W × I} (h1 : pairLt a b) (h2 : pairLt b c) :
    pairLt a c := by
  rcases h1 with h1 | ⟨h1e, h1i⟩ <;> rcases h2 with h2 | ⟨h2e, h2i⟩
  · exact Or.inl (lt_trans h1 h2)
  · exact Or.inl (h2e ▸ h1)
  · exact Or.inl (h1e ▸ h2)
  · exact Or.inr ⟨h1e.trans h2e, lt_trans h1i h2i⟩

theorem pairLt_asymm {a b : W × I} (h : pairLt a b) : ¬ pairLt b a := by
  intro h'
  exact pairLt_irrefl a (pairLt_trans h h')

theorem not_pairLt {a b : W × I} (h : ¬ pairLt a b) : pairLe b a := by
  rcases lt_trichotomy a.1 b.1 with hw | hw | hw
  · exact absurd (Or.inl hw) h
  · rcases lt_trichotomy a.2 b.2 with hi | hi | hi
    · exact absurd (Or.inr ⟨hw, hi⟩) h
    · exact Or.inr (Prod.ext hw.symm hi.symm)
    · exact Or.inl (Or.inr ⟨hw.symm, hi⟩)
  · exact Or.inl (Or.inl hw)

theorem pairLe_refl (a : W × I) : pairLe a a := Or.inr rfl

theorem pairLe_trans {a b c : W × I} (h1 : pairLe a b) (h2 : pairLe b c) :
    pairLe a c := by
  rcases h1 with h1 | rfl
  · rcases h2 with h2 | rfl
    · exact Or.inl (pairLt_trans h1 h2)
    · exact Or.inl h1
  · exact h2

theorem pairLt_of_lt_of_le {a b c : W × I} (h1 : pairLt a b) (h2 : pairLe b c) :
    pairLt a c := by
  rcases h2 with h2 | rfl
  · exact pairLt_trans h1 h2
  · exact h1

theorem pairLe_of_not_lt {a b : W × I} (h : ¬ pairLt a b) : pairLe b a :=
  not_pairLt h

theorem pairLe_weight {a b : W × I} (h : pairLe a b) : a.1 ≤ b.1 := by
  rcases h with h | rfl
  · rcases h with h | ⟨he, _⟩
    · exact le_of_lt h
    · exact le_of_eq he
  · exact le_rfl

theorem pairLt_of_weight_lt {a b : W × I} (h : a.1 < b.1) : pairLt a b :=
  Or.inl h

end PairOrder

/-! ## Canonical sorted index lists -/

theorem mem_addIdx {l : List Nat} {i j : Nat} :
    j ∈ addIdx l i ↔ j = i ∨ j ∈ l := by
  unfold addIdx
  split
  · rename_i hmem
    constructor
    · exact Or.inr
    · rintro (rfl | h)
      · exact hmem
      · exact h
  · rw [(List.perm_orderedInsert _ i l).mem_iff]
    simp

theorem sorted_addIdx {l : List Nat} {i : Nat}
    (hs : List.Sorted (· < ·) l) : List.Sorted (· < ·) (addIdx l i) := by
  unfold addIdx
  split
  · exact hs
  · rename_i hmem
    have hle : List.Sorted (· ≤ ·) (List.orderedInsert (· ≤ ·) i l) :=
      List.Sorted.orderedInsert i l (hs.imp le_of_lt)
    have hnd : (List.orderedInsert (· ≤ ·) i l).Nodup :=
      ((List.perm_orderedInsert _ i l).nodup_iff).mpr (List.nodup_cons.mpr ⟨hmem, hs.nodup⟩)
    exact List.Pairwise.imp₂ (fun _ _ h hne => lt_of_le_of_ne h hne) hle hnd

theorem mem_removeIdx {l : List Nat} {i j : Nat} (hs : List.Sorted (· < ·) l) :
    j ∈ removeIdx l i ↔ j ≠ i ∧ j ∈ l := by
  unfold removeIdx
  exact List.Nodup.mem_erase_iff hs.nodup

theorem sorted_removeIdx {l : List Nat} {i : Nat}
    (hs : List.Sorted (· < ·) l) : List.Sorted (· < ·) (removeIdx l i) :=
  List.Pairwise.sublist (List.erase_sublist i l) hs

theorem addIdx_removeIdx {l : List Nat} {i : Nat}
    (hs : List.Sorted (· < ·) l) (hi : i ∈ l) :
    addIdx (removeIdx l i) i = l := by
  unfold addIdx removeIdx
  have hni : i ∉ l.erase i := fun h => ((hs.nodup.mem_erase_iff).mp h).1 rfl
  rw [if_neg hni]
  induction l with
  | nil => cases hi
  | cons a t ih =>
    by_cases hai : a = i
    · subst hai
      rw [List.erase_cons_head]
      cases t with
      | nil => rfl
      | cons b t' =>
        have : a < b := (List.sorted_cons.mp hs).1 b (by simp)
        simp [List.orderedInsert, le_of_lt this]
    · rw [List.erase_cons_tail (by simpa using hai)]
      have hmem : i ∈ t := by
        rcases List.mem_cons.mp hi with h | h
        · exact absurd h.symm hai
        · exact h
      have hlt : a < i := (List.sorted_cons.mp hs).1 i hmem
      have : ¬ i ≤ a := not_le_of_lt hlt
      simp only [List.orderedInsert, if_neg this]
      rw [ih (List.sorted_cons.mp hs).2 hmem]
      · intro h
        exact hni (by
          rw [List.erase_cons_tail (by simpa using hai)]
          exact List.mem_cons_of_mem a h)

/-! ## The index-consistency invariant of `_IndexedWeightList` -/

namespace IndexedWeightList

variable {W I : Type} [LinearOrder W] [LinearOrder I]

/-- The auxiliary mapping records exactly the set of slots holding each item. -/
def IndexOk (s : IndexedWeightList W I) : Prop :=
  ∀ (it : I) (j : Nat), j ∈ s.index it ↔ ∃ w, s.arr.get? j = some (w, it)

/-- Every index list is sorted: the canonical representation of a set. -/
def IdxSorted (s : IndexedWeightList W I) : Prop :=
  ∀ it : I, List.Sorted (· < ·) (s.index it)

/-- The live items are pairwise distinct. -/
def ItemsNodup (s : IndexedWeightList W I) : Prop :=
  (s.arr.map Prod.snd).Nodup

theorem get?_set_self {α : Type} {l : List α} {i : Nat} {a : α}
    (h : i < l.length) : (l.set i a).get? i = some a := by
  simp [List.get?_eq_getElem?, List.getElem?_set, h]

theorem get?_set_ne {α : Type} {l : List α} {i j : Nat} {a : α}
    (h : i ≠ j) : (l.set i a).get? j = l.get? j := by
  simp [List.get?_eq_getElem?, List.getElem?_set, h]

theorem lt_length_of_get? {α : Type} {l : List α} {i : Nat} {a : α}
    (h : l.get? i = some a) : i < l.length := by
  rcases List.get?_eq_some.mp h with ⟨hl, _⟩
  exact hl

theorem ofList_arr (l : List (W × I)) : (ofList l).arr = l := rfl

theorem ofList_indexOk (l : List (W × I)) : IndexOk (ofList l) := by
  intro it j
  constructor
  · intro hj
    simp only [ofList, List.mem_filter, List.mem_range] at hj
    obtain ⟨hlt, hp⟩ := hj
    rcases hg : l.get? j with _ | p
    · rw [hg] at hp; simp at hp
    · rw [hg] at hp
      simp only [decide_eq_true_eq] at hp
      refine ⟨p.1, ?_⟩
      show l.get? j = _
      rw [hg, show (p.1, it) = p from Prod.ext rfl hp.symm]
  · rintro ⟨w, hw⟩
    rw [show (ofList l).arr = l from rfl] at hw
    simp only [ofList, List.mem_filter, List.mem_range]
    exact ⟨lt_length_of_get? hw, by rw [hw]; simp⟩

theorem ofList_idxSorted (l : List (W × I)) : IdxSorted (ofList l) := by
  intro it
  exact List.Pairwise.filter _ (List.pairwise_lt_range l.length)

theorem setPair_arr {s : IndexedWeightList W I} {i : Nat} {p old : W × I}
    (h : s.arr.get? i = some old) : (s.setPair i p).arr = s.arr.set i p := by
  unfold setPair
  rw [h]

theorem setPair_index {s : IndexedWeightList W I} {i : Nat} {p old : W × I}
    (h : s.arr.get? i = some old) (it : I) :
    (s.setPair i p).index it =
      (if it = p.2 then
        addIdx (if it = old.2 then removeIdx (s.index it) i else s.index it) i
      else (if it = old.2 then removeIdx (s.index it) i else s.index it)) := by
  unfold setPair
  rw [h]

theorem setPair_oob {s : IndexedWeightList W I} {i : Nat} {p : W × I}
    (h : s.arr.get? i = none) : s.setPair i p = s := by
  unfold setPair
  rw [h]

theorem setPair_idxSorted {s : IndexedWeightList W I} {i : Nat} {p old : W × I}
    (hso : IdxSorted s) (h : s.arr.get? i = some old) :
    IdxSorted (s.setPair i p) := by
  intro it
  rw [setPair_index h]
  split <;> split
  · exact sorted_addIdx (sorted_removeIdx (hso it))
  · exact sorted_addIdx (hso it)
  · exact sorted_removeIdx (hso it)
  · exact hso it

theorem setPair_indexOk {s : IndexedWeightList W I} {i : Nat} {p old : W × I}
    (hok : IndexOk s) (hso : IdxSorted s) (h : s.arr.get? i = some old) :
    IndexOk (s.setPair i p) := by
  intro it j
  have hilen : i < s.arr.length := lt_length_of_get? h
  rw [setPair_index h, setPair_arr h]
  by_cases hji : j = i
  · subst hji
    rw [get?_set_self hilen]
    by_cases hnew : it = p.2
    · rw [if_pos hnew]
      constructor
      · intro _
        exact ⟨p.1, by rw [hnew]⟩
      · intro _
        exact mem_addIdx.mpr (Or.inl rfl)
    · rw [if_neg hnew]
      constructor
      · intro hmem
        exfalso
        by_cases hold : it = old.2
        · rw [if_pos hold] at hmem
          exact ((mem_removeIdx (hso it)).mp hmem).1 rfl
        · rw [if_neg hold] at hmem
          obtain ⟨w, hw⟩ := (hok it j).mp hmem
          rw [h] at hw
          exact hold (by injection hw with hw'; rw [hw'])
      · rintro ⟨w, hw⟩
        exact absurd (by injection hw with hw'; rw [hw']) hnew
  · rw [get?_set_ne (Ne.symm hji)]
    have hbase :
        (j ∈ if it = old.2 then removeIdx (s.index it) i else s.index it) ↔
          ∃ w, s.arr.get? j = some (w, it) := by
      by_cases hold : it = old.2
      · rw [if_pos hold, mem_removeIdx (hso it)]
        constructor
        · intro ⟨_, hm⟩
          exact (hok it j).mp hm
        · intro hm
          exact ⟨hji, (hok it j).mpr hm⟩
      · rw [if_neg hold]
        exact hok it j
    by_cases hnew : it = p.2
    · rw [if_pos hnew]
      rw [mem_addIdx]
      constructor
      · rintro (rfl | hm)
        · exact absurd rfl hji
        · exact hbase.mp hm
      · intro hm
        exact Or.inr (hbase.mpr hm)
    · rw [if_neg hnew]
      exact hbase

theorem appendPair_arr (s : IndexedWeightList W I) (p : W × I) :
    (s.appendPair p).arr = s.arr ++ [p] := rfl

theorem get?_append_left {α : Type} {l : List α} {a : α} {j : Nat}
    (h : j < l.length) : (l ++ [a]).get? j = l.get? j := by
  simp [List.get?_eq_getElem?, List.getElem?_append, h]

theorem get?_append_last {α : Type} (l : List α) (a : α) :
    (l ++ [a]).get? l.length = some a := by
  simp [List.get?_eq_getElem?]

theorem get?_append_past {α : Type} {l : List α} {a : α} {j : Nat}
    (h : l.length < j) : (l ++ [a]).get? j = none := by
  have : ¬ j < l.length := by omega
  simp only [List.get?_eq_getElem?, List.getElem?_append, if_neg this]
  have h2 : 1 ≤ j - l.length := by omega
  rcases Nat.lt_or_ge (j - l.length) 1 with hc | hc
  · omega
  · simp [List.getElem?_eq_none_iff]
    omega

theorem appendPair_indexOk {s : IndexedWeightList W I} {p : W × I}
    (hok : IndexOk s) : IndexOk (s.appendPair p) := by
  intro it j
  show (j ∈ if it = p.2 then addIdx (s.index it) s.arr.length else s.index it) ↔ _
  have hbound : ∀ w : W, s.arr.get? j = some (w, it) → j < s.arr.length :=
    fun w hw => lt_length_of_get? hw
  rcases Nat.lt_trichotomy j s.arr.length with hj | hj | hj
  · rw [appendPair_arr, get?_append_left hj]
    by_cases hnew : it = p.2
    · rw [if_pos hnew, mem_addIdx]
      constructor
      · rintro (rfl | hm)
        · omega
        · exact (hok it j).mp hm
      · intro hm
        exact Or.inr ((hok it j).mpr hm)
    · rw [if_neg hnew]
      exact hok it j
  · subst hj
    rw [appendPair_arr, get?_append_last]
    by_cases hnew : it = p.2
    · rw [if_pos hnew, mem_addIdx]
      constructor
      · intro _
        exact ⟨p.1, by rw [hnew]⟩
      · intro _
        exact Or.inl rfl
    · rw [if_neg hnew]
      constructor
      · intro hm
        obtain ⟨w, hw⟩ := (hok it _).mp hm
        exact absurd hw (by simp [List.get?_eq_getElem?])
      · rintro ⟨w, hw⟩
        injection hw with hw'
        exact absurd (by rw [hw']) hnew
  · rw [appendPair_arr, get?_append_past hj]
    have hnone : ∀ w : W, s.arr.get? j = some (w, it) → False := by
      intro w hw
      have := lt_length_of_get? hw
      omega
    constructor
    · intro hm
      exfalso
      by_cases hnew : it = p.2
      · rw [if_pos hnew, mem_addIdx] at hm
        rcases hm with rfl | hm
        · omega
        · obtain ⟨w, hw⟩ := (hok it j).mp hm
          exact hnone w hw
      · rw [if_neg hnew] at hm
        obtain ⟨w, hw⟩ := (hok it j).mp hm
        exact hnone w hw
    · rintro ⟨w, hw⟩
      simp at hw

theorem appendPair_idxSorted {s : IndexedWeightList W I} {p : W × I}
    (hso : IdxSorted s) : IdxSorted (s.appendPair p) := by
  intro it
  show List.Sorted _ (if it = p.2 then addIdx (s.index it) s.arr.length else s.index it)
  split
  · exact sorted_addIdx (hso it)
  · exact hso it

theorem popLast_none {s : IndexedWeightList W I} (h : s.arr = []) :
    s.popLast = none := by
  unfold popLast
  rw [h]
  rfl

theorem popLast_some {s : IndexedWeightList W I} {p : W × I}
    (h : s.arr.getLast? = some p) :
    s.popLast = some (p,
      { arr := s.arr.dropLast
        index := fun it =>
          if it = p.2 then removeIdx (s.index it) (s.arr.length - 1)
          else s.index it }) := by
  unfold popLast
  rw [h]

theorem getLast?_get? {α : Type} {l : List α} {p : α}
    (h : l.getLast? = some p) : l.get? (l.length - 1) = some p := by
  rw [List.get?_eq_getElem?, ← List.getLast?_eq_getElem?]
  exact h

theorem get?_dropLast {α : Type} {l : List α} {j : Nat} :
    l.dropLast.get? j = if j < l.length - 1 then l.get? j else none := by
  simp only [List.get?_eq_getElem?, List.getElem?_dropLast]

theorem popLast_indexOk {s : IndexedWeightList W I} {p : W × I}
    (hok : IndexOk s) (hso : IdxSorted s) (h : s.arr.getLast? = some p) :
    IndexOk
      { arr := s.arr.dropLast
        index := fun it =>
          if it = p.2 then removeIdx (s.index it) (s.arr.length - 1)
          else s.index it } := by
  intro it j
  show (j ∈ if it = p.2 then removeIdx (s.index it) (s.arr.length - 1)
        else s.index it) ↔ ∃ w, s.arr.dropLast.get? j = some (w, it)
  rw [show s.arr.dropLast.get? j
        = if j < s.arr.length - 1 then s.arr.get? j else none from get?_dropLast]
  by_cases hj : j < s.arr.length - 1
  · rw [if_pos hj]
    by_cases hnew : it = p.2
    · rw [if_pos hnew, mem_removeIdx (hso it)]
      constructor
      · intro ⟨_, hm⟩
        exact (hok it j).mp hm
      · intro hm
        exact ⟨by omega, (hok it j).mpr hm⟩
    · rw [if_neg hnew]
      exact hok it j
  · rw [if_neg hj]
    constructor
    · intro hm
      exfalso
      have hmem : j ∈ s.index it := by
        by_cases hnew : it = p.2
        · rw [if_pos hnew] at hm
          exact ((mem_removeIdx (hso it)).mp hm).2
        · rw [if_neg hnew] at hm
          exact hm
      obtain ⟨w, hw⟩ := (hok it j).mp hmem
      have hjlen : j < s.arr.length := lt_length_of_get? hw
      have hjeq : j = s.arr.length - 1 := by omega
      subst hjeq
      rw [getLast?_get? h] at hw
      injection hw with hw'
      by_cases hnew : it = p.2
      · rw [if_pos hnew] at hm
        exact ((mem_removeIdx (hso it)).mp hm).1 rfl
      · exact hnew (by rw [hw'])
    · rintro ⟨w, hw⟩
      simp at hw

theorem popLast_idxSorted {s : IndexedWeightList W I} {p : W × I}
    (hso : IdxSorted s) :
    IdxSorted
      { arr := s.arr.dropLast
        index := fun it =>
          if it = p.2 then removeIdx (s.index it) (s.arr.length - 1)
          else s.index it } := by
  intro it
  show List.Sorted _ (if it = p.2 then removeIdx (s.index it) (s.arr.length - 1)
        else s.index it)
  split
  · exact sorted_removeIdx (hso it)
  · exact hso it

/-! ### The swap used by the sift routines -/

theorem swapPair_eq {s : IndexedWeightList W I} {i j : Nat} {a b : W × I}
    (hi : s.arr.get? i = some a) (hj : s.arr.get? j = some b) :
    s.swapPair i j = (s.setPair i b).setPair j a := by
  unfold swapPair
  rw [hi, hj]

theorem swapPair_arr {s : IndexedWeightList W I} {i j : Nat} {a b : W × I}
    (hi : s.arr.get? i = some a) (hj : s.arr.get? j = some b) (hne : i ≠ j) :
    (s.swapPair i j).arr = (s.arr.set i b).set j a := by
  rw [swapPair_eq hi hj]
  have h1 : (s.setPair i b).arr = s.arr.set i b := setPair_arr hi
  have h2 : (s.setPair i b).arr.get? j = some b := by
    rw [h1, get?_set_ne hne]
    exact hj
  rw [setPair_arr h2, h1]

theorem swapPair_get?_fst {s : IndexedWeightList W I} {i j : Nat} {a b : W × I}
    (hi : s.arr.get? i = some a) (hj : s.arr.get? j = some b) (hne : i ≠ j) :
    (s.swapPair i j).arr.get? i = some b := by
  rw [swapPair_arr hi hj hne, get?_set_ne (Ne.symm hne), get?_set_self (lt_length_of_get? hi)]

theorem swapPair_get?_snd {s : IndexedWeightList W I} {i j : Nat} {a b : W × I}
    (hi : s.arr.get? i = some a) (hj : s.arr.get? j = some b) (hne : i ≠ j) :
    (s.swapPair i j).arr.get? j = some a := by
  rw [swapPair_arr hi hj hne, get?_set_self]
  rw [List.length_set]
  exact lt_length_of_get? hj

theorem swapPair_get?_other {s : IndexedWeightList W I} {i j k : Nat} {a b : W × I}
    (hi : s.arr.get? i = some a) (hj : s.arr.get? j = some b) (hne : i ≠ j)
    (hki : k ≠ i) (hkj : k ≠ j) :
    (s.swapPair i j).arr.get? k = s.arr.get? k := by
  rw [swapPair_arr hi hj hne, get?_set_ne (Ne.symm hkj), get?_set_ne (Ne.symm hki)]

theorem swapPair_length {s : IndexedWeightList W I} {i j : Nat} {a b : W × I}
    (hi : s.arr.get? i = some a) (hj : s.arr.get? j = some b) (hne : i ≠ j) :
    (s.swapPair i j).arr.length = s.arr.length := by
  rw [swapPair_arr hi hj hne]
  simp

theorem swapPair_indexOk {s : IndexedWeightList W I} {i j : Nat} {a b : W × I}
    (hok : IndexOk s) (hso : IdxSorted s)
    (hi : s.arr.get? i = some a) (hj : s.arr.get? j = some b) (hne : i ≠ j) :
    IndexOk (s.swapPair i j) ∧ IdxSorted (s.swapPair i j) := by
  rw [swapPair_eq hi hj]
  have h1ok : IndexOk (s.setPair i b) := setPair_indexOk hok hso hi
  have h1so : IdxSorted (s.setPair i b) := setPair_idxSorted hso hi
  have h2 : (s.setPair i b).arr.get? j = some b := by
    rw [setPair_arr hi, get?_set_ne hne]
    exact hj
  exact ⟨setPair_indexOk h1ok h1so h2, setPair_idxSorted h1so h2⟩

theorem eraseIdx_cons_succ {α : Type} (x : α) (t : List α) (k : Nat) :
    (x :: t).eraseIdx (k+1) = x :: t.eraseIdx k := rfl

theorem set_perm_cons_eraseIdx {α : Type} :
    ∀ {l : List α} {k : Nat} (v : α), k < l.length →
      List.Perm (l.set k v) (v :: l.eraseIdx k)
  | [], k, v, hk => by simp at hk
  | x :: t, 0, v, _ => by simp
  | x :: t, k+1, v, hk => by
    have ih := set_perm_cons_eraseIdx (l := t) (k := k) v (by simpa using hk)
    rw [List.set_cons_succ, eraseIdx_cons_succ]
    exact (ih.cons x).trans (List.Perm.swap v x _)

theorem perm_cons_eraseIdx {α : Type} :
    ∀ {l : List α} {k : Nat} {x : α}, l.get? k = some x →
      List.Perm l (x :: l.eraseIdx k)
  | [], k, x, h => by simp at h
  | y :: t, 0, x, h => by
    injection h with h
    subst h
    simp
  | y :: t, k+1, x, h => by
    have ih := perm_cons_eraseIdx (l := t) (k := k) (x := x) (by simpa using h)
    rw [eraseIdx_cons_succ]
    exact (ih.cons y).trans (List.Perm.swap x y _)

theorem set_set_swap_perm {α : Type} :
    ∀ {l : List α} {i j : Nat} {a b : α}, i < j →
      l.get? i = some a → l.get? j = some b →
      List.Perm ((l.set i b).set j a) l
  | [], i, j, a, b, _, hi, _ => by simp at hi
  | x :: t, 0, j, a, b, hij, hi, hj => by
    injection hi with hi
    subst hi
    obtain ⟨m, rfl⟩ : ∃ m, j = m + 1 := ⟨j - 1, by omega⟩
    have hj' : t.get? m = some b := by simpa using hj
    rw [List.set_cons_zero, List.set_cons_succ]
    have h1 : List.Perm (t.set m x) (x :: t.eraseIdx m) :=
      set_perm_cons_eraseIdx x (lt_length_of_get? hj')
    have h2 : List.Perm t (b :: t.eraseIdx m) := perm_cons_eraseIdx hj'
    exact ((h1.cons b).trans ((List.Perm.swap x b _).trans
      ((h2.symm).cons x))).trans (List.Perm.refl _)
  | x :: t, i+1, j, a, b, hij, hi, hj => by
    obtain ⟨m, rfl⟩ : ∃ m, j = m + 1 := ⟨j - 1, by omega⟩
    have ih := set_set_swap_perm (l := t) (i := i) (j := m) (a := a) (b := b)
      (by omega) (by simpa using hi) (by simpa using hj)
    rw [List.set_cons_succ, List.set_cons_succ]
    exact ih.cons x

theorem swapPair_perm {s : IndexedWeightList W I} {i j : Nat} {a b : W × I}
    (hi : s.arr.get? i = some a) (hj : s.arr.get? j = some b) (hne : i ≠ j) :
    (s.swapPair i j).arr.Perm s.arr := by
  rw [swapPair_arr hi hj hne]
  rcases Nat.lt_or_ge i j with hij | hge
  · exact set_set_swap_perm hij hi hj
  · have hji : j < i := by omega
    rw [List.set_comm _ _ _ hne]
    exact set_set_swap_perm hji hj hi

theorem swapPair_items_perm {s : IndexedWeightList W I} {i j : Nat} {a b : W × I}
    (hi : s.arr.get? i = some a) (hj : s.arr.get? j = some b) (hne : i ≠ j) :
    ((s.swapPair i j).arr.map Prod.snd).Perm (s.arr.map Prod.snd) :=
  (swapPair_perm hi hj hne).map Prod.snd

/-! ### Items, `indexOf` and `hasItem` under the invariants -/

theorem mem_items_iff {s : IndexedWeightList W I} {it : I} :
    it ∈ s.arr.map Prod.snd ↔ ∃ j w, s.arr.get? j = some (w, it) := by
  rw [List.mem_map]
  constructor
  · rintro ⟨p, hp, rfl⟩
    obtain ⟨j, hj⟩ := List.get?_of_mem hp
    exact ⟨j, p.1, by rw [hj]⟩
  · rintro ⟨j, w, hj⟩
    exact ⟨(w, it), List.get?_mem hj, rfl⟩

theorem index_nil_of_not_mem {s : IndexedWeightList W I} {it : I}
    (hok : IndexOk s) (hmem : it ∉ s.arr.map Prod.snd) : s.index it = [] := by
  rw [List.eq_nil_iff_forall_not_mem]
  intro j hj
  obtain ⟨w, hw⟩ := (hok it j).mp hj
  exact hmem (mem_items_iff.mpr ⟨j, w, hw⟩)

theorem sorted_unique_mem {l : List Nat} {j : Nat}
    (hs : List.Sorted (· < ·) l) (hiff : ∀ x, x ∈ l ↔ x = j) : l = [j] := by
  cases l with
  | nil => exact absurd ((hiff j).mpr rfl) (by simp)
  | cons a t =>
    have ha : a = j := (hiff a).mp (by simp)
    subst ha
    cases t with
    | nil => rfl
    | cons b t' =>
      have hb : b = a := (hiff b).mp (by simp)
      have : a < b := (List.sorted_cons.mp hs).1 b (by simp)
      omega

theorem items_get?_inj {s : IndexedWeightList W I} (hnd : ItemsNodup s)
    {j1 j2 : Nat} {w1 w2 : W} {it : I}
    (h1 : s.arr.get? j1 = some (w1, it)) (h2 : s.arr.get? j2 = some (w2, it)) :
    j1 = j2 := by
  have hm1 : (s.arr.map Prod.snd).get? j1 = some it := by
    rw [List.get?_map, h1]; rfl
  have hm2 : (s.arr.map Prod.snd).get? j2 = some it := by
    rw [List.get?_map, h2]; rfl
  rcases List.get?_eq_some.mp hm1 with ⟨hl1, hg1⟩
  rcases List.get?_eq_some.mp hm2 with ⟨hl2, hg2⟩
  have : (s.arr.map Prod.snd).get ⟨j1, hl1⟩ = (s.arr.map Prod.snd).get ⟨j2, hl2⟩ := by
    rw [hg1, hg2]
  simp only [List.get_eq_getElem] at this
  exact (List.Nodup.getElem_inj_iff hnd).mp this

theorem index_eq_singleton {s : IndexedWeightList W I} {it : I} {j : Nat} {w : W}
    (hok : IndexOk s) (hso : IdxSorted s) (hnd : ItemsNodup s)
    (hj : s.arr.get? j = some (w, it)) : s.index it = [j] := by
  apply sorted_unique_mem (hso it)
  intro x
  rw [hok it x]
  constructor
  · rintro ⟨w', hw'⟩
    exact items_get?_inj hnd hw' hj
  · rintro rfl
    exact ⟨w, hj⟩

theorem indexOf_eq_some {s : IndexedWeightList W I} {it : I} {j : Nat} {w : W}
    (hok : IndexOk s) (hso : IdxSorted s) (hnd : ItemsNodup s)
    (hj : s.arr.get? j = some (w, it)) : s.indexOf it = some j := by
  unfold indexOf
  rw [index_eq_singleton hok hso hnd hj]

theorem indexOf_eq_none {s : IndexedWeightList W I} {it : I}
    (hok : IndexOk s) (hmem : it ∉ s.arr.map Prod.snd) : s.indexOf it = none := by
  unfold indexOf
  rw [index_nil_of_not_mem hok hmem]

theorem hasItem_iff {s : IndexedWeightList W I} {it : I} (hok : IndexOk s) :
    s.hasItem it = true ↔ it ∈ s.arr.map Prod.snd := by
  unfold hasItem
  rw [Bool.not_eq_eq_eq_not, Bool.not_true, List.isEmpty_eq_false_iff_exists_mem]
  constructor
  · rintro ⟨j, hj⟩
    obtain ⟨w, hw⟩ := (hok it j).mp hj
    exact mem_items_iff.mpr ⟨j, w, hw⟩
  · intro hm
    obtain ⟨j, w, hw⟩ := mem_items_iff.mp hm
    exact ⟨j, (hok it j).mpr ⟨w, hw⟩⟩

end IndexedWeightList

/-! ## Binary heap positions -/

/-- `c` is a child slot of `p` in the implicit binary tree. -/
def ChildOf (p c : Nat) : Prop := c = 2*p+1 ∨ c = 2*p+2

/-- `j` lies in the subtree rooted at slot `i`. -/
inductive Desc : Nat → Nat → Prop where
  | refl (i : Nat) : Desc i i
  | left {i j : Nat} : Desc i j → Desc i (2*j+1)
  | right {i j : Nat} : Desc i j → Desc i (2*j+2)

theorem Desc.le {i j : Nat} (h : Desc i j) : i ≤ j := by
  induction h with
  | refl => exact le_rfl
  | left _ ih => omega
  | right _ ih => omega

theorem Desc.trans {i j k : Nat} (h1 : Desc i j) (h2 : Desc j k) : Desc i k := by
  induction h2 with
  | refl => exact h1
  | left _ ih => exact Desc.left ih
  | right _ ih => exact Desc.right ih

theorem parent_split (j : Nat) (hj : 0 < j) :
    j = 2*((j-1)/2)+1 ∨ j = 2*((j-1)/2)+2 := by omega

theorem desc_zero (j : Nat) : Desc 0 j := by
  induction j using Nat.strong_induction_on with
  | _ j ih =>
    rcases Nat.eq_zero_or_pos j with rfl | hj
    · exact Desc.refl 0
    · have hp : (j-1)/2 < j := by omega
      have hd := ih _ hp
      rcases parent_split j hj with h | h
      · rw [h]; exact Desc.left hd
      · rw [h]; exact Desc.right hd

theorem childOf_parent {j : Nat} (hj : 0 < j) : ChildOf ((j-1)/2) j :=
  (parent_split j hj).imp id id

theorem childOf_pos {p c : Nat} (h : ChildOf p c) : 0 < c := by
  rcases h with h | h <;> omega

theorem childOf_gt {p c : Nat} (h : ChildOf p c) : p < c := by
  rcases h with h | h <;> omega

theorem childOf_parent_eq {p c : Nat} (h : ChildOf p c) : p = (c-1)/2 := by
  rcases h with h | h <;> omega

theorem Desc.of_childOf {i p c : Nat} (h : Desc i p) (hc : ChildOf p c) :
    Desc i c := by
  rcases hc with rfl | rfl
  · exact Desc.left h
  · exact Desc.right h

theorem desc_elim {i c : Nat} (h : Desc i c) : c = i ∨ Desc i ((c-1)/2) := by
  induction h with
  | refl => exact Or.inl rfl
  | left h ih =>
    rename_i j
    right
    have he : (2*j+1-1)/2 = j := by omega
    rw [he]
    exact h
  | right h ih =>
    rename_i j
    right
    have he : (2*j+2-1)/2 = j := by omega
    rw [he]
    exact h

theorem desc_split {i c : Nat} (h : Desc i c) :
    c = i ∨ Desc (2*i+1) c ∨ Desc (2*i+2) c := by
  induction h with
  | refl => exact Or.inl rfl
  | left h ih =>
    rename_i j
    rcases ih with rfl | ih | ih
    · exact Or.inr (Or.inl (Desc.refl _))
    · exact Or.inr (Or.inl (Desc.left ih))
    · exact Or.inr (Or.inr (Desc.left ih))
  | right h ih =>
    rename_i j
    rcases ih with rfl | ih | ih
    · exact Or.inr (Or.inr (Desc.refl _))
    · exact Or.inr (Or.inl (Desc.right ih))
    · exact Or.inr (Or.inr (Desc.right ih))

theorem not_desc_of_lt {i j : Nat} (h : j < i) : ¬ Desc i j :=
  fun hd => absurd hd.le (by omega)

/-! ## The heap ordering invariant -/

section HeapOrder

variable {W I : Type} [LinearOrder W] [LinearOrder I]

/-- All parent-child slot pairs with parent at or after `k` are ordered. -/
def HeapOrdFrom (l : List (W × I)) (k : Nat) : Prop :=
  ∀ p c a b, k ≤ p → ChildOf p c →
    l.get? p = some a → l.get? c = some b → pairLe a b

/-- The binary min-heap ordering invariant: every slot's pair is at most its
children's pairs in the tuple order. -/
def HeapOrd (l : List (W × I)) : Prop := HeapOrdFrom l 0

/-- All parent-child slot pairs inside the subtree rooted at `r` are ordered. -/
def SubOrd (l : List (W × I)) (r : Nat) : Prop :=
  ∀ p c a b, Desc r p → ChildOf p c →
    l.get? p = some a → l.get? c = some b → pairLe a b

theorem heapOrd_subOrd {l : List (W × I)} (h : HeapOrd l) (r : Nat) :
    SubOrd l r :=
  fun p c a b _ hc hp hcg => h p c a b (Nat.zero_le p) hc hp hcg

theorem subOrd_zero_heapOrd {l : List (W × I)} (h : SubOrd l 0) : HeapOrd l :=
  fun p c a b _ hc hp hcg => h p c a b (desc_zero p) hc hp hcg

theorem exists_get?_of_lt {α : Type} {l : List α} {j : Nat}
    (h : j < l.length) : ∃ v, l.get? j = some v := by
  rcases hg : l.get? j with _ | v
  · rw [List.get?_eq_getElem?] at hg
    rw [List.getElem?_eq_none_iff] at hg
    omega
  · exact ⟨v, rfl⟩

theorem subOrd_root_le {l : List (W × I)} {r : Nat} (h : SubOrd l r)
    {j : Nat} (hd : Desc r j) :
    ∀ {a b}, l.get? r = some a → l.get? j = some b → pairLe a b := by
  induction hd with
  | refl =>
    intro a b h1 h2
    rw [h1] at h2
    injection h2 with h2
    exact h2 ▸ pairLe_refl a
  | left hd ih =>
    intro a b h1 h2
    rename_i j'
    have hj' : j' < l.length := by
      have := IndexedWeightList.lt_length_of_get? h2
      omega
    obtain ⟨v, hv⟩ := exists_get?_of_lt hj'
    exact pairLe_trans (ih h1 hv) (h _ _ _ _ hd (Or.inl rfl) hv h2)
  | right hd ih =>
    intro a b h1 h2
    rename_i j'
    have hj' : j' < l.length := by
      have := IndexedWeightList.lt_length_of_get? h2
      omega
    obtain ⟨v, hv⟩ := exists_get?_of_lt hj'
    exact pairLe_trans (ih h1 hv) (h _ _ _ _ hd (Or.inr rfl) hv h2)

theorem heapOrd_root_min {l : List (W × I)} {r : W × I} (h : HeapOrd l)
    (hr : l.get? 0 = some r) : ∀ {j b}, l.get? j = some b → pairLe r b :=
  fun hb => subOrd_root_le (heapOrd_subOrd h 0) (desc_zero _) hr hb

end HeapOrder

/-! ## Effects of the sift routines -/

namespace pyheapq

variable {W I : Type} [LinearOrder W] [LinearOrder I]

open IndexedWeightList

theorem siftupFuel_step (fuel : Nat) (s : IndexedWeightList W I) (pos : Nat) :
    (¬ 2*pos+1 < s.arr.length ∧ siftupFuel (fuel+1) s pos = s) ∨
    (∃ c a b, ChildOf pos c ∧ c < s.arr.length ∧
      s.arr.get? c = some a ∧ s.arr.get? pos = some b ∧
      (∀ o v, ChildOf pos o → s.arr.get? o = some v → pairLe a v) ∧
      ((¬ pairLt a b ∧ siftupFuel (fuel+1) s pos = s) ∨
       (pairLt a b ∧
        siftupFuel (fuel+1) s pos = siftupFuel fuel (s.swapPair pos c) c))) := by
  by_cases hl : 2*pos+1 < s.arr.length
  · right
    have hposlen : pos < s.arr.length := by omega
    obtain ⟨vl, hvl⟩ := exists_get?_of_lt hl
    obtain ⟨vp, hvp⟩ := exists_get?_of_lt hposlen
    have hvl2 : s.arr[2*pos+1]? = some vl := by
      rw [← List.get?_eq_getElem?]; exact hvl
    have hvp2 : s.arr[pos]? = some vp := by
      rw [← List.get?_eq_getElem?]; exact hvp
    by_cases hr : 2*pos+2 < s.arr.length
    · obtain ⟨vr, hvr⟩ := exists_get?_of_lt hr
      have hvr2 : s.arr[2*pos+2]? = some vr := by
        rw [← List.get?_eq_getElem?]; exact hvr
      by_cases hcmp : pairLt vr vl
      · refine ⟨2*pos+2, vr, vp, Or.inr rfl, hr, hvr, hvp, ?_, ?_⟩
        · intro o v ho hv
          rcases ho with rfl | rfl
          · rw [hvl] at hv
            injection hv with hv
            exact hv ▸ Or.inl hcmp
          · rw [hvr] at hv
            injection hv with hv
            exact hv ▸ pairLe_refl _
        · by_cases hswap : pairLt vr vp
          · refine Or.inr ⟨hswap, ?_⟩
            simp [siftupFuel, hl, hr, hcmp, hswap, hvl2, hvr2, hvp2]
          · refine Or.inl ⟨hswap, ?_⟩
            simp [siftupFuel, hl, hr, hcmp, hswap, hvl2, hvr2, hvp2]
      · refine ⟨2*pos+1, vl, vp, Or.inl rfl, hl, hvl, hvp, ?_, ?_⟩
        · intro o v ho hv
          rcases ho with rfl | rfl
          · rw [hvl] at hv
            injection hv with hv
            exact hv ▸ pairLe_refl _
          · rw [hvr] at hv
            injection hv with hv
            exact hv ▸ pairLe_of_not_lt hcmp
        · by_cases hswap : pairLt vl vp
          · refine Or.inr ⟨hswap, ?_⟩
            simp [siftupFuel, hl, hr, hcmp, hswap, hvl2, hvr2, hvp2]
          · refine Or.inl ⟨hswap, ?_⟩
            simp [siftupFuel, hl, hr, hcmp, hswap, hvl2, hvr2, hvp2]
    · refine ⟨2*pos+1, vl, vp, Or.inl rfl, hl, hvl, hvp, ?_, ?_⟩
      · intro o v ho hv
        rcases ho with rfl | rfl
        · rw [hvl] at hv
          injection hv with hv
          exact hv ▸ pairLe_refl _
        · have := lt_length_of_get? hv
          omega
      · by_cases hswap : pairLt vl vp
        · refine Or.inr ⟨hswap, ?_⟩
          simp [siftupFuel, hl, hr, hswap, hvl2, hvp2]
        · refine Or.inl ⟨hswap, ?_⟩
          simp [siftupFuel, hl, hr, hswap, hvl2, hvp2]
  · left
    refine ⟨hl, ?_⟩
    simp [siftupFuel, hl]

theorem siftupFuel_effects (fuel : Nat) :
    ∀ (s : IndexedWeightList W I) (pos : Nat),
      (siftupFuel fuel s pos).arr.Perm s.arr ∧
      (∀ j, ¬ Desc pos j →
        (siftupFuel fuel s pos).arr.get? j = s.arr.get? j) ∧
      (IndexOk s → IdxSorted s →
        IndexOk (siftupFuel fuel s pos) ∧ IdxSorted (siftupFuel fuel s pos)) := by
  induction fuel with
  | zero =>
    intro s pos
    exact ⟨List.Perm.refl _, fun _ _ => rfl, fun h1 h2 => ⟨h1, h2⟩⟩
  | succ fuel ih =>
    intro s pos
    rcases siftupFuel_step fuel s pos with ⟨_, heq⟩ |
      ⟨c, a, b, hc, hcl, hga, hgb, _, (⟨_, heq⟩ | ⟨hlt, heq⟩)⟩
    · rw [heq]
      exact ⟨List.Perm.refl _, fun _ _ => rfl, fun h1 h2 => ⟨h1, h2⟩⟩
    · rw [heq]
      exact ⟨List.Perm.refl _, fun _ _ => rfl, fun h1 h2 => ⟨h1, h2⟩⟩
    · rw [heq]
      have hne : pos ≠ c := Nat.ne_of_lt (childOf_gt hc)
      obtain ⟨ihp, ihl, ihok⟩ := ih (s.swapPair pos c) c
      refine ⟨ihp.trans (swapPair_perm hgb hga hne), ?_, ?_⟩
      · intro j hj
        have hjpos : j ≠ pos := fun h => hj (h ▸ Desc.refl pos)
        have hjc : j ≠ c := fun h => hj (h ▸ Desc.of_childOf (Desc.refl pos) hc)
        have hjdc : ¬ Desc c j :=
          fun h => hj ((Desc.of_childOf (Desc.refl pos) hc).trans h)
        rw [ihl j hjdc, swapPair_get?_other hgb hga hne hjpos hjc]
      · intro h1 h2
        obtain ⟨h1', h2'⟩ := swapPair_indexOk h1 h2 hgb hga hne
        exact ihok h1' h2'

theorem desc_sibling_disjoint {i : Nat} :
    ∀ j, Desc (2*i+1) j → Desc (2*i+2) j → False := by
  intro j
  induction j using Nat.strong_induction_on with
  | _ j ih =>
    intro h1 h2
    rcases desc_elim h1 with rfl | h1'
    · exact absurd h2.le (by omega)
    · rcases desc_elim h2 with rfl | h2'
      · rcases desc_elim h1 with heq | h1x
        · omega
        · have he : (2*i+2-1)/2 = i := by omega
          rw [he] at h1x
          exact absurd h1x.le (by omega)
      · have hj : 0 < j := by
          have := h1.le
          omega
        have hlt : (j-1)/2 < j := by omega
        exact ih _ hlt h1' h2'

theorem desc_childOf_subtree {pos c j : Nat} (hc : ChildOf pos c)
    (ho : ChildOf pos j) (hne : j ≠ c) : ¬ Desc c j := by
  intro hd
  rcases desc_elim hd with rfl | hd'
  · exact hne rfl
  · rcases hc with rfl | rfl <;> rcases ho with rfl | rfl
    · exact hne rfl
    · have he : (2*pos+2-1)/2 = pos := by omega
      rw [he] at hd'
      exact absurd hd'.le (by omega)
    · have he : (2*pos+1-1)/2 = pos := by omega
      rw [he] at hd'
      exact absurd hd'.le (by omega)
    · exact hne rfl

theorem siftupFuel_subOrd (fuel : Nat) :
    ∀ (s : IndexedWeightList W I) (pos : Nat),
      s.arr.length - pos ≤ fuel →
      SubOrd s.arr (2*pos+1) → SubOrd s.arr (2*pos+2) →
      SubOrd (siftupFuel fuel s pos).arr pos ∧
      (∀ b0 : W × I,
        (∀ j v, Desc pos j → s.arr.get? j = some v → pairLe b0 v) →
        (∀ j v, Desc pos j →
          (siftupFuel fuel s pos).arr.get? j = some v → pairLe b0 v)) := by
  induction fuel with
  | zero =>
    intro s pos hfuel H1 H2
    constructor
    · intro p c a b hdp hcc hgp hgc
      have : p < s.arr.length := lt_length_of_get? (by simpa using hgp)
      have := hdp.le
      omega
    · intro b0 hb j v hd hg
      exact hb j v hd hg
  | succ fuel ih =>
    intro s pos hfuel H1 H2
    rcases siftupFuel_step fuel s pos with ⟨hnc, heq⟩ |
      ⟨c, a, b, hc, hcl, hga, hgb, hmin, (⟨hnlt, heq⟩ | ⟨hlt, heq⟩)⟩
    · -- no children in range: subtree of pos is a leaf
      rw [heq]
      constructor
      · intro p ch x y hdp hcc hgp hgc
        have hchlen : ch < s.arr.length := lt_length_of_get? hgc
        have h1 := hdp.le
        have h2 := childOf_gt hcc
        rcases hcc with rfl | rfl <;> omega
      · intro b0 hb j v hd hg
        exact hb j v hd hg
    · -- children in range but the smallest child is not smaller: no change
      rw [heq]
      constructor
      · intro p ch x y hdp hcc hgp hgc
        rcases desc_split hdp with rfl | hds | hds
        · -- p = pos: edge from pos to a child
          rw [hgb] at hgp
          injection hgp with hgp
          subst hgp
          exact pairLe_trans (pairLe_of_not_lt hnlt) (hmin ch y hcc hgc)
        · exact H1 p ch x y hds hcc hgp hgc
        · exact H2 p ch x y hds hcc hgp hgc
      · intro b0 hb j v hd hg
        exact hb j v hd hg
    · -- swap with the smallest child c and recurse there
      rw [heq]
      have hposc : pos ≠ c := Nat.ne_of_lt (childOf_gt hc)
      have hposlt : pos < c := childOf_gt hc
      set s' := s.swapPair pos c with hs'
      have hlen' : s'.arr.length = s.arr.length :=
        (swapPair_perm hgb hga hposc).length_eq
      have hgp' : s'.arr.get? pos = some a := swapPair_get?_fst hgb hga hposc
      have hgc' : s'.arr.get? c = some b := swapPair_get?_snd hgb hga hposc
      have hother : ∀ k, k ≠ pos → k ≠ c → s'.arr.get? k = s.arr.get? k :=
        fun k h1 h2 => swapPair_get?_other hgb hga hposc h1 h2
      -- the chosen child's subtree in s, as a SubOrd fact
      have hsc : SubOrd s.arr c := by
        rcases hc with rfl | rfl
        · exact H1
        · exact H2
      -- positions strictly inside any subtree of a child of pos are unchanged
      have hdeep : ∀ k, Desc (2*c+1) k ∨ Desc (2*c+2) k →
          s'.arr.get? k = s.arr.get? k := by
        intro k hk
        have hkgt : 2*c+1 ≤ k := by
          rcases hk with hk | hk
          · exact hk.le
          · have := hk.le
            omega
        exact hother k (by omega) (by omega)
      have hrec1 : SubOrd s'.arr (2*c+1) := by
        intro p ch x y hdp hcc hgp hgc
        have hp1 : 2*c+1 ≤ p := hdp.le
        have hch : 2*c+1 ≤ ch := by
          have := childOf_gt hcc
          omega
        rw [hother p (by omega) (by omega)] at hgp
        rw [hother ch (by omega) (by omega)] at hgc
        exact hsc p ch x y ((Desc.left (Desc.refl c)).trans hdp) hcc hgp hgc
      have hrec2 : SubOrd s'.arr (2*c+2) := by
        intro p ch x y hdp hcc hgp hgc
        have hp1 : 2*c+2 ≤ p := hdp.le
        have hch : 2*c+2 ≤ ch := by
          have := childOf_gt hcc
          omega
        rw [hother p (by omega) (by omega)] at hgp
        rw [hother ch (by omega) (by omega)] at hgc
        exact hsc p ch x y ((Desc.right (Desc.refl c)).trans hdp) hcc hgp hgc
      have hfuel' : s'.arr.length - c ≤ fuel := by
        rw [hlen']
        omega
      obtain ⟨ihSub, ihBound⟩ := ih s' c hfuel' hrec1 hrec2
      have ihLoc := (siftupFuel_effects fuel s' c).2.1
      -- a is a lower bound for everything in the subtree of c, in s'
      have haBound : ∀ j v, Desc c j → s'.arr.get? j = some v → pairLe a v := by
        intro j v hd hg
        by_cases hjc : j = c
        · subst hjc
          rw [hgc'] at hg
          injection hg with hg
          exact hg ▸ Or.inl hlt
        · have hjge : 2*c+1 ≤ j := by
            rcases desc_elim hd with rfl | hd'
            · exact absurd rfl hjc
            · have h1 := hd.le
              have h2 := hd'.le
              rcases desc_split hd with rfl | hs1 | hs1
              · exact absurd rfl hjc
              · have := hs1.le
                omega
              · have := hs1.le
                omega
          rw [hother j (by omega) (by omega)] at hg
          exact subOrd_root_le hsc hd hga hg
      constructor
      · intro p ch x y hdp hcc hgp hgc
        by_cases hpc : Desc c p
        · exact ihSub p ch x y hpc hcc hgp hgc
        · -- p is not in the subtree of c, so its slot is untouched by recursion
          have hgp2 : s'.arr.get? p = some x := by
            rw [← ihLoc p hpc]
            exact hgp
          by_cases hppos : p = pos
          · -- edge from pos after the swap: the moved-up child value a
            have hax : a = x := by
              rw [hppos, hgp'] at hgp2
              injection hgp2
            have hcc' : ChildOf pos ch := hppos ▸ hcc
            by_cases hchc : ch = c
            · rw [hchc] at hgc
              exact hax ▸ ihBound a haBound c y (Desc.refl c) hgc
            · -- the sibling child: untouched everywhere
              have hnotdesc : ¬ Desc c ch := desc_childOf_subtree hc hcc' hchc
              have hgc2 : s.arr.get? ch = some y := by
                rw [← hother ch (Nat.ne_of_gt (childOf_gt hcc')) hchc,
                  ← ihLoc ch hnotdesc]
                exact hgc
              exact hax ▸ hmin ch y hcc' hgc2
          · -- p lies in the sibling subtree: fully untouched
            have hdsib : ∃ o, ChildOf pos o ∧ o ≠ c ∧ Desc o p := by
              rcases desc_split hdp with rfl | hds | hds
              · exact absurd rfl hppos
              · by_cases h1c : c = 2*pos+1
                · exact absurd (h1c ▸ hds) hpc
                · have : ChildOf pos (2*pos+1) := Or.inl rfl
                  exact ⟨2*pos+1, this, fun he => h1c he.symm, hds⟩
              · by_cases h2c : c = 2*pos+2
                · exact absurd (h2c ▸ hds) hpc
                · have : ChildOf pos (2*pos+2) := Or.inr rfl
                  exact ⟨2*pos+2, this, fun he => h2c he.symm, hds⟩
            obtain ⟨o, hco, honc, hdo⟩ := hdsib
            have hsibling : SubOrd s.arr o := by
              rcases hco with rfl | rfl
              · exact H1
              · exact H2
            have hchdesc : Desc o ch := hdo.of_childOf hcc
            have hchc : ¬ Desc c ch := by
              intro hcd
              rcases hco with rfl | rfl <;> rcases hc with rfl | rfl
              · exact honc rfl
              · exact desc_sibling_disjoint ch hchdesc hcd
              · exact desc_sibling_disjoint ch hcd hchdesc
              · exact honc rfl
            have hppos2 : p ≠ pos := hppos
            have hpgt : pos < p := lt_of_lt_of_le (childOf_gt hco) hdo.le
            have hchgt : pos < ch := lt_of_lt_of_le (childOf_gt hco) hchdesc.le
            have hpc2 : p ≠ c := fun he => hpc (he ▸ Desc.refl c)
            have hchc2 : ch ≠ c := fun he => hchc (he ▸ Desc.refl c)
            have hgp3 : s.arr.get? p = some x := by
              rw [← hother p hppos2 hpc2, ← ihLoc p hpc]
              exact hgp
            have hgc3 : s.arr.get? ch = some y := by
              rw [← hother ch (Nat.ne_of_gt hchgt) hchc2, ← ihLoc ch hchc]
              exact hgc
            exact hsibling p ch x y hdo hcc hgp3 hgc3
      · -- preservation of lower bounds over the subtree of pos
        intro b0 hb j v hd hg
        have hb' : ∀ j' v', Desc c j' → s'.arr.get? j' = some v' →
            pairLe b0 v' := by
          intro j' v' hd' hg'
          by_cases hj'c : j' = c
          · subst hj'c
            rw [hgc'] at hg'
            injection hg' with hg'
            exact hg' ▸ hb pos b (Desc.refl pos) hgb
          · have hjge : 2*c+1 ≤ j' := by
              rcases desc_split hd' with rfl | hs1 | hs1
              · exact absurd rfl hj'c
              · have := hs1.le
                omega
              · have := hs1.le
                omega
            rw [hother j' (by omega) (by omega)] at hg'
            exact hb j' v' ((Desc.refl pos).of_childOf hc |>.trans hd') hg'
        by_cases hjc : Desc c j
        · exact ihBound b0 hb' j v hjc hg
        · have hg2 : s'.arr.get? j = some v := by
            rw [← ihLoc j hjc]
            exact hg
          by_cases hjpos : j = pos
          · have hav : a = v := by
              rw [hjpos, hgp'] at hg2
              injection hg2
            exact hav ▸ hb c a ((Desc.refl pos).of_childOf hc) hga
          · have hjc2 : j ≠ c := fun he => hjc (he ▸ Desc.refl c)
            rw [hother j hjpos hjc2] at hg2
            exact hb j v hd hg2

theorem siftdownFuel_step (fuel : Nat) (s : IndexedWeightList W I)
    (start pos : Nat) :
    (pos ≤ start ∧ siftdownFuel (fuel+1) s start pos = s) ∨
    (start < pos ∧ ¬ pos < s.arr.length ∧
      siftdownFuel (fuel+1) s start pos = s) ∨
    (start < pos ∧ ∃ a b, s.arr.get? pos = some a ∧
      s.arr.get? ((pos-1)/2) = some b ∧
      ((¬ pairLt a b ∧ siftdownFuel (fuel+1) s start pos = s) ∨
       (pairLt a b ∧ siftdownFuel (fuel+1) s start pos =
          siftdownFuel fuel (s.swapPair pos ((pos-1)/2)) start ((pos-1)/2)))) := by
  by_cases hps : pos ≤ start
  · left
    refine ⟨hps, ?_⟩
    simp [siftdownFuel, hps]
  · by_cases hlen : pos < s.arr.length
    · right; right
      obtain ⟨a, ha⟩ := exists_get?_of_lt hlen
      have hplen : (pos-1)/2 < s.arr.length := by omega
      obtain ⟨b, hb⟩ := exists_get?_of_lt hplen
      have ha2 : s.arr[pos]? = some a := by rw [← List.get?_eq_getElem?]; exact ha
      have hb2 : s.arr[(pos-1)/2]? = some b := by
        rw [← List.get?_eq_getElem?]; exact hb
      refine ⟨by omega, a, b, ha, hb, ?_⟩
      by_cases hcmp : pairLt a b
      · refine Or.inr ⟨hcmp, ?_⟩
        simp [siftdownFuel, hps, ha2, hb2, hcmp]
      · refine Or.inl ⟨hcmp, ?_⟩
        simp [siftdownFuel, hps, ha2, hb2, hcmp]
    · right; left
      refine ⟨by omega, hlen, ?_⟩
      have ha2 : s.arr[pos]? = none := by
        rw [List.getElem?_eq_none_iff]
        omega
      simp [siftdownFuel, hps, ha2]

theorem siftdownFuel_effects (fuel : Nat) :
    ∀ (s : IndexedWeightList W I) (start pos : Nat),
      (siftdownFuel fuel s start pos).arr.Perm s.arr ∧
      (IndexOk s → IdxSorted s →
        IndexOk (siftdownFuel fuel s start pos) ∧
          IdxSorted (siftdownFuel fuel s start pos)) := by
  induction fuel with
  | zero =>
    intro s start pos
    exact ⟨List.Perm.refl _, fun h1 h2 => ⟨h1, h2⟩⟩
  | succ fuel ih =>
    intro s start pos
    rcases siftdownFuel_step fuel s start pos with ⟨_, heq⟩ | ⟨_, _, heq⟩ |
      ⟨hsp, a, b, ha, hb, (⟨_, heq⟩ | ⟨hlt, heq⟩)⟩
    · rw [heq]
      exact ⟨List.Perm.refl _, fun h1 h2 => ⟨h1, h2⟩⟩
    · rw [heq]
      exact ⟨List.Perm.refl _, fun h1 h2 => ⟨h1, h2⟩⟩
    · rw [heq]
      exact ⟨List.Perm.refl _, fun h1 h2 => ⟨h1, h2⟩⟩
    · rw [heq]
      have hne : pos ≠ (pos-1)/2 := by omega
      obtain ⟨ihp, ihok⟩ := ih (s.swapPair pos ((pos-1)/2)) start ((pos-1)/2)
      refine ⟨ihp.trans (swapPair_perm ha hb hne), ?_⟩
      intro h1 h2
      obtain ⟨h1', h2'⟩ := swapPair_indexOk h1 h2 ha hb hne
      exact ihok h1' h2'

theorem siftdownFuel_heapOrd (fuel : Nat) :
    ∀ (s : IndexedWeightList W I) (pos : Nat),
      pos < fuel →
      (∀ p c x y, ChildOf p c → c ≠ pos →
        s.arr.get? p = some x → s.arr.get? c = some y → pairLe x y) →
      (0 < pos → ∀ y c v, s.arr.get? ((pos-1)/2) = some y → ChildOf pos c →
        s.arr.get? c = some v → pairLe y v) →
      HeapOrd (siftdownFuel fuel s 0 pos).arr := by
  induction fuel with
  | zero =>
    intro s pos hf
    omega
  | succ fuel ih =>
    intro s pos hf HA HG
    rcases siftdownFuel_step fuel s 0 pos with ⟨hps, heq⟩ | ⟨hsp, hlen, heq⟩ |
      ⟨hsp, a, b, ha, hb, (⟨hnlt, heq⟩ | ⟨hlt, heq⟩)⟩
    · -- pos = 0: every slot other than the root is some slot's child
      rw [heq]
      intro p c x y _ hcc hgp hgc
      exact HA p c x y hcc (by have := childOf_pos hcc; omega) hgp hgc
    · -- pos out of range: no child slot equals pos
      rw [heq]
      intro p c x y _ hcc hgp hgc
      by_cases hcpos : c = pos
      · rw [hcpos] at hgc
        have := lt_length_of_get? hgc
        omega
      · exact HA p c x y hcc hcpos hgp hgc
    · -- the moved element is not smaller than its parent: done
      rw [heq]
      intro p c x y _ hcc hgp hgc
      by_cases hcpos : c = pos
      · rw [hcpos, ha] at hgc
        injection hgc with hgc
        have hpeq : p = (pos-1)/2 := by
          rw [childOf_parent_eq hcc, hcpos]
        rw [hpeq, hb] at hgp
        injection hgp with hgp
        rw [← hgp, ← hgc]
        exact pairLe_of_not_lt hnlt
      · exact HA p c x y hcc hcpos hgp hgc
    · -- swap with the parent and continue from there
      rw [heq]
      set par := (pos-1)/2 with hpar
      have hne : pos ≠ par := by omega
      have hparlt : par < pos := by omega
      set s' := s.swapPair pos par with hs'
      have hgpos' : s'.arr.get? pos = some b := swapPair_get?_fst ha hb hne
      have hgpar' : s'.arr.get? par = some a := swapPair_get?_snd ha hb hne
      have hother : ∀ k, k ≠ pos → k ≠ par → s'.arr.get? k = s.arr.get? k :=
        fun k h1 h2 => swapPair_get?_other ha hb hne h1 h2
      apply ih s' par (by omega)
      · -- all edges other than the one into the parent slot are ordered
        intro p c x y hcc hcpar hgp hgc
        by_cases hcpos : c = pos
        · -- the swapped-down edge (par, pos)
          have hpeq : p = par := by
            rw [childOf_parent_eq hcc, hcpos]
          rw [hcpos, hgpos'] at hgc
          rw [hpeq, hgpar'] at hgp
          injection hgp with hgp
          injection hgc with hgc
          rw [← hgp, ← hgc]
          exact Or.inl hlt
        · by_cases hppar : p = par
          · -- the sibling of pos under par keeps its slot
            rw [hppar, hgpar'] at hgp
            injection hgp with hgp
            have hcne : c ≠ par := hcpar
            rw [hother c hcpos hcne] at hgc
            have hccpar : ChildOf par c := hppar ▸ hcc
            have hold : pairLe b y := HA par c b y hccpar hcpos hb hgc
            rw [← hgp]
            exact pairLe_trans (Or.inl hlt) hold
          · by_cases hppos : p = pos
            · -- edges out of the old slot of pos: bounded by the old parent value
              rw [hppos, hgpos'] at hgp
              injection hgp with hgp
              have hccpos : ChildOf pos c := hppos ▸ hcc
              have hcne2 : c ≠ pos := Nat.ne_of_gt (childOf_gt hccpos)
              have hcne3 : c ≠ par := by
                have := childOf_gt hccpos
                omega
              rw [hother c hcne2 hcne3] at hgc
              rw [← hgp]
              exact HG (by omega) b c y hb hccpos hgc
            · -- an edge untouched by the swap
              have hcne3 : c ≠ par := by
                have h1 := childOf_gt hcc
                intro hcp
                omega
              rw [hother p hppos hppar] at hgp
              rw [hother c hcpos hcne3] at hgc
              exact HA p c x y hcc hcpos hgp hgc
      · -- the grand edges over the parent slot
        intro hpos0 y c v hgy hcc hgv
        have hppne1 : (par-1)/2 ≠ pos := by omega
        have hppne2 : (par-1)/2 ≠ par := by omega
        rw [hother _ hppne1 hppne2] at hgy
        by_cases hcpos : c = pos
        · rw [hcpos, hgpos'] at hgv
          injection hgv with hgv
          rw [← hgv]
          exact HA ((par-1)/2) par y b (childOf_parent hpos0) (by omega) hgy hb
        · have hcne : c ≠ par := Nat.ne_of_gt (childOf_gt hcc)
          rw [hother c hcpos hcne] at hgv
          have h1 : pairLe y b :=
            HA ((par-1)/2) par y b (childOf_parent hpos0) (by omega) hgy hb
          have h2 : pairLe b v := HA par c b v hcc hcpos hb hgv
          exact pairLe_trans h1 h2

theorem desc_parent_of_ne {k c : Nat} (hd : Desc k c) (hne : c ≠ k) :
    0 < c ∧ Desc k ((c-1)/2) := by
  rcases desc_elim hd with rfl | h
  · exact absurd rfl hne
  · have : 0 < c := by
      rcases desc_split hd with rfl | h1 | h1
      · exact absurd rfl hne
      · have := h1.le
        omega
      · have := h1.le
        omega
    exact ⟨this, h⟩

theorem siftup_ordFrom_step {s : IndexedWeightList W I} {k : Nat}
    (H : HeapOrdFrom s.arr (k+1)) :
    HeapOrdFrom (siftup s k).arr k := by
  have hsub1 : SubOrd s.arr (2*k+1) := by
    intro p c x y hdp hcc hgp hgc
    exact H p c x y (by have := hdp.le; omega) hcc hgp hgc
  have hsub2 : SubOrd s.arr (2*k+2) := by
    intro p c x y hdp hcc hgp hgc
    exact H p c x y (by have := hdp.le; omega) hcc hgp hgc
  obtain ⟨hord, _⟩ :=
    siftupFuel_subOrd s.arr.length s k (by omega) hsub1 hsub2
  have hloc := (siftupFuel_effects s.arr.length s k).2.1
  show HeapOrdFrom (siftupFuel s.arr.length s k).arr k
  intro p c x y hkp hcc hgp hgc
  by_cases hdp : Desc k p
  · exact hord p c x y hdp hcc hgp hgc
  · have hdc : ¬ Desc k c := by
      intro hdc
      by_cases hck : c = k
      · have := childOf_gt hcc
        omega
      · obtain ⟨hc0, hdpar⟩ := desc_parent_of_ne hdc hck
        have hpe : p = (c-1)/2 := childOf_parent_eq hcc
        rw [← hpe] at hdpar
        exact hdp hdpar
    rw [hloc p hdp] at hgp
    rw [hloc c hdc] at hgc
    have hpk : p ≠ k := fun he => hdp (he ▸ Desc.refl k)
    exact H p c x y (by omega) hcc hgp hgc

theorem siftup_effects (s : IndexedWeightList W I) (pos : Nat) :
    (siftup s pos).arr.Perm s.arr ∧
    (IndexOk s → IdxSorted s → IndexOk (siftup s pos) ∧ IdxSorted (siftup s pos)) := by
  obtain ⟨h1, _, h3⟩ := siftupFuel_effects s.arr.length s pos
  exact ⟨h1, h3⟩

theorem siftdown_effects (s : IndexedWeightList W I) (start pos : Nat) :
    (siftdown s start pos).arr.Perm s.arr ∧
    (IndexOk s → IdxSorted s →
      IndexOk (siftdown s start pos) ∧ IdxSorted (siftdown s start pos)) :=
  siftdownFuel_effects (pos+1) s start pos

theorem heapifyAux_effects :
    ∀ (k : Nat) (s : IndexedWeightList W I),
      (heapifyAux k s).arr.Perm s.arr ∧
      (IndexOk s → IdxSorted s →
        IndexOk (heapifyAux k s) ∧ IdxSorted (heapifyAux k s))
  | 0, s => ⟨List.Perm.refl _, fun h1 h2 => ⟨h1, h2⟩⟩
  | k+1, s => by
    obtain ⟨ih1, ih2⟩ := heapifyAux_effects k (siftup s k)
    obtain ⟨h1, h2⟩ := siftup_effects s k
    exact ⟨ih1.trans h1, fun hok hso => ih2 (h2 hok hso).1 (h2 hok hso).2⟩

theorem heapifyAux_ord :
    ∀ (k : Nat) (s : IndexedWeightList W I),
      HeapOrdFrom s.arr k → HeapOrd (heapifyAux k s).arr
  | 0, s, h => h
  | k+1, s, h => by
    apply heapifyAux_ord k (siftup s k)
    exact siftup_ordFrom_step h

theorem heapOrdFrom_trivial (s : IndexedWeightList W I) {k : Nat}
    (hk : s.arr.length ≤ 2*k+1) : HeapOrdFrom s.arr k := by
  intro p c x y hkp hcc hgp hgc
  have := lt_length_of_get? hgc
  have := childOf_gt hcc
  rcases hcc with rfl | rfl <;> omega

theorem heapify_effects (s : IndexedWeightList W I) :
    (heapify s).arr.Perm s.arr ∧
    (IndexOk s → IdxSorted s → IndexOk (heapify s) ∧ IdxSorted (heapify s)) :=
  heapifyAux_effects (s.arr.length / 2) s

theorem heapify_heapOrd (s : IndexedWeightList W I) : HeapOrd (heapify s).arr :=
  heapifyAux_ord (s.arr.length / 2) s (heapOrdFrom_trivial s (by omega))

/-- The order restoration achieved by `siftup` from the root slot, used by
`heappop`, `heapreplace` and `heappushpop`: if every edge with parent not at
the root is ordered, the result is a heap. -/
theorem siftup_root_heapOrd {s : IndexedWeightList W I}
    (H : ∀ p c x y, ChildOf p c → 1 ≤ p →
      s.arr.get? p = some x → s.arr.get? c = some y → pairLe x y) :
    HeapOrd (siftup s 0).arr := by
  have hsub1 : SubOrd s.arr 1 := by
    intro p c x y hdp hcc hgp hgc
    exact H p c x y hcc (by have := hdp.le; omega) hgp hgc
  have hsub2 : SubOrd s.arr 2 := by
    intro p c x y hdp hcc hgp hgc
    exact H p c x y hcc (by have := hdp.le; omega) hgp hgc
  obtain ⟨hord, _⟩ := siftupFuel_subOrd s.arr.length s 0
    (by omega) (by simpa using hsub1) (by simpa using hsub2)
  exact subOrd_zero_heapOrd hord

/-- The order restoration achieved by `siftup` from an interior slot whose
weight was increased: all edges away from the slot are ordered, and the slot's
parent value still bounds the slot and its children. -/
theorem siftup_interior_heapOrd {s : IndexedWeightList W I} {i : Nat}
    (HA : ∀ p c x y, ChildOf p c → p ≠ i →
      s.arr.get? p = some x → s.arr.get? c = some y → pairLe x y)
    (HB : 0 < i → ∀ y, s.arr.get? ((i-1)/2) = some y →
      (∀ v, s.arr.get? i = some v → pairLe y v) ∧
      (∀ c v, ChildOf i c → s.arr.get? c = some v → pairLe y v)) :
    HeapOrd (siftup s i).arr := by
  have hsub1 : SubOrd s.arr (2*i+1) := by
    intro p c x y hdp hcc hgp hgc
    exact HA p c x y hcc (by have := hdp.le; omega) hgp hgc
  have hsub2 : SubOrd s.arr (2*i+2) := by
    intro p c x y hdp hcc hgp hgc
    exact HA p c x y hcc (by have := hdp.le; omega) hgp hgc
  obtain ⟨hord, hbound⟩ :=
    siftupFuel_subOrd s.arr.length s i (by omega) hsub1 hsub2
  have hloc := (siftupFuel_effects s.arr.length s i).2.1
  show HeapOrd (siftupFuel s.arr.length s i).arr
  intro p c x y _ hcc hgp hgc
  by_cases hdp : Desc i p
  · exact hord p c x y hdp hcc hgp hgc
  · by_cases hci : c = i
    · -- the edge from the parent of i into the subtree of i
      have hi0 : 0 < i := hci ▸ childOf_pos hcc
      have hpe : p = (i-1)/2 := by
        rw [childOf_parent_eq hcc, hci]
      rw [hloc p hdp, hpe] at hgp
      obtain ⟨hBi, hBc⟩ := HB hi0 x hgp
      have hball : ∀ j v, Desc i j → s.arr.get? j = some v → pairLe x v := by
        intro j v hd hg
        by_cases hji : j = i
        · rw [hji] at hg
          exact hBi v hg
        · rcases desc_split hd with rfl | hds | hds
          · exact absurd rfl hji
          · have hjlen : 2*i+1 < s.arr.length := by
              have h1 := hds.le
              have := lt_length_of_get? hg
              omega
            obtain ⟨u, hu⟩ := exists_get?_of_lt hjlen
            exact pairLe_trans (hBc (2*i+1) u (Or.inl rfl) hu)
              (subOrd_root_le hsub1 hds hu hg)
          · have hjlen : 2*i+2 < s.arr.length := by
              have h1 := hds.le
              have := lt_length_of_get? hg
              omega
            obtain ⟨u, hu⟩ := exists_get?_of_lt hjlen
            exact pairLe_trans (hBc (2*i+2) u (Or.inr rfl) hu)
              (subOrd_root_le hsub2 hds hu hg)
      exact hbound x hball c y (hci ▸ Desc.refl i) hgc
    · -- an edge entirely outside the subtree of i
      have hdc : ¬ Desc i c := by
        intro hdc
        obtain ⟨hc0, hdpar⟩ := desc_parent_of_ne hdc hci
        have hpe : p = (c-1)/2 := childOf_parent_eq hcc
        rw [← hpe] at hdpar
        exact hdp hdpar
      rw [hloc p hdp] at hgp
      rw [hloc c hdc] at hgc
      have hpi : p ≠ i := fun he => hdp (he ▸ Desc.refl i)
      exact HA p c x y hcc hpi hgp hgc

end pyheapq

/-! ## Well-formedness of an `IndexedHeap` and its operations -/

namespace IndexedWeightList

variable {W I : Type} [LinearOrder W] [LinearOrder I]

theorem set_get?_self {α : Type} :
    ∀ {l : List α} {j : Nat} {a : α}, l.get? j = some a → l.set j a = l
  | [], j, a, h => by simp at h
  | x :: t, 0, a, h => by
    injection h with h
    rw [List.set_cons_zero, h]
  | x :: t, j+1, a, h => by
    rw [List.set_cons_succ, set_get?_self (by simpa using h)]

/-- Writing back the pair already stored at a slot leaves the whole structure,
auxiliary index included, unchanged (given the invariants). -/
theorem setPair_same {s : IndexedWeightList W I} {i : Nat} {p : W × I}
    (hok : IndexOk s) (hso : IdxSorted s) (h : s.arr.get? i = some p) :
    s.setPair i p = s := by
  have harr : (s.setPair i p).arr = s.arr := by
    rw [setPair_arr h, set_get?_self h]
  have hidx : (s.setPair i p).index = s.index := by
    funext it
    rw [setPair_index h]
    by_cases hnew : it = p.2
    · rw [if_pos hnew, if_pos hnew]
      have hmem : i ∈ s.index it := (hok it i).mpr ⟨p.1, by
        rw [h, hnew]⟩
      exact addIdx_removeIdx (hso it) hmem
    · rw [if_neg hnew, if_neg hnew]
  cases s with
  | mk arr index =>
    simp only at harr hidx
    rw [show setPair ⟨arr, index⟩ i p
        = ⟨(setPair ⟨arr, index⟩ i p).arr, (setPair ⟨arr, index⟩ i p).index⟩
        from rfl, harr, hidx]

end IndexedWeightList

namespace IndexedHeap

variable {W I : Type} [LinearOrder W] [LinearOrder I]

open IndexedWeightList pyheapq

/-- The well-formedness invariant of an `IndexedHeap`: the auxiliary index is
exact and canonical, the live items are pairwise distinct, and the backing
array is min-heap ordered. -/
structure HWF (h : IndexedHeap W I) : Prop where
  ok : h.heap.IndexOk
  sorted : h.heap.IdxSorted
  nodup : h.heap.ItemsNodup
  ord : HeapOrd h.heap.arr

/-- Construction: the heap holds exactly the input pairs and is well-formed. -/
theorem ofList_spec (l : List (W × I)) (hnd : (l.map Prod.snd).Nodup) :
    HWF (ofList l : IndexedHeap W I) ∧ (ofList l : IndexedHeap W I).heap.arr.Perm l := by
  have harr : (IndexedWeightList.ofList l).arr = l := rfl
  have hperm : (pyheapq.heapify (IndexedWeightList.ofList l)).arr.Perm l := by
    have := (heapify_effects (IndexedWeightList.ofList l)).1
    rw [harr] at this
    exact this
  have hokso := (heapify_effects (IndexedWeightList.ofList l)).2
    (ofList_indexOk l) (ofList_idxSorted l)
  refine ⟨⟨hokso.1, hokso.2, ?_, heapify_heapOrd _⟩, hperm⟩
  exact ((hperm.map Prod.snd).nodup_iff).mpr hnd

theorem peek_empty {h : IndexedHeap W I} (he : h.heap.arr = []) :
    h.peek = .error .emptyQueueError := by
  unfold peek
  rw [he]
  rfl

theorem peek_spec {h : IndexedHeap W I} {r : W × I}
    (hwf : HWF h) (hr : h.heap.arr.get? 0 = some r) :
    h.peek = .ok r.2 ∧ ∀ q ∈ h.heap.arr, pairLe r q := by
  constructor
  · unfold peek
    rw [hr]
  · intro q hq
    obtain ⟨j, hj⟩ := List.get?_of_mem hq
    exact heapOrd_root_min hwf.ord hr hj

theorem pop_empty {h : IndexedHeap W I} (he : h.heap.arr = []) :
    h.pop = .error .emptyQueueError := by
  unfold pop heappop
  rw [popLast_none he]

theorem length_one_eq {α : Type} {l : List α} {r : α}
    (h1 : l.length = 1) (h2 : l.get? 0 = some r) : l = [r] := by
  cases l with
  | nil => simp at h1
  | cons x t =>
    cases t with
    | nil =>
      injection h2 with h2
      rw [h2]
    | cons y t' => simp at h1

theorem heapOrd_nil {l : List (W × I)} (h : l = []) : HeapOrd l := by
  intro p c x y _ _ hgp _
  rw [h] at hgp
  simp at hgp

theorem pop_spec {h : IndexedHeap W I} {r : W × I}
    (hwf : HWF h) (hr : h.heap.arr.get? 0 = some r) :
    ∃ h', h.pop = .ok (r.2, h') ∧
      (r :: h'.heap.arr).Perm h.heap.arr ∧ HWF h' ∧
      ∀ q ∈ h.heap.arr, pairLe r q := by
  have hmin : ∀ q ∈ h.heap.arr, pairLe r q := by
    intro q hq
    obtain ⟨j, hj⟩ := List.get?_of_mem hq
    exact heapOrd_root_min hwf.ord hr hj
  have hlen : 0 < h.heap.arr.length := lt_length_of_get? hr
  obtain ⟨last, hlast⟩ : ∃ p, h.heap.arr.getLast? = some p := by
    rw [List.getLast?_eq_getElem?, ← List.get?_eq_getElem?]
    exact exists_get?_of_lt (by omega)
  set s1 : IndexedWeightList W I :=
    { arr := h.heap.arr.dropLast
      index := fun it =>
        if it = last.2 then removeIdx (h.heap.index it) (h.heap.arr.length - 1)
        else h.heap.index it } with hs1
  have hpop : h.heap.popLast = some (last, s1) := popLast_some hlast
  have hs1arr : s1.arr = h.heap.arr.dropLast := rfl
  have hok1 : s1.IndexOk := popLast_indexOk hwf.ok hwf.sorted hlast
  have hso1 : s1.IdxSorted := popLast_idxSorted hwf.sorted
  by_cases hone : h.heap.arr.length = 1
  · -- the heap had a single element
    have harr : h.heap.arr = [r] := length_one_eq hone hr
    have hlastr : last = r := by
      rw [List.getLast?_eq_getElem?, harr] at hlast
      exact (by simpa using hlast : r = last).symm
    have hs1nil : s1.arr = [] := by
      rw [hs1arr, harr]
      rfl
    have hzero : s1.arr.get? 0 = none := by
      rw [hs1nil]
      rfl
    refine ⟨⟨s1⟩, ?_, ?_, ?_, hmin⟩
    · unfold pop heappop
      simp only [hpop, hzero, hlastr]
    · rw [hs1nil, harr]
    · refine ⟨hok1, hso1, ?_, heapOrd_nil hs1nil⟩
      unfold IndexedWeightList.ItemsNodup
      rw [hs1nil]
      simp
  · -- at least two elements: move the last into the root and sift down
    have hlen2 : 2 ≤ h.heap.arr.length := by omega
    have hs1len : s1.arr.length = h.heap.arr.length - 1 := by
      rw [hs1arr, List.length_dropLast]
    have hroot1 : s1.arr.get? 0 = some r := by
      rw [hs1arr, get?_dropLast, if_pos (by omega)]
      exact hr
    set s2 := s1.setPair 0 last with hs2
    have hs2arr : s2.arr = s1.arr.set 0 last := setPair_arr hroot1
    have hok2 : s2.IndexOk := setPair_indexOk hok1 hso1 hroot1
    have hso2 : s2.IdxSorted := setPair_idxSorted hso1 hroot1
    have heq : h.pop = .ok (r.2, ⟨pyheapq.siftup s2 0⟩) := by
      unfold pop heappop
      simp only [hpop, hroot1]
      try rfl
    -- untouched slots at positions one and beyond
    have hs2get : ∀ k, 1 ≤ k → s2.arr.get? k =
        (if k < h.heap.arr.length - 1 then h.heap.arr.get? k else none) := by
      intro k hk
      rw [hs2arr, get?_set_ne (by omega), hs1arr, get?_dropLast]
    have hord : HeapOrd (pyheapq.siftup s2 0).arr := by
      apply siftup_root_heapOrd
      intro p c x y hcc hp hgp hgc
      rw [hs2get p hp] at hgp
      rw [hs2get c (by have := childOf_gt hcc; omega)] at hgc
      split_ifs at hgp hgc
      · exact hwf.ord p c x y (Nat.zero_le p) hcc hgp hgc
      all_goals first | cases hgp | cases hgc
    obtain ⟨hperm3, hok3⟩ := siftup_effects s2 0
    obtain ⟨hok', hso'⟩ := hok3 hok2 hso2
    -- the permutation bookkeeping
    have harreq : h.heap.arr.dropLast ++ [last] = h.heap.arr :=
      List.dropLast_append_getLast? last hlast
    have hperm1 : List.Perm s2.arr (last :: s1.arr.eraseIdx 0) := by
      rw [hs2arr]
      exact set_perm_cons_eraseIdx last (by omega)
    have hperm2 : List.Perm s1.arr (r :: s1.arr.eraseIdx 0) :=
      perm_cons_eraseIdx hroot1
    have hfinal : List.Perm (r :: (pyheapq.siftup s2 0).arr) h.heap.arr := by
      have l1 : List.Perm (r :: (pyheapq.siftup s2 0).arr)
          (r :: last :: s1.arr.eraseIdx 0) := (hperm3.trans hperm1).cons r
      have l2 : List.Perm h.heap.arr (last :: s1.arr) := by
        rw [← harreq, ← hs1arr]
        exact List.perm_append_singleton last s1.arr
      have l3 : List.Perm (last :: s1.arr) (last :: r :: s1.arr.eraseIdx 0) :=
        hperm2.cons last
      have l4 : List.Perm (last :: r :: s1.arr.eraseIdx 0)
          (r :: last :: s1.arr.eraseIdx 0) := List.Perm.swap r last _
      exact l1.trans (l4.symm.trans (l3.symm.trans l2.symm))
    refine ⟨⟨pyheapq.siftup s2 0⟩, heq, hfinal, ⟨hok', hso', ?_, hord⟩, hmin⟩
    have hnd : ((r :: (pyheapq.siftup s2 0).arr).map Prod.snd).Nodup :=
      ((hfinal.map Prod.snd).nodup_iff).mpr hwf.nodup
    rw [List.map_cons, List.nodup_cons] at hnd
    exact hnd.2

theorem push_spec {h : IndexedHeap W I} {it : I} {w : W} (hwf : HWF h) :
    (h.push it w).heap.arr.Perm ((w, it) :: h.heap.arr) ∧
    (it ∉ h.heap.arr.map Prod.snd → HWF (h.push it w)) := by
  have harr1 : (h.heap.appendPair (w, it)).arr = h.heap.arr ++ [(w, it)] := rfl
  have hlen1 : (h.heap.appendPair (w, it)).arr.length = h.heap.arr.length + 1 := by
    rw [harr1]
    simp
  have hpos : (h.heap.appendPair (w, it)).arr.length - 1 = h.heap.arr.length := by
    omega
  have hunfold : h.push it w =
      ⟨pyheapq.siftdown (h.heap.appendPair (w, it)) 0 h.heap.arr.length⟩ := by
    show (⟨pyheapq.siftdown (h.heap.appendPair (w, it)) 0
      ((h.heap.appendPair (w, it)).arr.length - 1)⟩ : IndexedHeap W I) = _
    rw [hpos]
  obtain ⟨hperm, hoks⟩ :=
    siftdown_effects (h.heap.appendPair (w, it)) 0 h.heap.arr.length
  have hperm2 : (h.push it w).heap.arr.Perm ((w, it) :: h.heap.arr) := by
    rw [hunfold]
    refine hperm.trans ?_
    rw [harr1]
    exact List.perm_append_singleton _ _
  refine ⟨hperm2, fun hni => ?_⟩
  have hget1 : ∀ k, k < h.heap.arr.length →
      (h.heap.appendPair (w, it)).arr.get? k = h.heap.arr.get? k := by
    intro k hk
    rw [harr1]
    exact get?_append_left hk
  have hord : HeapOrd (pyheapq.siftdown (h.heap.appendPair (w, it)) 0
      h.heap.arr.length).arr := by
    unfold siftdown
    apply siftdownFuel_heapOrd
    · omega
    · intro p c x y hcc hcn hgp hgc
      have hclen : c < (h.heap.appendPair (w, it)).arr.length :=
        lt_length_of_get? hgc
      have hc2 : c < h.heap.arr.length := by
        rw [hlen1] at hclen
        omega
      have hp2 : p < h.heap.arr.length := by
        have := childOf_gt hcc
        omega
      rw [hget1 p hp2] at hgp
      rw [hget1 c hc2] at hgc
      exact hwf.ord p c x y (Nat.zero_le p) hcc hgp hgc
    · intro hp0 y c v _ hcc hgv
      have hclen : c < (h.heap.appendPair (w, it)).arr.length :=
        lt_length_of_get? hgv
      rcases hcc with rfl | rfl <;> (rw [hlen1] at hclen; omega)
  obtain ⟨hok1, hso1⟩ := hoks (appendPair_indexOk hwf.ok) (appendPair_idxSorted hwf.sorted)
  refine ⟨?_, ?_, ?_, ?_⟩
  · rw [hunfold] at *
    exact hok1
  · rw [hunfold] at *
    exact hso1
  · have := (hperm2.map Prod.snd).nodup_iff
    rw [List.map_cons] at this
    exact this.mpr (List.nodup_cons.mpr ⟨hni, hwf.nodup⟩)
  · rw [hunfold]
    exact hord

/-- The common root-replacement step of `heapreplace` and `heappushpop`. -/
theorem replaceRoot_spec {s : IndexedWeightList W I} {r : W × I} (p : W × I)
    (hok : s.IndexOk) (hso : s.IdxSorted) (hord : HeapOrd s.arr)
    (hr : s.arr.get? 0 = some r) :
    HeapOrd (pyheapq.siftup (s.setPair 0 p) 0).arr ∧
    (pyheapq.siftup (s.setPair 0 p) 0).IndexOk ∧
    (pyheapq.siftup (s.setPair 0 p) 0).IdxSorted ∧
    (pyheapq.siftup (s.setPair 0 p) 0).arr.Perm (p :: s.arr.eraseIdx 0) := by
  have hlen : 0 < s.arr.length := lt_length_of_get? hr
  have harr2 : (s.setPair 0 p).arr = s.arr.set 0 p := setPair_arr hr
  have hget2 : ∀ k, 1 ≤ k → (s.setPair 0 p).arr.get? k = s.arr.get? k := by
    intro k hk
    rw [harr2, get?_set_ne (by omega)]
  have hordr : HeapOrd (pyheapq.siftup (s.setPair 0 p) 0).arr := by
    apply siftup_root_heapOrd
    intro q c x y hcc hq hgp hgc
    rw [hget2 q hq] at hgp
    rw [hget2 c (by have := childOf_gt hcc; omega)] at hgc
    exact hord q c x y (Nat.zero_le q) hcc hgp hgc
  obtain ⟨hperm, hoks⟩ := siftup_effects (s.setPair 0 p) 0
  obtain ⟨hok2, hso2⟩ := hoks (setPair_indexOk hok hso hr) (setPair_idxSorted hso hr)
  refine ⟨hordr, hok2, hso2, ?_⟩
  refine hperm.trans ?_
  rw [harr2]
  exact set_perm_cons_eraseIdx p hlen

theorem poppush_empty {h : IndexedHeap W I} {it : I} {w : W}
    (he : h.heap.arr = []) : h.poppush it w = .error .emptyQueueError := by
  unfold poppush heapreplace
  rw [he]
  rfl

theorem poppush_spec {h : IndexedHeap W I} {r : W × I} {it : I} {w : W}
    (hwf : HWF h) (hr : h.heap.arr.get? 0 = some r) :
    ∃ h', h.poppush it w = .ok (r.2, h') ∧
      (r :: h'.heap.arr).Perm ((w, it) :: h.heap.arr) ∧
      ((it ∉ h.heap.arr.map Prod.snd ∨ it = r.2) → HWF h') := by
  obtain ⟨hordr, hok2, hso2, hperm⟩ :=
    replaceRoot_spec (s := h.heap) (w, it) hwf.ok hwf.sorted hwf.ord hr
  refine ⟨⟨pyheapq.siftup (h.heap.setPair 0 (w, it)) 0⟩, ?_, ?_, ?_⟩
  · unfold poppush heapreplace
    rw [hr]
  · have h1 : List.Perm (r :: (pyheapq.siftup (h.heap.setPair 0 (w, it)) 0).arr)
        (r :: (w, it) :: h.heap.arr.eraseIdx 0) := hperm.cons r
    have h2 : List.Perm h.heap.arr (r :: h.heap.arr.eraseIdx 0) :=
      perm_cons_eraseIdx hr
    refine h1.trans ?_
    refine (List.Perm.swap (w, it) r _).trans ?_
    exact (h2.cons (w, it)).symm
  · intro hpre
    have hpermfull : List.Perm
        (r :: (pyheapq.siftup (h.heap.setPair 0 (w, it)) 0).arr)
        ((w, it) :: h.heap.arr) := by
      have h1 := hperm.cons r
      have h2 := (perm_cons_eraseIdx hr).cons (w, it)
      exact h1.trans ((List.Perm.swap (w, it) r _).trans h2.symm)
    have hmapperm := hpermfull.map Prod.snd
    rw [List.map_cons, List.map_cons] at hmapperm
    refine ⟨hok2, hso2, ?_, hordr⟩
    rcases hpre with hni | hit
    · have : (it :: h.heap.arr.map Prod.snd).Nodup :=
        List.nodup_cons.mpr ⟨hni, hwf.nodup⟩
      have := (hmapperm.nodup_iff).mpr this
      rw [List.nodup_cons] at this
      exact this.2
    · have hcancel : List.Perm
          ((pyheapq.siftup (h.heap.setPair 0 (w, it)) 0).arr.map Prod.snd)
          (h.heap.arr.map Prod.snd) := by
        rw [← hit] at hmapperm
        exact hmapperm.cons_inv
      exact (hcancel.nodup_iff).mpr hwf.nodup

theorem pushpop_spec {h : IndexedHeap W I} {it : I} {w : W} (hwf : HWF h) :
    (h.pushpop it w).2 = h ∨
    (∃ r, h.heap.arr.get? 0 = some r ∧ pairLt r (w, it) ∧
      (h.pushpop it w).1 = r.2 ∧
      (r :: (h.pushpop it w).2.heap.arr).Perm ((w, it) :: h.heap.arr) ∧
      ((it ∉ h.heap.arr.map Prod.snd ∨ it = r.2) → HWF (h.pushpop it w).2)) := by
  rcases hg : h.heap.arr.get? 0 with _ | r
  · left
    unfold pushpop heappushpop
    rw [hg]
  · by_cases hcmp : pairLt r (w, it)
    · right
      obtain ⟨hordr, hok2, hso2, hperm⟩ :=
        replaceRoot_spec (s := h.heap) (w, it) hwf.ok hwf.sorted hwf.ord hg
      have heq : h.pushpop it w =
          (r.2, ⟨pyheapq.siftup (h.heap.setPair 0 (w, it)) 0⟩) := by
        unfold pushpop heappushpop
        rw [hg]
        simp [hcmp]
      refine ⟨r, rfl, hcmp, ?_, ?_, ?_⟩
      · rw [heq]
      · rw [heq]
        have h1 := hperm.cons r
        have h2 := (perm_cons_eraseIdx hg).cons (w, it)
        exact h1.trans ((List.Perm.swap (w, it) r _).trans h2.symm)
      · intro hpre
        rw [heq]
        have hpermfull : List.Perm
            (r :: (pyheapq.siftup (h.heap.setPair 0 (w, it)) 0).arr)
            ((w, it) :: h.heap.arr) := by
          have h1 := hperm.cons r
          have h2 := (perm_cons_eraseIdx hg).cons (w, it)
          exact h1.trans ((List.Perm.swap (w, it) r _).trans h2.symm)
        have hmapperm := hpermfull.map Prod.snd
        rw [List.map_cons, List.map_cons] at hmapperm
        refine ⟨hok2, hso2, ?_, hordr⟩
        rcases hpre with hni | hit
        · have : (it :: h.heap.arr.map Prod.snd).Nodup :=
            List.nodup_cons.mpr ⟨hni, hwf.nodup⟩
          have := (hmapperm.nodup_iff).mpr this
          rw [List.nodup_cons] at this
          exact this.2
        · have hcancel : List.Perm
              ((pyheapq.siftup (h.heap.setPair 0 (w, it)) 0).arr.map Prod.snd)
              (h.heap.arr.map Prod.snd) := by
            rw [← hit] at hmapperm
            exact hmapperm.cons_inv
          exact (hcancel.nodup_iff).mpr hwf.nodup
    · left
      unfold pushpop heappushpop
      rw [hg]
      simp [hcmp]

theorem map_snd_set {s : IndexedWeightList W I} {j : Nat} {w : W} {it : I}
    (hj : s.arr.get? j = some (w, it)) (w' : W) :
    (s.arr.set j (w', it)).map Prod.snd = s.arr.map Prod.snd := by
  rw [List.map_set]
  apply set_get?_self
  rw [List.get?_eq_getElem?, List.getElem?_map, ← List.get?_eq_getElem?, hj]
  rfl

theorem change_weight_absent {h : IndexedHeap W I} {it : I} {w : W}
    (hwf : HWF h) (hni : it ∉ h.heap.arr.map Prod.snd) :
    h.change_weight it w = .error .itemNotFoundError := by
  unfold change_weight
  rw [indexOf_eq_none hwf.ok hni]

theorem change_weight_spec {h : IndexedHeap W I} {it : I} {w oldw : W} {j : Nat}
    (hwf : HWF h) (hj : h.heap.arr.get? j = some (oldw, it)) :
    ∃ h', h.change_weight it w = .ok h' ∧
      ((oldw, it) :: h'.heap.arr).Perm ((w, it) :: h.heap.arr) ∧
      HWF h' ∧
      (w = oldw → h' = h) ∧
      (w < oldw → h' = ⟨pyheapq.siftdown (h.heap.setPair j (w, it)) 0 j⟩) ∧
      (oldw < w → h' = ⟨pyheapq.siftup (h.heap.setPair j (w, it)) j⟩) := by
  have hidx : h.heap.indexOf it = some j :=
    indexOf_eq_some hwf.ok hwf.sorted hwf.nodup hj
  have hjlen : j < h.heap.arr.length := lt_length_of_get? hj
  set s1 := h.heap.setPair j (w, it) with hs1
  have harr1 : s1.arr = h.heap.arr.set j (w, it) := setPair_arr hj
  have hok1 : s1.IndexOk := setPair_indexOk hwf.ok hwf.sorted hj
  have hso1 : s1.IdxSorted := setPair_idxSorted hwf.sorted hj
  have hsame : s1.arr.map Prod.snd = h.heap.arr.map Prod.snd := by
    rw [harr1]
    exact map_snd_set hj w
  have hnd1 : s1.ItemsNodup := by
    unfold IndexedWeightList.ItemsNodup
    rw [hsame]
    exact hwf.nodup
  have hget1 : s1.arr.get? j = some (w, it) := by
    rw [harr1]
    exact get?_set_self hjlen
  have hother1 : ∀ k, k ≠ j → s1.arr.get? k = h.heap.arr.get? k := by
    intro k hk
    rw [harr1, get?_set_ne (Ne.symm hk)]
  have hidx1 : s1.indexOf it = some j := indexOf_eq_some hok1 hso1 hnd1 hget1
  -- the permutation relating the array before and after the overwrite
  have hpermset : List.Perm ((oldw, it) :: s1.arr) ((w, it) :: h.heap.arr) := by
    have h1 : List.Perm s1.arr ((w, it) :: h.heap.arr.eraseIdx j) := by
      rw [harr1]
      exact set_perm_cons_eraseIdx _ hjlen
    have h2 : List.Perm h.heap.arr ((oldw, it) :: h.heap.arr.eraseIdx j) :=
      perm_cons_eraseIdx hj
    exact (h1.cons _).trans
      ((List.Perm.swap (w, it) (oldw, it) _).trans (h2.cons _).symm)
  rcases lt_trichotomy w oldw with hlt | heqw | hgt
  · -- weight decreased: sift toward the root
    have heq : h.change_weight it w = .ok ⟨pyheapq.siftdown s1 0 j⟩ := by
      unfold change_weight
      rw [hidx]
      simp only [hj]
      rw [← hs1]
      simp only [hidx1, if_pos hlt]
    have hord : HeapOrd (pyheapq.siftdown s1 0 j).arr := by
      unfold siftdown
      apply siftdownFuel_heapOrd
      · omega
      · intro p c x y hcc hcj hgp hgc
        rw [hother1 c hcj] at hgc
        by_cases hpj : p = j
        · rw [hpj, hget1] at hgp
          injection hgp with hgp
          have hold : pairLe (oldw, it) y :=
            hwf.ord j c _ y (Nat.zero_le j) (hpj ▸ hcc) hj hgc
          rw [← hgp]
          exact pairLe_trans (Or.inl (Or.inl hlt)) hold
        · rw [hother1 p hpj] at hgp
          exact hwf.ord p c x y (Nat.zero_le p) hcc hgp hgc
      · intro hj0 y c v hgy hcc hgv
        rw [hother1 _ (by omega)] at hgy
        rw [hother1 c (by have := childOf_gt hcc; omega)] at hgv
        have h1 : pairLe y (oldw, it) :=
          hwf.ord _ j y _ (Nat.zero_le _) (childOf_parent hj0) hgy hj
        have h2 : pairLe (oldw, it) v :=
          hwf.ord j c _ v (Nat.zero_le j) hcc hj hgv
        exact pairLe_trans h1 h2
    obtain ⟨hperm2, hoks2⟩ := siftdownFuel_effects (j+1) s1 0 j
    obtain ⟨hok2, hso2⟩ := hoks2 hok1 hso1
    have hpermr : List.Perm ((oldw, it) :: (pyheapq.siftdown s1 0 j).arr)
        ((w, it) :: h.heap.arr) := (hperm2.cons _).trans hpermset
    refine ⟨_, heq, hpermr, ⟨hok2, hso2, ?_, hord⟩, ?_, fun _ => rfl, ?_⟩
    · have hm := hpermr.map Prod.snd
      rw [List.map_cons, List.map_cons] at hm
      exact ((hm.cons_inv).nodup_iff).mpr hwf.nodup
    · intro hw
      rw [hw] at hlt
      exact absurd hlt (lt_irrefl _)
    · intro hw
      exact absurd hw (lt_asymm hlt)
  · -- equal weight: the write is the identity and nothing is sifted
    have hs1id : s1 = h.heap := by
      rw [hs1, heqw]
      exact setPair_same hwf.ok hwf.sorted hj
    have heq : h.change_weight it w = .ok ⟨s1⟩ := by
      unfold change_weight
      rw [hidx]
      simp only [hj]
      rw [← hs1]
      simp only [hidx1]
      rw [if_neg (by rw [heqw]; exact lt_irrefl _),
        if_neg (by rw [heqw]; exact lt_irrefl _)]
    refine ⟨_, heq, ?_, ?_, ?_, ?_, ?_⟩
    · exact hpermset.trans (by rw [heqw])
    · rw [hs1id]
      exact ⟨hwf.ok, hwf.sorted, hwf.nodup, hwf.ord⟩
    · intro _
      rw [hs1id]
    · intro hw
      rw [heqw] at hw
      exact absurd hw (lt_irrefl _)
    · intro hw
      rw [heqw] at hw
      exact absurd hw (lt_irrefl _)
  · -- weight increased: sift toward the leaves
    have heq : h.change_weight it w = .ok ⟨pyheapq.siftup s1 j⟩ := by
      unfold change_weight
      rw [hidx]
      simp only [hj]
      rw [← hs1]
      simp only [hidx1]
      rw [if_neg (fun hcon => absurd hcon (not_lt_of_gt hgt)), if_pos hgt]
    have hord : HeapOrd (pyheapq.siftup s1 j).arr := by
      apply siftup_interior_heapOrd
      · intro p c x y hcc hpj hgp hgc
        rw [hother1 p hpj] at hgp
        by_cases hcj : c = j
        · rw [hcj, hget1] at hgc
          injection hgc with hgc
          have hold : pairLe x (oldw, it) :=
            hwf.ord p j x _ (Nat.zero_le p) (hcj ▸ hcc) hgp hj
          rw [← hgc]
          exact pairLe_trans hold (Or.inl (Or.inl hgt))
        · rw [hother1 c hcj] at hgc
          exact hwf.ord p c x y (Nat.zero_le p) hcc hgp hgc
      · intro hj0 y hgy
        rw [hother1 _ (by omega)] at hgy
        have h1 : pairLe y (oldw, it) :=
          hwf.ord _ j y _ (Nat.zero_le _) (childOf_parent hj0) hgy hj
        constructor
        · intro v hgv
          rw [hget1] at hgv
          injection hgv with hgv
          rw [← hgv]
          exact pairLe_trans h1 (Or.inl (Or.inl hgt))
        · intro c v hcc hgv
          rw [hother1 c (by have := childOf_gt hcc; omega)] at hgv
          have h2 : pairLe (oldw, it) v :=
            hwf.ord j c _ v (Nat.zero_le j) hcc hj hgv
          exact pairLe_trans h1 h2
    obtain ⟨hperm2, hoks2⟩ := siftup_effects s1 j
    obtain ⟨hok2, hso2⟩ := hoks2 hok1 hso1
    have hpermr : List.Perm ((oldw, it) :: (pyheapq.siftup s1 j).arr)
        ((w, it) :: h.heap.arr) := (hperm2.cons _).trans hpermset
    refine ⟨_, heq, hpermr, ⟨hok2, hso2, ?_, hord⟩, ?_, ?_, fun _ => rfl⟩
    · have hm := hpermr.map Prod.snd
      rw [List.map_cons, List.map_cons] at hm
      exact ((hm.cons_inv).nodup_iff).mpr hwf.nodup
    · intro hw
      rw [hw] at hgt
      exact absurd hgt (lt_irrefl _)
    · intro hw
      exact absurd hw (lt_asymm hgt)

end IndexedHeap

/-! ## Operation sequences over an `IndexedHeap` -/

/-- One queue operation of spec §4.1. -/
inductive HeapOp (W I : Type) where
  | push (it : I) (w : W)
  | pop
  | pushpop (it : I) (w : W)
  | poppush (it : I) (w : W)
  | changeWeight (it : I) (w : W)

/-- Apply one operation, checking exactly the spec's preconditions first
(spec §4.1: `push`/`push_then_pop` require an item not already present,
`pop` a nonempty queue, `pop_then_push` a nonempty queue and a new item that
is not a live non-root item, `change_weight` a present item); a violated
precondition, or a failing operation, yields `none`.  This is the sequencing
harness for the invariant claim, not part of the source. -/
def applyOp {W I : Type} [LinearOrder W] [LinearOrder I]
    (h : IndexedHeap W I) : HeapOp W I → Option (IndexedHeap W I)
  | .push it w => if h.contains it then none else some (h.push it w)
  | .pop =>
    match h.pop with
    | .ok r => some r.2
    | .error _ => none
  | .pushpop it w => if h.contains it then none else some (h.pushpop it w).2
  | .poppush it w =>
    match h.peek with
    | .error _ => none
    | .ok top =>
      if h.contains it && decide (top ≠ it) then none
      else
        match h.poppush it w with
        | .ok r => some r.2
        | .error _ => none
  | .changeWeight it w =>
    match h.change_weight it w with
    | .ok h' => some h'
    | .error _ => none

/-- Run a sequence of checked operations. -/
def runOps {W I : Type} [LinearOrder W] [LinearOrder I] :
    IndexedHeap W I → List (HeapOp W I) → Option (IndexedHeap W I)
  | h, [] => some h
  | h, op :: rest =>
    match applyOp h op with
    | none => none
    | some h' => runOps h' rest

namespace IndexedHeap

variable {W I : Type} [LinearOrder W] [LinearOrder I]

open IndexedWeightList

theorem contains_iff {h : IndexedHeap W I} (hwf : HWF h) {it : I} :
    h.contains it = true ↔ it ∈ h.heap.arr.map Prod.snd :=
  hasItem_iff hwf.ok

theorem applyOp_wf {h h' : IndexedHeap W I} {op : HeapOp W I}
    (hwf : HWF h) (happ : applyOp h op = some h') : HWF h' := by
  cases op with
  | push it w =>
    simp only [applyOp] at happ
    split_ifs at happ with hc
    injection happ with happ
    rw [← happ]
    refine (push_spec hwf).2 ?_
    intro hmem
    exact hc ((contains_iff hwf).mpr hmem)
  | pop =>
    simp only [applyOp] at happ
    rcases harr : h.heap.arr with _ | ⟨r, rest⟩
    · rw [pop_empty harr] at happ
      cases happ
    · have hr : h.heap.arr.get? 0 = some r := by
        rw [harr]
        rfl
      obtain ⟨h2, heq, _, hwf2, _⟩ := pop_spec hwf hr
      rw [heq] at happ
      injection happ with happ
      rw [← happ]
      exact hwf2
  | pushpop it w =>
    simp only [applyOp] at happ
    split_ifs at happ with hc
    injection happ with happ
    rw [← happ]
    rcases @pushpop_spec _ _ _ _ _ it w hwf with heq | ⟨r, _, _, _, _, hwf2⟩
    · rw [heq]
      exact hwf
    · refine hwf2 (Or.inl ?_)
      intro hmem
      exact hc ((contains_iff hwf).mpr hmem)
  | poppush it w =>
    simp only [applyOp] at happ
    rcases harr : h.heap.arr with _ | ⟨r, rest⟩
    · rw [peek_empty harr] at happ
      cases happ
    · have hr : h.heap.arr.get? 0 = some r := by
        rw [harr]
        rfl
      obtain ⟨hpeek, _⟩ := peek_spec hwf hr
      rw [hpeek] at happ
      simp only at happ
      split_ifs at happ with hc
      obtain ⟨h2, heq, _, hwf2⟩ := @poppush_spec _ _ _ _ _ _ it w hwf hr
      rw [heq] at happ
      injection happ with happ
      rw [← happ]
      apply hwf2
      rw [Bool.and_eq_true] at hc
      by_cases hmem : it ∈ h.heap.arr.map Prod.snd
      · right
        have hct : h.contains it = true := (contains_iff hwf).mpr hmem
        have h2 : r.2 = it := by
          by_contra hne
          exact hc ⟨hct, by simpa using hne⟩
        exact h2.symm
      · exact Or.inl hmem
  | changeWeight it w =>
    simp only [applyOp] at happ
    by_cases hmem : it ∈ h.heap.arr.map Prod.snd
    · obtain ⟨j, oldw, hj⟩ := mem_items_iff.mp hmem
      obtain ⟨h2, heq, _, hwf2, _⟩ := change_weight_spec hwf hj
      rw [heq] at happ
      injection happ with happ
      rw [← happ]
      exact hwf2
    · rw [change_weight_absent hwf hmem] at happ
      cases happ

theorem runOps_wf {h h' : IndexedHeap W I} {ops : List (HeapOp W I)}
    (hwf : HWF h) (hrun : runOps h ops = some h') : HWF h' := by
  induction ops generalizing h with
  | nil =>
    unfold runOps at hrun
    injection hrun with hrun
    rw [← hrun]
    exact hwf
  | cons op rest ih =>
    unfold runOps at hrun
    rcases happ : applyOp h op with _ | h2
    · rw [happ] at hrun
      cases hrun
    · rw [happ] at hrun
      exact ih (applyOp_wf hwf happ) hrun

end IndexedHeap


/-! ## Claims about the indexed heap -/

/-- **C2**: after any finite sequence of construct/push/pop/pushpop/poppush/
change_weight operations whose preconditions are met, starting from a
construction with pairwise-distinct items: (a) the backing array satisfies the
binary min-heap ordering (each slot's weight is at most its children's
weights), (b) every recorded index in the item-to-index mapping points to a
slot actually containing that item, and (c) `peek()` on a nonempty heap
returns the item of a minimal live `(weight, item)` pair. -/
theorem claim_C2_heap_invariants (W I : Type) [LinearOrder W] [LinearOrder I]
    (init : List (W × I)) (ops : List (HeapOp W I)) (h : IndexedHeap W I)
    (hnd : (init.map Prod.snd).Nodup)
    (hrun : runOps (IndexedHeap.ofList init) ops = some h) :
    ((∀ j p q, h.heap.arr.get? ((j-1)/2) = some p →
      h.heap.arr.get? j = some q → 0 < j → p.1 ≤ q.1) ∧
    (∀ it j, j ∈ h.heap.index it → ∃ w, h.heap.arr.get? j = some (w, it)) ∧
    (h.heap.arr ≠ [] → ∃ p, h.peek = .ok p.2 ∧ p ∈ h.heap.arr ∧
      ∀ q ∈ h.heap.arr, pairLe p q)) := by
  have hwf : IndexedHeap.HWF h :=
    IndexedHeap.runOps_wf (IndexedHeap.ofList_spec init hnd).1 hrun
  refine ⟨?_, ?_, ?_⟩
  · intro j p q hp hq hj
    exact pairLe_weight (hwf.ord _ j p q (Nat.zero_le _) (childOf_parent hj) hp hq)
  · intro it j hj
    exact (hwf.ok it j).mp hj
  · intro hne
    have hlen : 0 < h.heap.arr.length := by
      cases harr : h.heap.arr with
      | nil => exact absurd harr hne
      | cons a t => simp [harr]
    obtain ⟨p, hp⟩ := exists_get?_of_lt hlen
    obtain ⟨hpeek, hmin⟩ := IndexedHeap.peek_spec hwf hp
    exact ⟨p, hpeek, List.get?_mem hp, hmin⟩

def c2Init : List (ℤ × ℕ) := [(3, 1), (1, 2), (2, 3)]

def c2Ops : List (HeapOp ℤ ℕ) :=
  [.push 4 0, .pop, .changeWeight 1 5, .pushpop 6 (-1), .poppush 7 10]

def c2Heap : IndexedHeap ℤ ℕ :=
  (runOps (IndexedHeap.ofList c2Init) c2Ops).getD ⟨⟨[], fun _ => []⟩⟩

theorem claim_C2_heap_invariants_witness :
    ((c2Init.map Prod.snd).Nodup ∧
      runOps (IndexedHeap.ofList c2Init) c2Ops = some c2Heap) ∧
    ((∀ j p q, c2Heap.heap.arr.get? ((j-1)/2) = some p →
      c2Heap.heap.arr.get? j = some q → 0 < j → p.1 ≤ q.1) ∧
    (∀ it j, j ∈ c2Heap.heap.index it → ∃ w, c2Heap.heap.arr.get? j = some (w, it)) ∧
    (c2Heap.heap.arr ≠ [] → ∃ p, c2Heap.peek = .ok p.2 ∧ p ∈ c2Heap.heap.arr ∧
      ∀ q ∈ c2Heap.heap.arr, pairLe p q)) :=
  ⟨⟨by decide, by rfl⟩,
    claim_C2_heap_invariants ℤ ℕ c2Init c2Ops c2Heap (by decide) (by rfl)⟩

/-- **C3**: `change_weight(item, new_weight)` on a present item overwrites the
item's stored weight, restores the heap ordering invariant, dispatches on the
sign of the change — decreased weights are sifted toward the root
(`pyheapq.siftdown` from the item's slot), increased weights toward the leaves
(`pyheapq.siftup` from the item's slot) — and an unchanged weight leaves the
queue state entirely unchanged. -/
theorem claim_C3_change_weight (W I : Type) [LinearOrder W] [LinearOrder I]
    (h : IndexedHeap W I) (it : I) (w oldw : W) (j : Nat)
    (hwf : IndexedHeap.HWF h) (hj : h.heap.arr.get? j = some (oldw, it)) :
    ∃ h', h.change_weight it w = .ok h' ∧
      (w, it) ∈ h'.heap.arr ∧
      HeapOrd h'.heap.arr ∧
      (w < oldw → h' = ⟨pyheapq.siftdown (h.heap.setPair j (w, it)) 0 j⟩) ∧
      (oldw < w → h' = ⟨pyheapq.siftup (h.heap.setPair j (w, it)) j⟩) ∧
      (w = oldw → h' = h) := by
  obtain ⟨h', heq, hperm, hwf', hid, hdec, hinc⟩ :=
    IndexedHeap.change_weight_spec hwf hj
  refine ⟨h', heq, ?_, hwf'.ord, hdec, hinc, hid⟩
  have hmem : (w, it) ∈ (oldw, it) :: h'.heap.arr :=
    hperm.mem_iff.mpr (List.mem_cons_self _ _)
  rcases List.mem_cons.mp hmem with hwe | hmem2
  · have hweq : w = oldw := congrArg Prod.fst hwe
    rw [hid hweq]
    rw [hweq]
    exact List.get?_mem hj
  · exact hmem2

def c3Heap : IndexedHeap ℤ ℕ := IndexedHeap.ofList [(1, 10), (5, 11)]

theorem claim_C3_change_weight_witness :
    (IndexedHeap.HWF c3Heap ∧ c3Heap.heap.arr.get? 1 = some (5, 11)) ∧
    (∃ h', c3Heap.change_weight 11 0 = .ok h' ∧
      ((0 : ℤ), 11) ∈ h'.heap.arr ∧
      HeapOrd h'.heap.arr ∧
      ((0 : ℤ) < 5 → h' = ⟨pyheapq.siftdown (c3Heap.heap.setPair 1 (0, 11)) 0 1⟩) ∧
      ((5 : ℤ) < 0 → h' = ⟨pyheapq.siftup (c3Heap.heap.setPair 1 (0, 11)) 1⟩) ∧
      ((0 : ℤ) = 5 → h' = c3Heap)) :=
  ⟨⟨(IndexedHeap.ofList_spec _ (by decide)).1, by rfl⟩,
    claim_C3_change_weight ℤ ℕ c3Heap 11 0 5 1
      (IndexedHeap.ofList_spec _ (by decide)).1 (by rfl)⟩

/-- **C5**: `peek()`, `pop()` and `poppush` (pop-then-push) on an empty
`IndexedHeap` all fail with `EmptyQueueError`. -/
theorem claim_C5_empty_queue_errors (W I : Type) [LinearOrder W] [LinearOrder I]
    (h : IndexedHeap W I) (he : h.heap.arr = []) (it : I) (w : W) :
    h.peek = .error .emptyQueueError ∧
    h.pop = .error .emptyQueueError ∧
    h.poppush it w = .error .emptyQueueError :=
  ⟨IndexedHeap.peek_empty he, IndexedHeap.pop_empty he,
    IndexedHeap.poppush_empty he⟩

def emptyHeapZN : IndexedHeap ℤ ℕ := ⟨⟨[], fun _ => []⟩⟩

theorem claim_C5_empty_queue_errors_witness :
    emptyHeapZN.heap.arr = [] ∧
    (emptyHeapZN.peek = .error .emptyQueueError ∧
      emptyHeapZN.pop = .error .emptyQueueError ∧
      emptyHeapZN.poppush 0 0 = .error .emptyQueueError) :=
  ⟨rfl, claim_C5_empty_queue_errors ℤ ℕ emptyHeapZN rfl 0 0⟩

/-! ## Claims about the graph -/

/-- **C8**: `add_edge` with a negative weight always fails with the spec's
`ValidationError`, and no successor graph state is produced: in this
state-passing embedding the graph after the rejected call is exactly the
graph before it (the error branch returns before either the vertex set or the
edge mapping is touched). -/
theorem claim_C8_add_edge_negative (g : Graph) (s d : Nat) (w : ℤ)
    (hw : w < 0) :
    g.add_edge s d w = .error .validationError ∧
    ∀ g', g.add_edge s d w ≠ .ok g' := by
  constructor
  · unfold Graph.add_edge
    rw [if_pos hw]
  · intro g' hcon
    unfold Graph.add_edge at hcon
    rw [if_pos hw] at hcon
    cases hcon

theorem claim_C8_add_edge_negative_witness :
    ((-1 : ℤ) < 0) ∧
    (Graph.empty.add_edge 0 1 (-1) = .error .validationError ∧
      ∀ g', Graph.empty.add_edge 0 1 (-1) ≠ .ok g') :=
  ⟨by decide, claim_C8_add_edge_negative Graph.empty 0 1 (-1) (by decide)⟩

/-! ## Graph well-formedness and paths -/

theorem mem_addVert {l : List Nat} {v x : Nat} :
    x ∈ addVert l v ↔ x = v ∨ x ∈ l := by
  unfold addVert
  split
  · rename_i hv
    constructor
    · exact Or.inr
    · rintro (rfl | hx)
      · exact hv
      · exact hx
  · simp [or_comm]

theorem addVert_nodup {l : List Nat} {v : Nat} (h : l.Nodup) :
    (addVert l v).Nodup := by
  unfold addVert
  split
  · exact h
  · rename_i hv
    refine h.append (List.nodup_singleton v) ?_
    intro x hx hx2
    rw [List.mem_singleton] at hx2
    exact hv (hx2 ▸ hx)

theorem lookupD_ddAppend (m : EdgeMap) (k : Nat) (p : Nat × ℤ) (k' : Nat) :
    lookupD (ddAppend m k p) k' =
      if k' = k then lookupD m k ++ [p] else lookupD m k' := by
  induction m with
  | nil =>
    by_cases hk : k' = k
    · subst hk
      simp [ddAppend, lookupD]
    · have hk2 : ¬ k = k' := fun h => hk h.symm
      simp [ddAppend, lookupD, hk, hk2]
  | cons kl rest ih =>
    obtain ⟨k0, l0⟩ := kl
    by_cases h0 : k0 = k
    · subst h0
      by_cases hk : k' = k0
      · subst hk
        simp [ddAppend, lookupD]
      · have hk2 : ¬ k0 = k' := fun h => hk h.symm
        simp [ddAppend, lookupD, hk, hk2]
    · by_cases hk : k0 = k'
      · subst hk
        have hk2 : ¬ k0 = k := h0
        simp [ddAppend, lookupD, hk2]
      · simp [ddAppend, lookupD, h0, hk, ih]

theorem ddProbe_fst (m : EdgeMap) (k : Nat) : (ddProbe m k).1 = lookupD m k := by
  induction m with
  | nil => simp [ddProbe, lookupD]
  | cons kl rest ih =>
    obtain ⟨k0, l0⟩ := kl
    by_cases h0 : k0 = k <;> simp [ddProbe, lookupD, h0, ih]

theorem lookupD_ddProbe (m : EdgeMap) (k k' : Nat) :
    lookupD (ddProbe m k).2 k' = lookupD m k' := by
  induction m with
  | nil =>
    by_cases hk : k = k' <;> simp [ddProbe, lookupD, hk]
  | cons kl rest ih =>
    obtain ⟨k0, l0⟩ := kl
    by_cases h0 : k0 = k <;> simp [ddProbe, lookupD, h0, ih]

theorem ddProbe_mem (m : EdgeMap) (k : Nat) :
    ∀ kl ∈ (ddProbe m k).2, kl ∈ m ∨ kl.2 = [] := by
  induction m with
  | nil =>
    intro kl hkl
    simp only [ddProbe, List.mem_singleton] at hkl
    subst hkl
    exact Or.inr rfl
  | cons kl0 rest ih =>
    obtain ⟨k0, l0⟩ := kl0
    intro kl hkl
    by_cases h0 : k0 = k
    · subst h0
      simp only [ddProbe, if_pos rfl] at hkl
      exact Or.inl hkl
    · simp only [ddProbe, if_neg h0] at hkl
      rcases List.mem_cons.mp hkl with rfl | hkl2
      · exact Or.inl (List.mem_cons_self _ _)
      · rcases ih kl hkl2 with h | h
        · exact Or.inl (List.mem_cons_of_mem _ h)
        · exact Or.inr h

/-- Graphs reachable through `add_edge` from the empty graph. -/
inductive Built : Graph → Prop where
  | empty : Built Graph.empty
  | step {g g' : Graph} {s d : Nat} {w : ℤ} :
      Built g → g.add_edge s d w = .ok g' → Built g'

/-- Well-formedness: the vertex list is duplicate-free and every edge's
endpoints are vertices. -/
structure GraphWF (g : Graph) : Prop where
  vnodup : g.vertices.Nodup
  closed : ∀ k p, p ∈ lookupD g.edges k → k ∈ g.vertices ∧ p.1 ∈ g.vertices

/-- All stored edge weights are nonnegative. -/
def Nonneg (g : Graph) : Prop :=
  ∀ k p, p ∈ lookupD g.edges k → 0 ≤ p.2

theorem add_edge_ok {g g' : Graph} {s d : Nat} {w : ℤ}
    (h : g.add_edge s d w = .ok g') :
    0 ≤ w ∧ g' = ⟨addVert (addVert g.vertices d) s,
      ddAppend g.edges s (d, w)⟩ := by
  unfold Graph.add_edge at h
  by_cases hw : w < 0
  · rw [if_pos hw] at h
    cases h
  · rw [if_neg hw] at h
    refine ⟨by omega, ?_⟩
    injection h with h2
    exact h2.symm

theorem Built.wf {g : Graph} (h : Built g) : GraphWF g ∧ Nonneg g := by
  induction h with
  | empty =>
    constructor
    · constructor
      · simp [Graph.empty]
      · intro k p hp
        simp [Graph.empty, lookupD] at hp
    · intro k p hp
      simp [Graph.empty, lookupD] at hp
  | step hb hok ih =>
    rename_i g g' s d w
    obtain ⟨hw, hge⟩ := add_edge_ok hok
    subst hge
    obtain ⟨⟨hnd, hcl⟩, hnn⟩ := ih
    constructor
    · constructor
      · exact addVert_nodup (addVert_nodup hnd)
      · intro k p hp
        simp only [lookupD_ddAppend] at hp
        split_ifs at hp with hk
        · subst hk
          rcases List.mem_append.mp hp with hp | hp
          · obtain ⟨h1, h2⟩ := hcl k p hp
            exact ⟨mem_addVert.mpr (Or.inr (mem_addVert.mpr (Or.inr h1))),
              mem_addVert.mpr (Or.inr (mem_addVert.mpr (Or.inr h2)))⟩
          · obtain rfl := List.mem_singleton.mp hp
            exact ⟨mem_addVert.mpr (Or.inl rfl),
              mem_addVert.mpr (Or.inr (mem_addVert.mpr (Or.inl rfl)))⟩
        · obtain ⟨h1, h2⟩ := hcl k p hp
          exact ⟨mem_addVert.mpr (Or.inr (mem_addVert.mpr (Or.inr h1))),
            mem_addVert.mpr (Or.inr (mem_addVert.mpr (Or.inr h2)))⟩
    · intro k p hp
      simp only [lookupD_ddAppend] at hp
      split_ifs at hp with hk
      · subst hk
        rcases List.mem_append.mp hp with hp | hp
        · exact hnn _ p hp
        · obtain rfl := List.mem_singleton.mp hp
          exact hw
      · exact hnn k p hp

/-- A vertex path together with one cost realization: consecutive vertices
are joined by chosen edges whose weights sum to the cost. -/
inductive ChainW (g : Graph) : List Nat → ℤ → Prop where
  | single (v : Nat) (hv : v ∈ g.vertices) : ChainW g [v] 0
  | cons (u v : Nat) (rest : List Nat) (w c : ℤ)
      (he : (v, w) ∈ lookupD g.edges u) (hc : ChainW g (v :: rest) c) :
      ChainW g (u :: v :: rest) (w + c)

/-- `d` is reachable from `s` by some chain of edges. -/
def Conn (g : Graph) (s d : Nat) : Prop :=
  ∃ p c, ChainW g p c ∧ p.head? = some s ∧ p.getLast? = some d

theorem ChainW.nonneg {g : Graph} (hnn : Nonneg g) :
    ∀ {p : List Nat} {c : ℤ}, ChainW g p c → 0 ≤ c := by
  intro p c h
  induction h with
  | single => exact le_rfl
  | cons u v rest w c he hc ih =>
    have := hnn u (v, w) he
    omega

theorem ChainW.append_edge {g : Graph} :
    ∀ {p : List Nat} {c : ℤ}, ChainW g p c →
      ∀ {u x : Nat} {w : ℤ}, p.getLast? = some u →
      (x, w) ∈ lookupD g.edges u → x ∈ g.vertices →
      ChainW g (p ++ [x]) (c + w) := by
  intro p c h
  induction h with
  | single v hv =>
    intro u x w hlast he hx
    injection hlast with hlast
    subst hlast
    rw [show ((0:ℤ) + w) = w + 0 by omega]
    exact ChainW.cons v x [] w 0 he (ChainW.single x hx)
  | cons u v rest w c he hc ih =>
    intro u' x w' hlast he' hx
    have hlast2 : (v :: rest).getLast? = some u' := by
      rw [List.getLast?_cons_cons] at hlast
      exact hlast
    have := ih hlast2 he' hx
    rw [show (w + c + w') = w + (c + w') by omega]
    exact ChainW.cons u v (rest ++ [x]) w (c + w') he (by simpa using this)

/-! ## Search-loop invariants -/

/-- Position of the first occurrence of `v` in `pl` (`pl.length` if absent):
the order in which vertices were popped from the queue. -/
def rank : List Nat → Nat → Nat
  | [], _ => 0
  | x :: rest, v => if x = v then 0 else rank rest v + 1

theorem rank_absent : ∀ {pl : List Nat} {v : Nat}, v ∉ pl → rank pl v = pl.length := by
  intro pl
  induction pl with
  | nil => intro v _; rfl
  | cons x rest ih =>
    intro v hv
    have hx : ¬ x = v := fun h => hv (h ▸ List.mem_cons_self _ _)
    simp only [rank, if_neg hx, List.length_cons]
    rw [ih (fun h => hv (List.mem_cons_of_mem _ h))]

theorem rank_lt_length : ∀ {pl : List Nat} {v : Nat}, v ∈ pl → rank pl v < pl.length := by
  intro pl
  induction pl with
  | nil => intro v hv; cases hv
  | cons x rest ih =>
    intro v hv
    by_cases hx : x = v
    · simp [rank, hx]
    · have hv2 : v ∈ rest := by
        rcases List.mem_cons.mp hv with h | h
        · exact absurd h.symm hx
        · exact h
      simp only [rank, if_neg hx, List.length_cons]
      exact Nat.succ_lt_succ (ih hv2)

theorem rank_append_mem : ∀ {pl : List Nat} {v : Nat} (l2 : List Nat),
    v ∈ pl → rank (pl ++ l2) v = rank pl v := by
  intro pl
  induction pl with
  | nil => intro v l2 hv; cases hv
  | cons x rest ih =>
    intro v l2 hv
    by_cases hx : x = v
    · simp [rank, hx]
    · have hv2 : v ∈ rest := by
        rcases List.mem_cons.mp hv with h | h
        · exact absurd h.symm hx
        · exact h
      simp only [List.cons_append, rank, if_neg hx]
      show rank (rest ++ l2) v + 1 = rank rest v + 1
      rw [ih l2 hv2]

theorem rank_append_absent : ∀ {pl : List Nat} {v : Nat} (l2 : List Nat),
    v ∉ pl → rank (pl ++ l2) v = pl.length + rank l2 v := by
  intro pl
  induction pl with
  | nil => intro v l2 _; simp [rank]
  | cons x rest ih =>
    intro v l2 hv
    have hx : ¬ x = v := fun h => hv (h ▸ List.mem_cons_self _ _)
    simp only [List.cons_append, rank, if_neg hx, List.length_cons]
    show rank (rest ++ l2) v + 1 = rest.length + 1 + rank l2 v
    rw [ih l2 (fun h => hv (List.mem_cons_of_mem _ h))]
    omega

theorem mem_of_getLast? : ∀ {l : List Nat} {x : Nat}, l.getLast? = some x → x ∈ l := by
  intro l
  induction l with
  | nil => intro x h; cases h
  | cons a rest ih =>
    intro x h
    cases rest with
    | nil =>
      have ha : a = x := by simpa using h
      rw [ha]
      exact List.mem_cons_self _ _
    | cons b r2 =>
      rw [List.getLast?_cons_cons] at h
      exact List.mem_cons_of_mem _ (ih h)

theorem head?_append_of_ne_nil {α : Type} {l : List α} (l2 : List α) (h : l ≠ []) :
    (l ++ l2).head? = l.head? := by
  cases l with
  | nil => exact absurd rfl h
  | cons a r => rfl

theorem getLast?_concat' {α : Type} (l : List α) (a : α) :
    (l ++ [a]).getLast? = some a := by
  induction l with
  | nil => rfl
  | cons x r ih =>
    cases r with
    | nil => rfl
    | cons y r2 =>
      simp only [List.cons_append] at ih ⊢
      rw [List.getLast?_cons_cons]
      exact ih

theorem length_lt_of_proper_sub {pl V : List Nat} {x : Nat}
    (hnd : pl.Nodup) (hVnd : V.Nodup) (hsub : ∀ v ∈ pl, v ∈ V)
    (hx : x ∈ V) (hxn : x ∉ pl) : pl.length < V.length := by
  have h1 : pl.length = pl.toFinset.card := (List.toFinset_card_of_nodup hnd).symm
  have h2 : V.length = V.toFinset.card := (List.toFinset_card_of_nodup hVnd).symm
  have hsub2 : pl.toFinset ⊆ V.toFinset.erase x := by
    intro a ha
    rw [List.mem_toFinset] at ha
    exact Finset.mem_erase.mpr ⟨fun h => hxn (h ▸ ha), List.mem_toFinset.mpr (hsub a ha)⟩
  have h3 : pl.toFinset.card ≤ (V.toFinset.erase x).card := Finset.card_le_card hsub2
  have h4 : (V.toFinset.erase x).card = V.toFinset.card - 1 :=
    Finset.card_erase_of_mem (List.mem_toFinset.mpr hx)
  have h5 : 0 < V.toFinset.card :=
    Finset.card_pos.mpr ⟨x, List.mem_toFinset.mpr hx⟩
  omega

theorem ChainW.ne_nil {g : Graph} {p : List Nat} {c : ℤ} (h : ChainW g p c) :
    p ≠ [] := by
  cases h <;> simp

theorem ChainW.mem_vertices {g : Graph} (hwfg : GraphWF g) :
    ∀ {p : List Nat} {c : ℤ}, ChainW g p c → ∀ x ∈ p, x ∈ g.vertices := by
  intro p c h
  induction h with
  | single v hv =>
    intro x hx
    obtain rfl := List.mem_singleton.mp hx
    exact hv
  | cons u v rest w c he hc ih =>
    intro x hx
    rcases List.mem_cons.mp hx with rfl | hx2
    · exact (hwfg.closed x (v, w) he).1
    · exact ih x hx2

theorem chain_extend {g : Graph} {p : List Nat} {c : ℤ} {s u x : Nat} {w : ℤ}
    (hc : ChainW g p c) (hh : p.head? = some s) (hl : p.getLast? = some u)
    (he : (x, w) ∈ lookupD g.edges u) (hx : x ∈ g.vertices) :
    ChainW g (p ++ [x]) (c + w) ∧ (p ++ [x]).head? = some s ∧
      (p ++ [x]).getLast? = some x :=
  ⟨hc.append_edge hl he hx, by rw [head?_append_of_ne_nil _ hc.ne_nil, hh],
    getLast?_concat' p x⟩

theorem IndexedHeap.mem_item_unique {W I : Type} [LinearOrder W] [LinearOrder I]
    {s : IndexedWeightList W I} (hnd : s.ItemsNodup) {w1 w2 : W} {it : I}
    (h1 : (w1, it) ∈ s.arr) (h2 : (w2, it) ∈ s.arr) : w1 = w2 := by
  obtain ⟨j1, hj1⟩ := List.get?_of_mem h1
  obtain ⟨j2, hj2⟩ := List.get?_of_mem h2
  have := IndexedWeightList.items_get?_inj hnd hj1 hj2
  subst this
  rw [hj1] at hj2
  injection hj2 with hj2
  exact congrArg Prod.fst hj2

/-- Invariant of the search loop, relative to the original graph `g`, the
source `s`, and the list `pl` of vertices popped so far (in pop order). -/
structure DIBase (g : Graph) (s : Nat) (pl : List Nat) (st : SearchSt) : Prop where
  hwf : st.h.HWF
  live_iff : ∀ v, v ∈ st.h.heap.arr.map Prod.snd ↔ (v ∈ g.vertices ∧ v ∉ pl)
  plsub : ∀ v ∈ pl, v ∈ g.vertices
  plnodup : pl.Nodup
  wsync : ∀ w v, (w, v) ∈ st.h.heap.arr → w = st.dist v
  src_zero : st.dist s = 0
  attained : ∀ v, st.dist v ≠ ⊤ → ∃ p c, ChainW g p c ∧ p.head? = some s ∧
      p.getLast? = some v ∧ (c : DistW) = st.dist v
  settled : ∀ u ∈ pl, ∀ p c, ChainW g p c → p.head? = some s →
      p.getLast? = some u → st.dist u ≤ (c : DistW)
  mono : ∀ u ∈ pl, ∀ v, v ∈ st.h.heap.arr.map Prod.snd → st.dist u ≤ st.dist v
  pred_ok : ∀ v, st.dist v ≠ ⊤ → v ≠ s → ∃ u w, st.pred v = some u ∧
      (v, w) ∈ lookupD g.edges u ∧ st.dist u + (w : DistW) = st.dist v ∧
      u ∈ pl ∧ rank pl u < rank pl v
  edges_keep : ∀ k, lookupD st.edges k = lookupD g.edges k

/-- `DIBase` plus closure: every already-popped vertex has had all its
outgoing edges relaxed. -/
structure DI (g : Graph) (s : Nat) (pl : List Nat) (st : SearchSt)
    extends DIBase g s pl st : Prop where
  closure : ∀ u ∈ pl, ∀ x w, (x, w) ∈ lookupD g.edges u →
      st.dist x ≤ st.dist u + (w : DistW)

/-- Bookkeeping facts relating a state to a later state of the same
iteration: distances only decrease, popped distances are frozen, the heap
items are only permuted, and the edge mapping is untouched. -/
structure StepPost (pl : List Nat) (st st' : SearchSt) : Prop where
  dec : ∀ x, st'.dist x ≤ st.dist x
  keep : ∀ u ∈ pl, st'.dist u = st.dist u
  items : st'.h.heap.arr.map Prod.snd |>.Perm (st.h.heap.arr.map Prod.snd)
  len : st'.h.heap.arr.length = st.h.heap.arr.length
  edges : st'.edges = st.edges

theorem StepPost.rfl' {pl : List Nat} {st : SearchSt} : StepPost pl st st :=
  ⟨fun _ => le_rfl, fun _ _ => rfl, List.Perm.refl _, rfl, rfl⟩

theorem StepPost.comp {pl : List Nat} {st1 st2 st3 : SearchSt}
    (a : StepPost pl st1 st2) (b : StepPost pl st2 st3) : StepPost pl st1 st3 :=
  ⟨fun x => le_trans (b.dec x) (a.dec x),
    fun u hu => (b.keep u hu).trans (a.keep u hu),
    b.items.trans a.items, b.len.trans a.len, b.edges.trans a.edges⟩

theorem dist_nonneg_of_ne_top {g : Graph} {s : Nat} {pl : List Nat}
    {st : SearchSt} (hnn : Nonneg g) (hb : DIBase g s pl st) (v : Nat)
    (hv : st.dist v ≠ ⊤) : (0 : DistW) ≤ st.dist v := by
  obtain ⟨p, c, hc, _, _, hcd⟩ := hb.attained v hv
  rw [← hcd]
  exact_mod_cast hc.nonneg hnn

theorem relaxEdge_spec {g : Graph} {s : Nat} {pl : List Nat} {st : SearchSt}
    {v0 : Nat} {vdist : DistW} {e : Nat × ℤ}
    (hwfg : GraphWF g) (hnn : Nonneg g)
    (hb : DIBase g s pl st) (hv0 : v0 ∈ pl) (hvd0 : st.dist v0 = vdist)
    (hub : ∀ u ∈ pl, st.dist u ≤ vdist)
    (he : e ∈ lookupD g.edges v0) :
    ∃ st', relaxEdge v0 vdist st e = .ok st' ∧ DIBase g s pl st' ∧
      st'.dist e.1 ≤ vdist + (e.2 : DistW) ∧ StepPost pl st st' := by
  have hred : relaxEdge v0 vdist st e =
      (if (vdist + (e.2 : DistW)) < st.dist e.1 then
        match st.h.change_weight e.1 (vdist + (e.2 : DistW)) with
        | .error err => .error err
        | .ok h' => .ok
          { st with
            dist := fun x => if x = e.1 then (vdist + (e.2 : DistW)) else st.dist x
            pred := fun x => if x = e.1 then some v0 else st.pred x
            h := h' }
      else .ok st) := rfl
  set alt : DistW := vdist + (e.2 : DistW) with halt_def
  by_cases halt : alt < st.dist e.1
  · -- the relaxation improves the distance to e.1
    have hvdtop : vdist ≠ ⊤ := by
      intro h
      rw [halt_def, h, top_add] at halt
      exact absurd halt not_top_lt
    have hv0top : st.dist v0 ≠ ⊤ := by
      rw [hvd0]
      exact hvdtop
    obtain ⟨p0, c0, hc0, hh0, hl0, hcd0⟩ := hb.attained v0 hv0top
    have he1v : e.1 ∈ g.vertices := (hwfg.closed v0 e he).2
    have he' : (e.1, e.2) ∈ lookupD g.edges v0 := by rwa [Prod.mk.eta]
    obtain ⟨hcq, hhq, hlq⟩ := chain_extend hc0 hh0 hl0 he' he1v
    have hcast : ((c0 + e.2 : ℤ) : DistW) = alt := by
      rw [halt_def, ← hvd0, ← hcd0]
      push_cast
      rfl
    have hw2 : (0:ℤ) ≤ e.2 := hnn v0 e he
    have haltnn : (0 : DistW) ≤ alt := by
      rw [← hcast]
      have : (0:ℤ) ≤ c0 + e.2 := by
        have := hc0.nonneg hnn
        omega
      exact_mod_cast this
    have he1pl : e.1 ∉ pl := by
      intro hin
      have := hb.settled e.1 hin _ _ hcq hhq hlq
      rw [hcast] at this
      exact absurd (lt_of_lt_of_le halt this) (lt_irrefl _)
    have he1s : e.1 ≠ s := by
      intro hes
      rw [hes, hb.src_zero] at halt
      exact absurd (lt_of_le_of_lt haltnn halt) (lt_irrefl _)
    have he1live : e.1 ∈ st.h.heap.arr.map Prod.snd :=
      (hb.live_iff e.1).mpr ⟨he1v, he1pl⟩
    obtain ⟨j, w0, hj⟩ := IndexedWeightList.mem_items_iff.mp he1live
    have hw0 : w0 = st.dist e.1 := hb.wsync w0 e.1 (List.get?_mem hj)
    obtain ⟨h', hcw, hperm, hwf', _⟩ := @IndexedHeap.change_weight_spec _ _ _ _ _ _ alt _ _ hb.hwf hj
    set st' : SearchSt :=
      { st with
        dist := fun x => if x = e.1 then alt else st.dist x
        pred := fun x => if x = e.1 then some v0 else st.pred x
        h := h' } with hst'
    have hok : relaxEdge v0 vdist st e = .ok st' := by
      rw [hred, if_pos halt, hcw]
    have hdist' : ∀ x, st'.dist x = if x = e.1 then alt else st.dist x := fun _ => rfl
    have hdists : ∀ x, x ≠ e.1 → st'.dist x = st.dist x := by
      intro x hx
      rw [hdist' x, if_neg hx]
    have hdiste : st'.dist e.1 = alt := by
      rw [hdist' e.1, if_pos rfl]
    have hitems : st'.h.heap.arr.map Prod.snd |>.Perm (st.h.heap.arr.map Prod.snd) := by
      have := hperm.map Prod.snd
      simp only [List.map_cons] at this
      exact this.cons_inv
    have hlive' : ∀ v, v ∈ st'.h.heap.arr.map Prod.snd ↔ (v ∈ g.vertices ∧ v ∉ pl) := by
      intro v
      rw [hitems.mem_iff]
      exact hb.live_iff v
    have haltold : alt ≠ w0 := by
      rw [hw0]
      exact ne_of_lt halt
    have halte : (alt, e.1) ∈ st'.h.heap.arr := by
      have hmem : (alt, e.1) ∈ (w0, e.1) :: h'.heap.arr :=
        hperm.mem_iff.mpr (List.mem_cons_self _ _)
      rcases List.mem_cons.mp hmem with hc | hc
      · exact absurd (congrArg Prod.fst hc) haltold
      · exact hc
    have hwsync' : ∀ w v, (w, v) ∈ st'.h.heap.arr → w = st'.dist v := by
      intro w v hwv
      by_cases hv : v = e.1
      · subst hv
        rw [hdiste]
        exact IndexedHeap.mem_item_unique hwf'.nodup hwv halte
      · rw [hdists v hv]
        have hmem : (w, v) ∈ (alt, e.1) :: st.h.heap.arr :=
          hperm.mem_iff.mp (List.mem_cons_of_mem _ hwv)
        rcases List.mem_cons.mp hmem with hc | hc
        · exact absurd (congrArg Prod.snd hc) hv
        · exact hb.wsync w v hc
    have hkeep : ∀ u ∈ pl, st'.dist u = st.dist u := by
      intro u hu
      exact hdists u (fun h => he1pl (h ▸ hu))
    refine ⟨st', hok, ?_, ?_, ?_⟩
    · constructor
      · exact hwf'
      · exact hlive'
      · exact hb.plsub
      · exact hb.plnodup
      · exact hwsync'
      · rw [hdists s (fun h => he1s h.symm)]
        exact hb.src_zero
      · intro v hv
        by_cases hve : v = e.1
        · subst hve
          exact ⟨_, _, hcq, hhq, hlq, by rw [hcast, hdiste]⟩
        · rw [hdists v hve] at hv ⊢
          exact hb.attained v hv
      · intro u hu q c hc hh hl
        rw [hkeep u hu]
        exact hb.settled u hu q c hc hh hl
      · intro u hu v hv
        rw [hkeep u hu]
        rw [hitems.mem_iff] at hv
        by_cases hve : v = e.1
        · subst hve
          rw [hdiste, halt_def]
          calc st.dist u ≤ vdist := hub u hu
          _ ≤ vdist + (e.2 : DistW) := le_add_of_nonneg_right (by exact_mod_cast hw2)
        · rw [hdists v hve]
          exact hb.mono u hu v hv
      · intro v hv hvs
        by_cases hve : v = e.1
        · subst hve
          refine ⟨v0, e.2, ?_, he', ?_, hv0, ?_⟩
          · show (if e.1 = e.1 then some v0 else st.pred e.1) = some v0
            rw [if_pos rfl]
          · rw [hkeep v0 hv0, hvd0, hdiste, halt_def]
          · have h1 : rank pl v0 < pl.length := rank_lt_length hv0
            have h2 : rank pl e.1 = pl.length := rank_absent he1pl
            omega
        · rw [hdists v hve] at hv ⊢
          obtain ⟨u, w, hp, hedge, hsum, hupl, hrank⟩ := hb.pred_ok v hv hvs
          refine ⟨u, w, ?_, hedge, ?_, hupl, hrank⟩
          · show (if v = e.1 then some v0 else st.pred v) = some u
            rw [if_neg hve]
            exact hp
          · rw [hkeep u hupl]
            exact hsum
      · exact hb.edges_keep
    · rw [hdiste]
    · refine ⟨fun x => ?_, hkeep, hitems, ?_, rfl⟩
      · by_cases hx : x = e.1
        · subst hx
          rw [hdiste]
          exact le_of_lt halt
        · rw [hdists x hx]
      · show h'.heap.arr.length = st.h.heap.arr.length
        have hl2 := hperm.length_eq
        simp only [List.length_cons] at hl2
        omega
  · -- no improvement: the state is unchanged
    refine ⟨st, by rw [hred, if_neg halt], hb, le_of_not_lt halt, StepPost.rfl'⟩

theorem relaxList_spec {g : Graph} {s : Nat} {pl : List Nat} {v0 : Nat}
    {vdist : DistW}
    (hwfg : GraphWF g) (hnn : Nonneg g) (hv0 : v0 ∈ pl) :
    ∀ (es : List (Nat × ℤ)) (st : SearchSt), DIBase g s pl st →
      st.dist v0 = vdist → (∀ u ∈ pl, st.dist u ≤ vdist) →
      (∀ e ∈ es, e ∈ lookupD g.edges v0) →
      ∃ st', relaxList v0 vdist st es = .ok st' ∧ DIBase g s pl st' ∧
        (∀ e ∈ es, st'.dist e.1 ≤ vdist + (e.2 : DistW)) ∧ StepPost pl st st' := by
  intro es
  induction es with
  | nil =>
    intro st hb _ _ _
    exact ⟨st, rfl, hb, fun e he => absurd he (List.not_mem_nil e), StepPost.rfl'⟩
  | cons e rest ih =>
    intro st hb hvd0 hub hes
    obtain ⟨st1, hok1, hb1, hbound1, hpost1⟩ :=
      relaxEdge_spec hwfg hnn hb hv0 hvd0 hub (hes e (List.mem_cons_self _ _))
    have hvd1 : st1.dist v0 = vdist := (hpost1.keep v0 hv0).trans hvd0
    have hub1 : ∀ u ∈ pl, st1.dist u ≤ vdist := by
      intro u hu
      rw [hpost1.keep u hu]
      exact hub u hu
    obtain ⟨st2, hok2, hb2, hbound2, hpost2⟩ :=
      ih st1 hb1 hvd1 hub1 (fun e' he' => hes e' (List.mem_cons_of_mem _ he'))
    refine ⟨st2, ?_, hb2, ?_, hpost1.comp hpost2⟩
    · show relaxList v0 vdist st (e :: rest) = .ok st2
      simp only [relaxList, hok1]
      exact hok2
    · intro e' he'
      rcases List.mem_cons.mp he' with rfl | he2
      · exact le_trans (hpost2.dec e'.1) hbound1
      · exact hbound2 e' he2

theorem root_min_le_chain {g : Graph} {s : Nat} {pl : List Nat} {st : SearchSt}
    {r : DistW × Nat}
    (hwfg : GraphWF g) (hnn : Nonneg g) (hdi : DI g s pl st)
    (hmin : ∀ q ∈ st.h.heap.arr, pairLe r q)
    {p : List Nat} {c : ℤ} {x : Nat}
    (hc : ChainW g p c) (hh : p.head? = some s) (hl : p.getLast? = some x)
    (hx : x ∈ st.h.heap.arr.map Prod.snd) :
    r.1 ≤ (c : DistW) := by
  have hb := hdi.toDIBase
  have hlift : ∀ (q : List Nat) (c' : ℤ), ChainW g q c' →
      ∀ y z, q.head? = some y → q.getLast? = some z →
      z ∈ st.h.heap.arr.map Prod.snd → y ∈ pl → r.1 ≤ st.dist y + (c' : DistW) := by
    intro q c' hq
    induction hq with
    | single v hv =>
      intro y z hy hz hzm hypl
      have hy2 : v = y := by simpa using hy
      have hz2 : v = z := by simpa using hz
      rw [← hy2] at hypl
      rw [← hz2, hb.live_iff] at hzm
      exact absurd hypl hzm.2
    | cons u v rest w cc he hcc ih =>
      intro y z hy hz hzm hypl
      have hy2 : u = y := by simpa using hy
      subst hy2
      have hz2 : (v :: rest).getLast? = some z := by
        rw [List.getLast?_cons_cons] at hz
        exact hz
      have hclo : st.dist v ≤ st.dist u + (w : DistW) := hdi.closure u hypl v w he
      have hvv : v ∈ g.vertices := (hwfg.closed u (v, w) he).2
      have hccnn : (0:ℤ) ≤ cc := hcc.nonneg hnn
      by_cases hvpl : v ∈ pl
      · have hih := ih v z rfl hz2 hzm hvpl
        calc r.1 ≤ st.dist v + (cc : DistW) := hih
        _ ≤ (st.dist u + (w : DistW)) + (cc : DistW) := add_le_add_right hclo _
        _ = st.dist u + ((w + cc : ℤ) : DistW) := by
            rw [add_assoc]
            push_cast
            rfl
      · have hvlive : v ∈ st.h.heap.arr.map Prod.snd :=
          (hb.live_iff v).mpr ⟨hvv, hvpl⟩
        obtain ⟨j, w0, hj⟩ := IndexedWeightList.mem_items_iff.mp hvlive
        have hw0 : w0 = st.dist v := hb.wsync w0 v (List.get?_mem hj)
        have hrle : r.1 ≤ w0 := pairLe_weight (hmin _ (List.get?_mem hj))
        have hwle : w ≤ w + cc := by omega
        calc r.1 ≤ w0 := hrle
        _ = st.dist v := hw0
        _ ≤ st.dist u + (w : DistW) := hclo
        _ ≤ st.dist u + ((w + cc : ℤ) : DistW) := by
            apply add_le_add_left
            exact_mod_cast hwle
  by_cases hspl : s ∈ pl
  · have := hlift p c hc s x hh hl hx hspl
    rw [hb.src_zero, zero_add] at this
    exact this
  · have hsv : s ∈ g.vertices := by
      have hsm : s ∈ p := by
        cases p with
        | nil => cases hh
        | cons a q =>
          injection hh with hh
          rw [← hh]
          exact List.mem_cons_self _ _
      exact hc.mem_vertices hwfg s hsm
    have hslive : s ∈ st.h.heap.arr.map Prod.snd := (hb.live_iff s).mpr ⟨hsv, hspl⟩
    obtain ⟨j, w0, hj⟩ := IndexedWeightList.mem_items_iff.mp hslive
    have hw0 : w0 = st.dist s := hb.wsync w0 s (List.get?_mem hj)
    have hrle : r.1 ≤ w0 := pairLe_weight (hmin _ (List.get?_mem hj))
    have hcnn : (0:ℤ) ≤ c := hc.nonneg hnn
    calc r.1 ≤ w0 := hrle
    _ = st.dist s := hw0
    _ = 0 := hb.src_zero
    _ ≤ (c : DistW) := by exact_mod_cast hcnn

theorem dspLoop_spec {g : Graph} {s d : Nat}
    (hwfg : GraphWF g) (hnn : Nonneg g) (hd : d ∈ g.vertices) :
    ∀ (fuel : Nat) (pl : List Nat) (st : SearchSt), DI g s pl st → d ∉ pl →
      st.h.heap.arr.length ≤ fuel →
      ∃ st' pl', dspLoop d fuel st = .ok st' ∧ DI g s pl' st' ∧ d ∉ pl' ∧
        (∀ x, st'.dist x ≤ st.dist x) ∧
        (∀ k, lookupD st'.edges k = lookupD g.edges k) ∧
        (∀ p c, ChainW g p c → p.head? = some s → p.getLast? = some d →
          st'.dist d ≤ (c : DistW)) := by
  intro fuel
  induction fuel with
  | zero =>
    intro pl st hdi hdpl hlen
    have hdlive : d ∈ st.h.heap.arr.map Prod.snd :=
      (hdi.live_iff d).mpr ⟨hd, hdpl⟩
    have harr : st.h.heap.arr = [] := by
      have : st.h.heap.arr.length = 0 := Nat.le_zero.mp hlen
      exact List.eq_nil_of_length_eq_zero this
    rw [harr] at hdlive
    cases hdlive
  | succ fuel ih =>
    intro pl st hdi hdpl hlen
    have hb := hdi.toDIBase
    have hdlive : d ∈ st.h.heap.arr.map Prod.snd :=
      (hb.live_iff d).mpr ⟨hd, hdpl⟩
    have harrne : st.h.heap.arr ≠ [] := by
      intro h
      rw [h] at hdlive
      cases hdlive
    have hpos : 0 < st.h.heap.arr.length := List.length_pos.mpr harrne
    obtain ⟨r, hr⟩ := exists_get?_of_lt hpos
    obtain ⟨hpeek, hmin⟩ := IndexedHeap.peek_spec hb.hwf hr
    have hrmem : r ∈ st.h.heap.arr := List.get?_mem hr
    have hrsync : r.1 = st.dist r.2 := by
      have := hb.wsync r.1 r.2 (by rwa [Prod.mk.eta])
      exact this
    by_cases hrd : r.2 = d
    · -- the loop exits: the root of the heap is the destination
      refine ⟨st, pl, ?_, hdi, hdpl, fun _ => le_rfl, hb.edges_keep, ?_⟩
      · simp only [dspLoop, hpeek, if_pos hrd]
      · intro p c hc hh hl
        have := root_min_le_chain hwfg hnn hdi hmin hc hh hl hdlive
        rw [← hrd] at hl ⊢
        rw [← hrsync]
        exact root_min_le_chain hwfg hnn hdi hmin hc hh hl
          ((hb.live_iff r.2).mpr ⟨hrd ▸ hd, hrd ▸ hdpl⟩)
    · -- pop the root and relax its outgoing edges
      obtain ⟨h1, hpop, hperm1, hwf1, hmin1⟩ := IndexedHeap.pop_spec hb.hwf hr
      have hv0live : r.2 ∈ st.h.heap.arr.map Prod.snd :=
        List.mem_map.mpr ⟨r, hrmem, rfl⟩
      obtain ⟨hv0vert, hv0pl⟩ := (hb.live_iff r.2).mp hv0live
      set st1 : SearchSt :=
        { st with h := h1, edges := (ddProbe st.edges r.2).2 } with hst1
      set pl' : List Nat := pl ++ [r.2] with hpl'
      have hitems1 : (r.2 :: h1.heap.arr.map Prod.snd).Perm
          (st.h.heap.arr.map Prod.snd) := by
        have := hperm1.map Prod.snd
        simpa using this
      have hnd1 : (r.2 :: h1.heap.arr.map Prod.snd).Nodup :=
        hitems1.nodup_iff.mpr hb.hwf.nodup
      have hv0notin1 : r.2 ∉ h1.heap.arr.map Prod.snd :=
        (List.nodup_cons.mp hnd1).1
      have hmempl' : ∀ v, v ∈ pl' ↔ (v ∈ pl ∨ v = r.2) := by
        intro v
        rw [hpl', List.mem_append, List.mem_singleton]
      have hv0pl' : r.2 ∈ pl' := (hmempl' r.2).mpr (Or.inr rfl)
      have hlive1 : ∀ v, v ∈ h1.heap.arr.map Prod.snd ↔
          (v ∈ g.vertices ∧ v ∉ pl') := by
        intro v
        constructor
        · intro hv
          have hvmem : v ∈ st.h.heap.arr.map Prod.snd :=
            hitems1.mem_iff.mp (List.mem_cons_of_mem _ hv)
          obtain ⟨hv1, hv2⟩ := (hb.live_iff v).mp hvmem
          have hvne : v ≠ r.2 := fun h => hv0notin1 (h ▸ hv)
          refine ⟨hv1, fun hvp => ?_⟩
          rcases (hmempl' v).mp hvp with h | h
          · exact hv2 h
          · exact hvne h
        · rintro ⟨hv1, hv2⟩
          have hvpl : v ∉ pl := fun h => hv2 ((hmempl' v).mpr (Or.inl h))
          have hvne : v ≠ r.2 := fun h => hv2 ((hmempl' v).mpr (Or.inr h))
          have hvmem : v ∈ st.h.heap.arr.map Prod.snd :=
            (hb.live_iff v).mpr ⟨hv1, hvpl⟩
          rcases List.mem_cons.mp (hitems1.mem_iff.mpr hvmem) with h | h
          · exact absurd h hvne
          · exact h
      have hsettle_v0 : ∀ p c, ChainW g p c → p.head? = some s →
          p.getLast? = some r.2 → st.dist r.2 ≤ (c : DistW) := by
        intro p c hc hh hl
        rw [← hrsync]
        exact root_min_le_chain hwfg hnn hdi hmin hc hh hl hv0live
      have hb1 : DIBase g s pl' st1 := by
        constructor
        · exact hwf1
        · exact hlive1
        · intro v hv
          rcases (hmempl' v).mp hv with h | h
          · exact hb.plsub v h
          · exact h ▸ hv0vert
        · rw [hpl']
          refine hb.plnodup.append (List.nodup_singleton _) ?_
          intro a ha ha2
          rw [List.mem_singleton] at ha2
          exact hv0pl (ha2 ▸ ha)
        · intro w v hwv
          exact hb.wsync w v (hperm1.mem_iff.mp (List.mem_cons_of_mem _ hwv))
        · exact hb.src_zero
        · exact hb.attained
        · intro u hu p c hc hh hl
          rcases (hmempl' u).mp hu with h | h
          · exact hb.settled u h p c hc hh hl
          · subst h
            exact hsettle_v0 p c hc hh hl
        · intro u hu v hv
          have hvmem : v ∈ st.h.heap.arr.map Prod.snd :=
            hitems1.mem_iff.mp (List.mem_cons_of_mem _ hv)
          rcases (hmempl' u).mp hu with h | h
          · exact hb.mono u h v hvmem
          · subst h
            obtain ⟨q, hq, hq2⟩ := List.mem_map.mp hvmem
            have hqd : q.1 = st.dist v := by
              rw [← hq2]
              exact hb.wsync q.1 q.2 (by rwa [Prod.mk.eta])
            rw [← hrsync, ← hqd]
            exact pairLe_weight (hmin q hq)
        · intro v hv hvs
          obtain ⟨u, w, hp, hedge, hsum, hupl, hrank⟩ := hb.pred_ok v hv hvs
          refine ⟨u, w, hp, hedge, hsum, (hmempl' u).mpr (Or.inl hupl), ?_⟩
          rw [hpl', rank_append_mem _ hupl]
          by_cases hvpl : v ∈ pl
          · rw [rank_append_mem _ hvpl]
            exact hrank
          · rw [rank_append_absent _ hvpl]
            have := rank_lt_length hupl
            omega
        · intro k
          show lookupD (ddProbe st.edges r.2).2 k = lookupD g.edges k
          rw [lookupD_ddProbe]
          exact hb.edges_keep k
      have hub' : ∀ u ∈ pl', st1.dist u ≤ st.dist r.2 := by
        intro u hu
        rcases (hmempl' u).mp hu with h | h
        · exact hb.mono u h r.2 hv0live
        · rw [h]
      have hpr1 : (ddProbe st.edges r.2).1 = lookupD g.edges r.2 := by
        rw [ddProbe_fst]
        exact hb.edges_keep r.2
      obtain ⟨st2, hok2, hb2, hbounds, hpost⟩ :=
        relaxList_spec hwfg hnn hv0pl' ((ddProbe st.edges r.2).1) st1 hb1 rfl hub'
          (by
            intro e he
            rw [hpr1] at he
            exact he)
      have hdi2 : DI g s pl' st2 := by
        refine ⟨hb2, ?_⟩
        intro u hu x w hedge
        rcases (hmempl' u).mp hu with h | h
        · have hclo := hdi.closure u h x w hedge
          calc st2.dist x ≤ st1.dist x := hpost.dec x
          _ = st.dist x := rfl
          _ ≤ st.dist u + (w : DistW) := hclo
          _ = st2.dist u + (w : DistW) := by
              rw [hpost.keep u hu]
        · rw [h] at hedge ⊢
          have hexw : (x, w) ∈ (ddProbe st.edges r.2).1 := by
            rw [hpr1]
            exact hedge
          calc st2.dist x ≤ st1.dist r.2 + (w : DistW) := hbounds (x, w) hexw
          _ = st2.dist r.2 + (w : DistW) := by rw [hpost.keep r.2 hv0pl']
      have hdpl' : d ∉ pl' := by
        intro h
        rcases (hmempl' d).mp h with h | h
        · exact hdpl h
        · exact hrd h.symm
      have hlen2 : st2.h.heap.arr.length ≤ fuel := by
        have h1len := hperm1.length_eq
        simp only [List.length_cons] at h1len
        have hst1len : st1.h.heap.arr.length = h1.heap.arr.length := by
          rw [hst1]
        have hp := hpost.len
        omega
      obtain ⟨st3, pl'', hok3, hdi3, hdp3, hdec3, hkeep3, hmin3⟩ :=
        ih pl' st2 hdi2 hdpl' hlen2
      refine ⟨st3, pl'', ?_, hdi3, hdp3, ?_, hkeep3, hmin3⟩
      · simp only [dspLoop, hpeek, if_neg hrd, hpop]
        rw [hok2]
        exact hok3
      · intro x
        calc st3.dist x ≤ st2.dist x := hdec3 x
        _ ≤ st1.dist x := hpost.dec x
        _ = st.dist x := rfl

theorem traceAux_spec {g : Graph} {s : Nat} {pl : List Nat} {st : SearchSt}
    (hwfg : GraphWF g) (hb : DIBase g s pl st) (hs : s ∈ g.vertices) :
    ∀ (fuel : Nat) (v : Nat), st.dist v ≠ ⊤ → rank pl v ≤ fuel →
      ∃ path c, traceAux st.pred s fuel v = some path ∧
        ChainW g path.reverse c ∧ path.reverse.head? = some s ∧
        path.reverse.getLast? = some v ∧ (c : DistW) = st.dist v := by
  intro fuel
  induction fuel with
  | zero =>
    intro v hv hrk
    by_cases hvs : v = s
    · subst hvs
      refine ⟨[v], 0, ?_, ?_, rfl, rfl, ?_⟩
      · simp [traceAux]
      · exact ChainW.single v hs
      · rw [hb.src_zero]
        rfl
    · obtain ⟨u, w, _, _, _, hupl, hrank⟩ := hb.pred_ok v hv hvs
      omega
  | succ fuel ih =>
    intro v hv hrk
    by_cases hvs : v = s
    · subst hvs
      refine ⟨[v], 0, ?_, ?_, rfl, rfl, ?_⟩
      · simp [traceAux]
      · exact ChainW.single v hs
      · rw [hb.src_zero]
        rfl
    · obtain ⟨u, w, hp, hedge, hsum, hupl, hrank⟩ := hb.pred_ok v hv hvs
      have hutop : st.dist u ≠ ⊤ := by
        intro h
        rw [h, top_add] at hsum
        exact hv hsum.symm
      have hurk : rank pl u ≤ fuel := by
        have := rank_lt_length hupl
        omega
      obtain ⟨path', c', htr', hch', hhd', hls', hcd'⟩ := ih u hutop hurk
      have hvvert : v ∈ g.vertices := by
        obtain ⟨q, cq, hq, _, hql, _⟩ := hb.attained v hv
        exact hq.mem_vertices hwfg v (mem_of_getLast? hql)
      obtain ⟨hch2, hhd2, hls2⟩ := chain_extend hch' hhd' hls' hedge hvvert
      refine ⟨v :: path', c' + w, ?_, ?_, ?_, ?_, ?_⟩
      · simp only [traceAux, if_neg hvs, hp, htr']
        rfl
      · rw [List.reverse_cons]
        exact hch2
      · rw [List.reverse_cons]
        exact hhd2
      · rw [List.reverse_cons]
        exact hls2
      · push_cast
        rw [hcd']
        exact hsum

theorem dsp_spec {g : Graph} {s d : Nat} (hwfg : GraphWF g) (hnn : Nonneg g)
    (hs : s ∈ g.vertices) (hd : d ∈ g.vertices) :
    ∃ res g', g.distance_and_shortest_path s d = .ok (res, g') ∧
      g'.vertices = g.vertices ∧
      (∀ k, lookupD g'.edges k = lookupD g.edges k) ∧
      ((res = (⊤, none) ∧ ¬ Conn g s d) ∨
        (∃ (p : List Nat) (c : ℤ), res = ((c : DistW), some p) ∧ ChainW g p c ∧
          p.head? = some s ∧ p.getLast? = some d ∧
          ∀ q c', ChainW g q c' → q.head? = some s → q.getLast? = some d →
            c ≤ c')) := by
  set dist0 : Nat → DistW := fun v => if v = s then (0:DistW) else ⊤ with hdist0
  set h0 := IndexedHeap.ofList (g.vertices.map fun v => (dist0 v, v)) with hh0
  set st0 : SearchSt := ⟨dist0, fun _ => none, h0, g.edges⟩ with hst0
  have hmapsnd : ((g.vertices.map fun v => (dist0 v, v)).map Prod.snd) = g.vertices := by
    rw [List.map_map]
    exact List.map_id' g.vertices
  have hnd : ((g.vertices.map fun v => (dist0 v, v)).map Prod.snd).Nodup := by
    rw [hmapsnd]
    exact hwfg.vnodup
  obtain ⟨hwf0, hperm0⟩ := IndexedHeap.ofList_spec _ hnd
  have hip : (h0.heap.arr.map Prod.snd).Perm g.vertices := by
    have := hperm0.map Prod.snd
    rwa [hmapsnd] at this
  have hd0s : dist0 s = 0 := by
    rw [hdist0]
    exact if_pos rfl
  have hd0ne : ∀ v, v ≠ s → dist0 v = ⊤ := by
    intro v hv
    rw [hdist0]
    exact if_neg hv
  have hdi0 : DI g s [] st0 := by
    refine ⟨⟨hwf0, ?_, ?_, List.nodup_nil, ?_, hd0s, ?_, ?_, ?_, ?_, fun _ => rfl⟩, ?_⟩
    · intro v
      rw [hip.mem_iff]
      simp
    · intro v hv
      cases hv
    · intro w v hwv
      have hmem : (w, v) ∈ g.vertices.map fun v => (dist0 v, v) :=
        hperm0.mem_iff.mp hwv
      obtain ⟨v', _, heq⟩ := List.mem_map.mp hmem
      have hv' : v' = v := congrArg Prod.snd heq
      have hw : dist0 v' = w := congrArg Prod.fst heq
      rw [← hw, hv']
    · intro v hv
      by_cases hvs : v = s
      · subst hvs
        refine ⟨[v], 0, ChainW.single v hs, rfl, rfl, ?_⟩
        show ((0:ℤ) : DistW) = dist0 v
        rw [hd0s]
        exact WithTop.coe_zero
      · exact absurd (hd0ne v hvs) hv
    · intro u hu
      cases hu
    · intro u hu
      cases hu
    · intro v hv hvs
      exact absurd (hd0ne v hvs) hv
    · intro u hu
      cases hu
  have hlen0 : st0.h.heap.arr.length ≤ g.vertices.length := by
    have h1 := hperm0.length_eq
    rw [List.length_map] at h1
    show h0.heap.arr.length ≤ g.vertices.length
    exact le_of_eq h1
  obtain ⟨st', pl', hloop, hdi', hdp', hdec', hkeep', hmin'⟩ :=
    dspLoop_spec hwfg hnn hd g.vertices.length [] st0 hdi0 (List.not_mem_nil d) hlen0
  have hmain : g.distance_and_shortest_path s d =
      (match dspLoop d g.vertices.length st0 with
        | .error e => .error e
        | .ok st =>
          if st.dist d = ⊤ then .ok ((⊤, none), ⟨g.vertices, st.edges⟩)
          else
            match traceAux st.pred s g.vertices.length d with
            | none => .error .keyError
            | some revpath =>
              .ok ((st.dist d, some revpath.reverse), ⟨g.vertices, st.edges⟩)) := by
    rw [Graph.distance_and_shortest_path, if_pos ⟨hs, hd⟩]
  rw [hloop] at hmain
  by_cases hT : st'.dist d = ⊤
  · refine ⟨(⊤, none), ⟨g.vertices, st'.edges⟩, ?_, rfl, hkeep', Or.inl ⟨rfl, ?_⟩⟩
    · rw [hmain]
      show (if st'.dist d = ⊤ then _ else _) = _
      rw [if_pos hT]
    · rintro ⟨p, c, hc, hh, hl⟩
      have := hmin' p c hc hh hl
      rw [hT, top_le_iff] at this
      exact WithTop.coe_ne_top this
  · have hrkd : rank pl' d ≤ g.vertices.length := by
      rw [rank_absent hdp']
      have := length_lt_of_proper_sub hdi'.plnodup hwfg.vnodup hdi'.plsub hd hdp'
      omega
    obtain ⟨path, c0, htr, hch, hhd, hls, hcd⟩ :=
      traceAux_spec hwfg hdi'.toDIBase hs g.vertices.length d hT hrkd
    refine ⟨(st'.dist d, some path.reverse), ⟨g.vertices, st'.edges⟩, ?_, rfl, hkeep',
      Or.inr ⟨path.reverse, c0, ?_, hch, hhd, hls, ?_⟩⟩
    · rw [hmain]
      show (if st'.dist d = ⊤ then _ else _) = _
      rw [if_neg hT]
      show (match traceAux st'.pred s g.vertices.length d with
        | none => (.error .keyError : Except QErr ((DistW × Option (List Nat)) × Graph))
        | some revpath =>
          .ok ((st'.dist d, some revpath.reverse), ⟨g.vertices, st'.edges⟩)) = _
      rw [htr]
    · rw [hcd]
    · intro q c' hq hqh hql
      have h1 := hmin' q c' hq hqh hql
      rw [← hcd] at h1
      exact_mod_cast h1

/-! ## Claims about the shortest-path search -/

/-- Concrete two-vertex graph `add_edge 0 1 2` used by the witnesses. -/
def c1G : Graph := ⟨[1, 0], [(0, [(1, 2)])]⟩

theorem c1G_built : Built c1G :=
  @Built.step Graph.empty c1G 0 1 2 Built.empty rfl

/-- **C1**: on every graph the program can build (`Built`, hence nonnegative
weights and well-formed vertex/edge sets), with source and destination in the
vertex set, `distance_and_shortest_path` succeeds; if the destination is
reachable it returns a cost `c` together with a path `p` from source to
destination whose consecutive vertices are joined by edges of the graph whose
weights sum to `c` (`ChainW g p c`), and `c` is minimal over all such paths;
if unreachable it reports `(∞, none)`. -/
theorem claim_C1_dijkstra_correct (g : Graph) (s d : Nat) (hb : Built g)
    (hs : s ∈ g.vertices) (hd : d ∈ g.vertices) :
    ∃ res g', g.distance_and_shortest_path s d = .ok (res, g') ∧
      (¬ Conn g s d → res = (⊤, none)) ∧
      (Conn g s d → ∃ (p : List Nat) (c : ℤ), res = ((c : DistW), some p) ∧
        ChainW g p c ∧ p.head? = some s ∧ p.getLast? = some d ∧
        ∀ q c', ChainW g q c' → q.head? = some s → q.getLast? = some d →
          c ≤ c') := by
  obtain ⟨hwfg, hnn⟩ := hb.wf
  obtain ⟨res, g', heq, _, _, hcase⟩ := dsp_spec hwfg hnn hs hd
  refine ⟨res, g', heq, ?_, ?_⟩
  · intro hnc
    rcases hcase with ⟨h1, _⟩ | ⟨p, c, _, hch, hh, hl, _⟩
    · exact h1
    · exact absurd ⟨p, c, hch, hh, hl⟩ hnc
  · intro hc
    rcases hcase with ⟨_, hnc⟩ | h
    · exact absurd hc hnc
    · exact h

theorem claim_C1_dijkstra_correct_witness :
    Built c1G ∧ 0 ∈ c1G.vertices ∧ 1 ∈ c1G.vertices ∧
    (∃ res g', c1G.distance_and_shortest_path 0 1 = .ok (res, g') ∧
      (¬ Conn c1G 0 1 → res = (⊤, none)) ∧
      (Conn c1G 0 1 → ∃ (p : List Nat) (c : ℤ), res = ((c : DistW), some p) ∧
        ChainW c1G p c ∧ p.head? = some 0 ∧ p.getLast? = some 1 ∧
        ∀ q c', ChainW c1G q c' → q.head? = some 0 → q.getLast? = some 1 →
          c ≤ c')) :=
  ⟨c1G_built, by decide, by decide,
    claim_C1_dijkstra_correct c1G 0 1 c1G_built (by decide) (by decide)⟩

/-- **C4**: on program-built graphs with source and destination in the vertex
set the search always returns a result: in particular it never evaluates
`peek` or `pop` on an empty queue, so `EmptyQueueError` is unreachable. -/
theorem claim_C4_no_empty_queue (g : Graph) (s d : Nat) (hb : Built g)
    (hs : s ∈ g.vertices) (hd : d ∈ g.vertices) :
    (∃ r, g.distance_and_shortest_path s d = .ok r) ∧
      g.distance_and_shortest_path s d ≠ .error .emptyQueueError := by
  obtain ⟨hwfg, hnn⟩ := hb.wf
  obtain ⟨res, g', heq, _⟩ := dsp_spec hwfg hnn hs hd
  refine ⟨⟨(res, g'), heq⟩, ?_⟩
  rw [heq]
  intro h
  cases h

theorem claim_C4_no_empty_queue_witness :
    Built c1G ∧ 0 ∈ c1G.vertices ∧ 1 ∈ c1G.vertices ∧
    ((∃ r, c1G.distance_and_shortest_path 0 1 = .ok r) ∧
      c1G.distance_and_shortest_path 0 1 ≠ .error .emptyQueueError) :=
  ⟨c1G_built, by decide, by decide,
    claim_C4_no_empty_queue c1G 0 1 c1G_built (by decide) (by decide)⟩

/-- **C7**: the unreachable result `(∞, none)` is returned without error when
the source is absent, when the destination is absent (the guard returns the
graph untouched), and when both are present on a program-built graph but no
chain of edges joins source to destination. -/
theorem claim_C7_unreachable (g : Graph) (s d : Nat) :
    ((s ∉ g.vertices ∨ d ∉ g.vertices) →
      g.distance_and_shortest_path s d = .ok ((⊤, none), g)) ∧
    (Built g → s ∈ g.vertices → d ∈ g.vertices → ¬ Conn g s d →
      ∃ g', g.distance_and_shortest_path s d = .ok ((⊤, none), g')) := by
  constructor
  · intro hout
    rw [Graph.distance_and_shortest_path, if_neg]
    rintro ⟨h1, h2⟩
    rcases hout with h | h
    · exact h h1
    · exact h h2
  · intro hb hs hd hnc
    obtain ⟨hwfg, hnn⟩ := hb.wf
    obtain ⟨res, g', heq, _, _, hcase⟩ := dsp_spec hwfg hnn hs hd
    rcases hcase with ⟨h1, _⟩ | ⟨p, c, _, hch, hh, hl, _⟩
    · rw [h1] at heq
      exact ⟨g', heq⟩
    · exact absurd ⟨p, c, hch, hh, hl⟩ hnc

theorem claim_C7_unreachable_witness :
    ((5 ∉ c1G.vertices ∨ 1 ∉ c1G.vertices) ∧
      c1G.distance_and_shortest_path 5 1 = .ok ((⊤, none), c1G)) ∧
    (Built c1G ∧ 1 ∈ c1G.vertices ∧ 0 ∈ c1G.vertices ∧ ¬ Conn c1G 1 0 ∧
      ∃ g', c1G.distance_and_shortest_path 1 0 = .ok ((⊤, none), g')) := by
  have hnc : ¬ Conn c1G 1 0 := by
    rintro ⟨p, c, hc, hh, hl⟩
    cases hc with
    | single v hv =>
      have h1 : v = 1 := by simpa using hh
      have h2 : v = 0 := by simpa using hl
      omega
    | cons u v rest w cc he hcc =>
      have h1 : u = 1 := by simpa using hh
      subst h1
      simp [c1G, lookupD] at he
  refine ⟨⟨Or.inl (by decide), (claim_C7_unreachable c1G 5 1).1 (Or.inl (by decide))⟩,
    c1G_built, by decide, by decide, hnc,
    (claim_C7_unreachable c1G 1 0).2 c1G_built (by decide) (by decide) hnc⟩

/-- **C6**: when source and destination coincide (and lie in the vertex set of
a program-built graph) the first loop check already sees the destination at
the root of the queue, so the call returns `(0, [source])` and the graph is
returned exactly as it was — the loop body never runs. -/
theorem claim_C6_source_eq_destination (g : Graph) (s : Nat) (hb : Built g)
    (hs : s ∈ g.vertices) :
    g.distance_and_shortest_path s s = .ok ((0, some [s]), g) := by
  obtain ⟨hwfg, _⟩ := hb.wf
  set dist0 : Nat → DistW := fun v => if v = s then (0:DistW) else ⊤ with hdist0
  set h0 := IndexedHeap.ofList (g.vertices.map fun v => (dist0 v, v)) with hh0
  set st0 : SearchSt := ⟨dist0, fun _ => none, h0, g.edges⟩ with hst0
  have hmapsnd : ((g.vertices.map fun v => (dist0 v, v)).map Prod.snd) = g.vertices := by
    rw [List.map_map]
    exact List.map_id' g.vertices
  have hnd : ((g.vertices.map fun v => (dist0 v, v)).map Prod.snd).Nodup := by
    rw [hmapsnd]
    exact hwfg.vnodup
  obtain ⟨hwf0, hperm0⟩ := IndexedHeap.ofList_spec _ hnd
  have hd0s : dist0 s = 0 := by
    rw [hdist0]
    exact if_pos rfl
  have hd0ne : ∀ v, v ≠ s → dist0 v = ⊤ := by
    intro v hv
    rw [hdist0]
    exact if_neg hv
  have hsmem : ((0 : DistW), s) ∈ h0.heap.arr := by
    apply hperm0.mem_iff.mpr
    apply List.mem_map.mpr
    exact ⟨s, hs, by rw [hd0s]⟩
  have hpos : 0 < h0.heap.arr.length := by
    cases hl : h0.heap.arr with
    | nil =>
      rw [hl] at hsmem
      cases hsmem
    | cons a t => simp
  obtain ⟨r, hr⟩ := exists_get?_of_lt hpos
  obtain ⟨hpeek, hmin⟩ := IndexedHeap.peek_spec hwf0 hr
  have hrpair : (r.1, r.2) ∈ g.vertices.map fun v => (dist0 v, v) :=
    hperm0.mem_iff.mp (by
      rw [Prod.mk.eta]
      exact List.get?_mem hr)
  obtain ⟨v', _, heqr⟩ := List.mem_map.mp hrpair
  have hv' : v' = r.2 := congrArg Prod.snd heqr
  have hw' : dist0 v' = r.1 := congrArg Prod.fst heqr
  have hrle : r.1 ≤ (0 : DistW) := pairLe_weight (hmin _ hsmem)
  have hr2s : r.2 = s := by
    by_contra hne
    have htop : dist0 r.2 = ⊤ := hd0ne r.2 hne
    rw [← hw', hv', htop] at hrle
    exact (by decide : ¬ ((⊤:DistW) ≤ 0)) hrle
  obtain ⟨k, hk⟩ : ∃ k, g.vertices.length = k + 1 := by
    have : 0 < g.vertices.length := List.length_pos.mpr (List.ne_nil_of_mem hs)
    exact ⟨g.vertices.length - 1, by omega⟩
  have hloop : dspLoop s g.vertices.length st0 = .ok st0 := by
    rw [hk]
    simp only [dspLoop, hpeek, if_pos hr2s]
  have htr : traceAux st0.pred s g.vertices.length s = some [s] := by
    rw [hk]
    simp [traceAux]
  rw [Graph.distance_and_shortest_path, if_pos ⟨hs, hs⟩]
  show (match dspLoop s g.vertices.length st0 with
    | Except.error e => Except.error e
    | Except.ok st =>
      if st.dist s = ⊤ then Except.ok ((⊤, none), (⟨g.vertices, st.edges⟩ : Graph))
      else
        match traceAux st.pred s g.vertices.length s with
        | none => Except.error QErr.keyError
        | some revpath =>
          Except.ok ((st.dist s, some revpath.reverse), (⟨g.vertices, st.edges⟩ : Graph))) = _
  rw [hloop]
  show (if st0.dist s = ⊤ then _ else _) = _
  have hds : st0.dist s = 0 := hd0s
  rw [hds]
  rw [if_neg (by
    intro h
    exact (by decide : ((0:DistW) = ⊤) → False) h)]
  show (match traceAux st0.pred s g.vertices.length s with
    | none => (Except.error QErr.keyError : Except QErr ((DistW × Option (List Nat)) × Graph))
    | some revpath =>
      Except.ok (((0:DistW), some revpath.reverse), (⟨g.vertices, st0.edges⟩ : Graph))) = _
  rw [htr]
  rfl

theorem claim_C6_source_eq_destination_witness :
    Built c1G ∧ 0 ∈ c1G.vertices ∧
    c1G.distance_and_shortest_path 0 0 = .ok ((0, some [0]), c1G) :=
  ⟨c1G_built, by decide, claim_C6_source_eq_destination c1G 0 c1G_built (by decide)⟩

/-! ## The edge mapping during the search -/

theorem relaxEdge_edges {v0 : Nat} {vdist : DistW} {st t : SearchSt}
    {e : Nat × ℤ} (h : relaxEdge v0 vdist st e = .ok t) : t.edges = st.edges := by
  have hred : relaxEdge v0 vdist st e =
      (if (vdist + (e.2 : DistW)) < st.dist e.1 then
        match st.h.change_weight e.1 (vdist + (e.2 : DistW)) with
        | .error err => .error err
        | .ok h' => .ok
          { st with
            dist := fun x => if x = e.1 then (vdist + (e.2 : DistW)) else st.dist x
            pred := fun x => if x = e.1 then some v0 else st.pred x
            h := h' }
      else .ok st) := rfl
  rw [hred] at h
  split_ifs at h with hc
  · cases hcw : st.h.change_weight e.1 (vdist + (e.2 : DistW)) with
    | error err =>
      rw [hcw] at h
      cases h
    | ok h' =>
      rw [hcw] at h
      injection h with h
      rw [← h]
  · injection h with h
    rw [← h]

theorem relaxList_edges {v0 : Nat} {vdist : DistW} :
    ∀ {es : List (Nat × ℤ)} {st t : SearchSt},
      relaxList v0 vdist st es = .ok t → t.edges = st.edges := by
  intro es
  induction es with
  | nil =>
    intro st t h
    injection h with h
    rw [← h]
  | cons e rest ih =>
    intro st t h
    simp only [relaxList] at h
    cases hre : relaxEdge v0 vdist st e with
    | error err =>
      rw [hre] at h
      cases h
    | ok st1 =>
      rw [hre] at h
      exact (ih h).trans (relaxEdge_edges hre)

theorem dspLoop_edges {d : Nat} :
    ∀ (fuel : Nat) (st st' : SearchSt), dspLoop d fuel st = .ok st' →
      (∀ k, lookupD st'.edges k = lookupD st.edges k) ∧
      (∀ kl ∈ st'.edges, kl ∈ st.edges ∨ kl.2 = []) := by
  intro fuel
  induction fuel with
  | zero =>
    intro st st' h
    cases h
  | succ fuel ih =>
    intro st st' h
    simp only [dspLoop] at h
    cases hpk : st.h.peek with
    | error e =>
      rw [hpk] at h
      cases h
    | ok top =>
      rw [hpk] at h
      simp only at h
      by_cases htd : top = d
      · rw [if_pos htd] at h
        injection h with h
        rw [← h]
        exact ⟨fun _ => rfl, fun kl hkl => Or.inl hkl⟩
      · rw [if_neg htd] at h
        cases hpop : st.h.pop with
        | error e =>
          rw [hpop] at h
          cases h
        | ok vh =>
          rw [hpop] at h
          obtain ⟨v, h1⟩ := vh
          simp only at h
          cases hrel : relaxList v (st.dist v)
              { st with h := h1, edges := (ddProbe st.edges v).2 }
              (ddProbe st.edges v).1 with
          | error e =>
            rw [hrel] at h
            cases h
          | ok st2 =>
            rw [hrel] at h
            have hedges2 : st2.edges = (ddProbe st.edges v).2 := relaxList_edges hrel
            obtain ⟨hka, hkb⟩ := ih st2 st' h
            constructor
            · intro k
              rw [hka k, hedges2, lookupD_ddProbe]
            · intro kl hkl
              rcases hkb kl hkl with h2 | h2
              · rw [hedges2] at h2
                exact ddProbe_mem st.edges v kl h2
              · exact Or.inr h2

/-- Amended form of C10 (see `claim_C10_graph_readonly_counterexample` for
what fails in the original): the vertex set and the key-to-list mapping (as a
lookup function, which is what `self.edges[v]` evaluates) are unchanged, but
the `defaultdict` backing store is not literally unchanged — the only
possible difference is new keys bound to empty edge lists, inserted when the
loop subscripts a popped vertex that had no outgoing entry. -/
theorem claim_C10_graph_readonly_amended (g : Graph) (s d : Nat)
    (res : DistW × Option (List Nat)) (g' : Graph)
    (h : g.distance_and_shortest_path s d = .ok (res, g')) :
    g'.vertices = g.vertices ∧
    (∀ k, lookupD g'.edges k = lookupD g.edges k) ∧
    (∀ kl ∈ g'.edges, kl ∈ g.edges ∨ kl.2 = []) := by
  rw [Graph.distance_and_shortest_path] at h
  by_cases hg : s ∈ g.vertices ∧ d ∈ g.vertices
  · rw [if_pos hg] at h
    set dist0 : Nat → DistW := fun v => if v = s then (0:DistW) else ⊤ with hdist0
    set h0 := IndexedHeap.ofList (g.vertices.map fun v => (dist0 v, v)) with hh0
    set st0 : SearchSt := ⟨dist0, fun _ => none, h0, g.edges⟩ with hst0
    have h2 : (match dspLoop d g.vertices.length st0 with
        | Except.error e => Except.error e
        | Except.ok st =>
          if st.dist d = ⊤ then
            Except.ok ((⊤, none), (⟨g.vertices, st.edges⟩ : Graph))
          else
            match traceAux st.pred s g.vertices.length d with
            | none => Except.error QErr.keyError
            | some revpath =>
              Except.ok ((st.dist d, some revpath.reverse),
                (⟨g.vertices, st.edges⟩ : Graph))) = .ok (res, g') := h
    cases hloop : dspLoop d g.vertices.length st0 with
    | error e =>
      rw [hloop] at h2
      cases h2
    | ok st' =>
      rw [hloop] at h2
      obtain ⟨hka, hkb⟩ := dspLoop_edges g.vertices.length st0 st' hloop
      have hst0e : st0.edges = g.edges := rfl
      rw [hst0e] at hka hkb
      have h3 : (if st'.dist d = ⊤ then
            Except.ok ((⊤, none), (⟨g.vertices, st'.edges⟩ : Graph))
          else
            match traceAux st'.pred s g.vertices.length d with
            | none => Except.error QErr.keyError
            | some revpath =>
              Except.ok ((st'.dist d, some revpath.reverse),
                (⟨g.vertices, st'.edges⟩ : Graph))) = .ok (res, g') := h2
      have hout : g' = (⟨g.vertices, st'.edges⟩ : Graph) := by
        by_cases hT : st'.dist d = ⊤
        · rw [if_pos hT] at h3
          injection h3 with h3
          exact (congrArg Prod.snd h3).symm
        · rw [if_neg hT] at h3
          cases htr : traceAux st'.pred s g.vertices.length d with
          | none =>
            rw [htr] at h3
            cases h3
          | some revpath =>
            rw [htr] at h3
            injection h3 with h3
            exact (congrArg Prod.snd h3).symm
      rw [hout]
      exact ⟨rfl, hka, hkb⟩
  · rw [if_neg hg] at h
    injection h with h
    have hout : g' = g := (congrArg Prod.snd h).symm
    rw [hout]
    exact ⟨rfl, fun _ => rfl, fun kl hkl => Or.inl hkl⟩

/-- The graph built by `add_edge(0,1,1)` then `add_edge(0,2,2)`, used to
refute the literal read-only claim. -/
def c10G : Graph := ⟨[1, 0, 2], [(0, [(1, 1), (2, 2)])]⟩

theorem c10G_built : Built c10G :=
  @Built.step ⟨[1, 0], [(0, [(1, 1)])]⟩ c10G 0 2 2
    (@Built.step Graph.empty ⟨[1, 0], [(0, [(1, 1)])]⟩ 0 1 1 Built.empty rfl) rfl

/-- Counterexample to C10 as stated: querying `(0, 2)` on `c10G` pops vertex
`1`, subscripts the `defaultdict` of edges at `1`, and thereby inserts the
entry `(1, [])`: the returned graph's edge dictionary is
`[(0, [(1,1), (2,2)]), (1, [])]`, not the original `[(0, [(1,1), (2,2)])]`.
The vertex set is unchanged. -/
theorem claim_C10_graph_readonly_counterexample :
    (c10G.distance_and_shortest_path 0 2).map (fun r => r.2.edges) =
      .ok [(0, [(1, 1), (2, 2)]), (1, [])] ∧
    [((0:Nat), [((1:Nat), (1:ℤ)), (2, 2)]), (1, [])] ≠ c10G.edges ∧
    (c10G.distance_and_shortest_path 0 2).map (fun r => r.2.vertices) =
      .ok c10G.vertices := by
  refine ⟨by rfl, by decide, by rfl⟩

/-- The graph as returned by `c10G.distance_and_shortest_path 0 2`: the probe
of popped vertex `1` has inserted the empty entry `(1, [])`. -/
def c10G' : Graph := ⟨[1, 0, 2], [(0, [(1, 1), (2, 2)]), (1, [])]⟩

theorem claim_C10_graph_readonly_amended_witness :
    c10G.distance_and_shortest_path 0 2 = .ok ((((2:ℤ) : DistW), some [0, 2]), c10G') ∧
    (c10G'.vertices = c10G.vertices ∧
      (∀ k, lookupD c10G'.edges k = lookupD c10G.edges k) ∧
      (∀ kl ∈ c10G'.edges, kl ∈ c10G.edges ∨ kl.2 = [])) :=
  ⟨by rfl,
    claim_C10_graph_readonly_amended c10G 0 2 (((2:ℤ) : DistW), some [0, 2]) c10G'
      (by rfl)⟩

/-! ## Parallel-edge equivalence machinery -/

/-- `k` is a key actually stored in the mapping. -/
def isKey (m : EdgeMap) (k : Nat) : Prop := k ∈ m.map Prod.fst

theorem ddAppend_isKey (m : EdgeMap) (k : Nat) (p : Nat × ℤ) :
    isKey (ddAppend m k p) k := by
  induction m with
  | nil => simp [isKey, ddAppend]
  | cons kl rest ih =>
    obtain ⟨k0, l0⟩ := kl
    by_cases h0 : k0 = k
    · simp [isKey, ddAppend, h0]
    · simp only [isKey, ddAppend, if_neg h0, List.map_cons]
      exact List.mem_cons_of_mem _ ih

theorem ddProbe_isKey_mono {m : EdgeMap} {j : Nat} (k : Nat) (h : isKey m j) :
    isKey (ddProbe m k).2 j := by
  induction m with
  | nil =>
    simp [isKey] at h
  | cons kl rest ih =>
    obtain ⟨k0, l0⟩ := kl
    by_cases h0 : k0 = k
    · simpa [ddProbe, h0] using h
    · simp only [isKey, List.map_cons] at h
      simp only [ddProbe, if_neg h0, isKey, List.map_cons]
      rcases List.mem_cons.mp h with h | h
      · exact List.mem_cons.mpr (Or.inl h)
      · exact List.mem_cons.mpr (Or.inr (ih h))

theorem ddProbe_of_isKey {m : EdgeMap} {k : Nat} (h : isKey m k) :
    ddProbe m k = (lookupD m k, m) := by
  induction m with
  | nil => simp [isKey] at h
  | cons kl rest ih =>
    obtain ⟨k0, l0⟩ := kl
    by_cases h0 : k0 = k
    · simp [ddProbe, lookupD, h0]
    · have hk : isKey rest k := by
        simp only [isKey, List.map_cons] at h
        rcases List.mem_cons.mp h with h | h
        · exact absurd h.symm h0
        · exact h
      simp [ddProbe, lookupD, h0, ih hk]

theorem ddProbe_ddAppend_comm {m : EdgeMap} {a v : Nat} (p : Nat × ℤ)
    (hva : v ≠ a) (hkey : isKey m a) :
    ddProbe (ddAppend m a p) v =
      ((ddProbe m v).1, ddAppend (ddProbe m v).2 a p) := by
  induction m with
  | nil => simp [isKey] at hkey
  | cons kl rest ih =>
    obtain ⟨k0, l0⟩ := kl
    by_cases h0 : k0 = a
    · subst h0
      have hk0v : ¬ k0 = v := fun h => hva h.symm
      simp [ddAppend, ddProbe, hk0v]
    · have hk : isKey rest a := by
        simp only [isKey, List.map_cons] at hkey
        rcases List.mem_cons.mp hkey with h | h
        · exact absurd h.symm h0
        · exact h
      by_cases h0v : k0 = v
      · subst h0v
        simp [ddAppend, ddProbe, if_neg h0, h0]
      · simp [ddAppend, ddProbe, if_neg h0, if_neg h0v, ih hk]

theorem relaxEdge_bound {v0 : Nat} {vdist : DistW} {st t : SearchSt}
    {e : Nat × ℤ} (h : relaxEdge v0 vdist st e = .ok t) :
    t.dist e.1 ≤ vdist + (e.2 : DistW) := by
  have hred : relaxEdge v0 vdist st e =
      (if (vdist + (e.2 : DistW)) < st.dist e.1 then
        match st.h.change_weight e.1 (vdist + (e.2 : DistW)) with
        | .error err => .error err
        | .ok h' => .ok
          { st with
            dist := fun x => if x = e.1 then (vdist + (e.2 : DistW)) else st.dist x
            pred := fun x => if x = e.1 then some v0 else st.pred x
            h := h' }
      else .ok st) := rfl
  rw [hred] at h
  split_ifs at h with hc
  · cases hcw : st.h.change_weight e.1 (vdist + (e.2 : DistW)) with
    | error err =>
      rw [hcw] at h
      cases h
    | ok h' =>
      rw [hcw] at h
      injection h with h
      rw [← h]
      show (if e.1 = e.1 then (vdist + (e.2 : DistW)) else st.dist e.1) ≤ _
      rw [if_pos rfl]
  · injection h with h
    rw [← h]
    exact le_of_not_lt hc

theorem relaxList_append {v0 : Nat} {vdist : DistW} (ys : List (Nat × ℤ)) :
    ∀ (xs : List (Nat × ℤ)) (st : SearchSt),
      relaxList v0 vdist st (xs ++ ys) =
        (match relaxList v0 vdist st xs with
          | .error e => .error e
          | .ok t => relaxList v0 vdist t ys) := by
  intro xs
  induction xs with
  | nil =>
    intro st
    rfl
  | cons e rest ih =>
    intro st
    show (match relaxEdge v0 vdist st e with
      | Except.error err => Except.error err
      | Except.ok st' => relaxList v0 vdist st' (rest ++ ys)) = _
    cases hre : relaxEdge v0 vdist st e with
    | error err =>
      simp only [relaxList, hre]
    | ok st1 =>
      simp only [relaxList, hre]
      exact ih st1

theorem relaxEdge_unfold (v0 : Nat) (vdist : DistW) (st : SearchSt) (e : Nat × ℤ) :
    relaxEdge v0 vdist st e =
      (if (vdist + (e.2 : DistW)) < st.dist e.1 then
        match st.h.change_weight e.1 (vdist + (e.2 : DistW)) with
        | .error err => .error err
        | .ok h' => .ok
          { st with
            dist := fun x => if x = e.1 then (vdist + (e.2 : DistW)) else st.dist x
            pred := fun x => if x = e.1 then some v0 else st.pred x
            h := h' }
      else .ok st) := rfl

theorem relaxList_congr {v0 : Nat} {vdist : DistW} :
    ∀ (es : List (Nat × ℤ)) (D : Nat → DistW) (P : Nat → Option Nat)
      (H : IndexedHeap DistW Nat) (E1 E2 : EdgeMap),
      (relaxList v0 vdist ⟨D, P, H, E1⟩ es).map (fun t => (t.dist, t.pred, t.h)) =
      (relaxList v0 vdist ⟨D, P, H, E2⟩ es).map (fun t => (t.dist, t.pred, t.h)) := by
  intro es
  induction es with
  | nil =>
    intro D P H E1 E2
    rfl
  | cons e rest ih =>
    intro D P H E1 E2
    by_cases hc : (vdist + (e.2 : DistW)) < D e.1
    · cases hcw : H.change_weight e.1 (vdist + (e.2 : DistW)) with
      | error err =>
        have h1 : relaxEdge v0 vdist ⟨D, P, H, E1⟩ e = .error err := by
          rw [relaxEdge_unfold, if_pos hc, hcw]
        have h2 : relaxEdge v0 vdist ⟨D, P, H, E2⟩ e = .error err := by
          rw [relaxEdge_unfold, if_pos hc, hcw]
        simp only [relaxList, h1, h2]
      | ok h' =>
        have h1 : relaxEdge v0 vdist ⟨D, P, H, E1⟩ e = .ok
            ⟨fun x => if x = e.1 then (vdist + (e.2 : DistW)) else D x,
              fun x => if x = e.1 then some v0 else P x, h', E1⟩ := by
          rw [relaxEdge_unfold, if_pos hc, hcw]
        have h2 : relaxEdge v0 vdist ⟨D, P, H, E2⟩ e = .ok
            ⟨fun x => if x = e.1 then (vdist + (e.2 : DistW)) else D x,
              fun x => if x = e.1 then some v0 else P x, h', E2⟩ := by
          rw [relaxEdge_unfold, if_pos hc, hcw]
        simp only [relaxList, h1, h2]
        exact ih _ _ _ E1 E2
    · have h1 : relaxEdge v0 vdist ⟨D, P, H, E1⟩ e = .ok ⟨D, P, H, E1⟩ := by
        rw [relaxEdge_unfold, if_neg hc]
      have h2 : relaxEdge v0 vdist ⟨D, P, H, E2⟩ e = .ok ⟨D, P, H, E2⟩ := by
        rw [relaxEdge_unfold, if_neg hc]
      simp only [relaxList, h1, h2]
      exact ih D P H E1 E2

theorem relaxList_congr_ok {v0 : Nat} {vdist : DistW} {es : List (Nat × ℤ)}
    {D : Nat → DistW} {P : Nat → Option Nat} {H : IndexedHeap DistW Nat}
    {E1 E2 : EdgeMap} {t1 : SearchSt}
    (h1 : relaxList v0 vdist ⟨D, P, H, E1⟩ es = .ok t1) :
    ∃ t2, relaxList v0 vdist ⟨D, P, H, E2⟩ es = .ok t2 ∧
      t1.dist = t2.dist ∧ t1.pred = t2.pred ∧ t1.h = t2.h := by
  have hc := @relaxList_congr v0 vdist es D P H E1 E2
  rw [h1] at hc
  cases h2 : relaxList v0 vdist ⟨D, P, H, E2⟩ es with
  | error e =>
    rw [h2] at hc
    simp only [Except.map] at hc
    cases hc
  | ok t2 =>
    rw [h2] at hc
    simp only [Except.map] at hc
    injection hc with hc
    exact ⟨t2, rfl, congrArg Prod.fst hc,
      congrArg (fun q => q.2.1) hc, congrArg (fun q => q.2.2) hc⟩

theorem relaxList_congr_error {v0 : Nat} {vdist : DistW} {es : List (Nat × ℤ)}
    {D : Nat → DistW} {P : Nat → Option Nat} {H : IndexedHeap DistW Nat}
    {E1 E2 : EdgeMap} {err : QErr}
    (h1 : relaxList v0 vdist ⟨D, P, H, E1⟩ es = .error err) :
    relaxList v0 vdist ⟨D, P, H, E2⟩ es = .error err := by
  have hc := @relaxList_congr v0 vdist es D P H E1 E2
  rw [h1] at hc
  cases h2 : relaxList v0 vdist ⟨D, P, H, E2⟩ es with
  | error e =>
    rw [h2] at hc
    simp only [Except.map] at hc
    injection hc with hc
    rw [hc]
  | ok t2 =>
    rw [h2] at hc
    simp only [Except.map] at hc
    cases hc

/-- Relation between the two loop outcomes compared by C9: same error, or
states agreeing on the distance and predecessor maps (all that the result of
the search is computed from). -/
def LoopRel : Except QErr SearchSt → Except QErr SearchSt → Prop
  | .error e1, .error e2 => e1 = e2
  | .ok t1, .ok t2 => t1.dist = t2.dist ∧ t1.pred = t2.pred
  | _, _ => False

theorem dspLoop_rel {a b d : Nat} {L : List (Nat × ℤ)} :
    ∀ (fuel : Nat) (D : Nat → DistW) (P : Nat → Option Nat)
      (H : IndexedHeap DistW Nat) (E1 : EdgeMap),
      isKey E1 a → lookupD E1 a = L ++ [(b, 7)] →
      LoopRel (dspLoop d fuel ⟨D, P, H, E1⟩)
        (dspLoop d fuel ⟨D, P, H, ddAppend E1 a (b, 8)⟩) := by
  intro fuel
  induction fuel with
  | zero =>
    intro D P H E1 _ _
    exact rfl
  | succ fuel ih =>
    intro D P H E1 hkey hval
    cases hpk : H.peek with
    | error e =>
      have e1 : dspLoop d (fuel+1) (⟨D, P, H, E1⟩ : SearchSt) = .error e := by
        simp only [dspLoop, hpk]
      have e2 : dspLoop d (fuel+1)
          (⟨D, P, H, ddAppend E1 a (b, 8)⟩ : SearchSt) = .error e := by
        simp only [dspLoop, hpk]
      rw [e1, e2]
      exact rfl
    | ok top =>
      by_cases htd : top = d
      · have e1 : dspLoop d (fuel+1) (⟨D, P, H, E1⟩ : SearchSt) =
            .ok ⟨D, P, H, E1⟩ := by
          simp only [dspLoop, hpk, if_pos htd]
        have e2 : dspLoop d (fuel+1)
            (⟨D, P, H, ddAppend E1 a (b, 8)⟩ : SearchSt) =
            .ok ⟨D, P, H, ddAppend E1 a (b, 8)⟩ := by
          simp only [dspLoop, hpk, if_pos htd]
        rw [e1, e2]
        exact ⟨rfl, rfl⟩
      · cases hpop : H.pop with
        | error e =>
          have e1 : dspLoop d (fuel+1) (⟨D, P, H, E1⟩ : SearchSt) = .error e := by
            simp only [dspLoop, hpk, if_neg htd, hpop]
          have e2 : dspLoop d (fuel+1)
              (⟨D, P, H, ddAppend E1 a (b, 8)⟩ : SearchSt) = .error e := by
            simp only [dspLoop, hpk, if_neg htd, hpop]
          rw [e1, e2]
          exact rfl
        | ok vh =>
          obtain ⟨v, h'⟩ := vh
          by_cases hva : v = a
          · subst hva
            have hpr1eq : ddProbe E1 v = (L ++ [(b, 7)], E1) := by
              rw [ddProbe_of_isKey hkey, hval]
            have hkey2 := ddAppend_isKey E1 v (b, 8)
            have hval2 : lookupD (ddAppend E1 v (b, 8)) v =
                (L ++ [(b, 7)]) ++ [(b, 8)] := by
              rw [lookupD_ddAppend, if_pos rfl, hval]
            have hpr2eq : ddProbe (ddAppend E1 v (b, 8)) v =
                ((L ++ [(b, 7)]) ++ [(b, 8)], ddAppend E1 v (b, 8)) := by
              rw [ddProbe_of_isKey hkey2, hval2]
            cases hr1 : relaxList v (D v) ⟨D, P, h', E1⟩ (L ++ [(b, 7)]) with
            | error err =>
              have hr2 : relaxList v (D v)
                  (⟨D, P, h', ddAppend E1 v (b, 8)⟩ : SearchSt)
                  (L ++ [(b, 7)]) = .error err :=
                relaxList_congr_error hr1
              have hr2full : relaxList v (D v)
                  (⟨D, P, h', ddAppend E1 v (b, 8)⟩ : SearchSt)
                  ((L ++ [(b, 7)]) ++ [(b, 8)]) = .error err := by
                rw [relaxList_append, hr2]
              have e1 : dspLoop d (fuel+1) (⟨D, P, H, E1⟩ : SearchSt) = .error err := by
                simp only [dspLoop, hpk, if_neg htd, hpop, hpr1eq]
                rw [hr1]
              have e2 : dspLoop d (fuel+1)
                  (⟨D, P, H, ddAppend E1 v (b, 8)⟩ : SearchSt) = .error err := by
                simp only [dspLoop, hpk, if_neg htd, hpop, hpr2eq]
                rw [hr2full]
              rw [e1, e2]
              exact rfl
            | ok t1 =>
              obtain ⟨t2, hr2, hdq, hpq, hhq⟩ :=
                @relaxList_congr_ok v (D v) (L ++ [(b, 7)]) D P h' E1
                  (ddAppend E1 v (b, 8)) t1 hr1
              have he1 : t1.edges = E1 := relaxList_edges hr1
              have he2 : t2.edges = ddAppend E1 v (b, 8) := relaxList_edges hr2
              have hr1' := hr1
              rw [relaxList_append [(b, 7)] L (⟨D, P, h', E1⟩ : SearchSt)] at hr1'
              have hbd : t1.dist b ≤ D v + ((7:ℤ) : DistW) := by
                cases hmid : relaxList v (D v) (⟨D, P, h', E1⟩ : SearchSt) L with
                | error e' =>
                  rw [hmid] at hr1'
                  cases hr1'
                | ok tmid =>
                  rw [hmid] at hr1'
                  have hr1'' : (match relaxEdge v (D v) tmid (b, 7) with
                      | Except.error err => Except.error err
                      | Except.ok st' =>
                        relaxList v (D v) st' ([] : List (Nat × ℤ))) = .ok t1 := hr1'
                  cases hre : relaxEdge v (D v) tmid (b, 7) with
                  | error e' =>
                    rw [hre] at hr1''
                    cases hr1''
                  | ok t1a =>
                    rw [hre] at hr1''
                    have hok : (Except.ok t1a : Except QErr SearchSt) = .ok t1 := hr1''
                    have ht1a : t1a = t1 := by injection hok
                    have hb1 : t1a.dist b ≤ D v + ((7:ℤ) : DistW) := relaxEdge_bound hre
                    rw [← ht1a]
                    exact hb1
              have hdb : t2.dist b = t1.dist b := by rw [← hdq]
              have h78 : D v + ((7:ℤ) : DistW) ≤ D v + ((8:ℤ) : DistW) := by
                apply add_le_add_left
                exact_mod_cast (by norm_num : (7:ℤ) ≤ 8)
              have hnlt : ¬ (D v + (((b, 8) : Nat × ℤ).2 : DistW) <
                  t2.dist ((b, 8) : Nat × ℤ).1) := by
                show ¬ (D v + ((8:ℤ) : DistW) < t2.dist b)
                intro hlt
                rw [hdb] at hlt
                exact absurd (lt_of_lt_of_le hlt (le_trans hbd h78)) (lt_irrefl _)
              have hnoop : relaxEdge v (D v) t2 (b, 8) = .ok t2 := by
                rw [relaxEdge_unfold, if_neg hnlt]
              have hr2full : relaxList v (D v)
                  (⟨D, P, h', ddAppend E1 v (b, 8)⟩ : SearchSt)
                  ((L ++ [(b, 7)]) ++ [(b, 8)]) = .ok t2 := by
                rw [relaxList_append, hr2]
                show (match relaxEdge v (D v) t2 (b, 8) with
                  | Except.error err => Except.error err
                  | Except.ok st' =>
                    relaxList v (D v) st' ([] : List (Nat × ℤ))) = .ok t2
                rw [hnoop]
                rfl
              have e1 : dspLoop d (fuel+1) (⟨D, P, H, E1⟩ : SearchSt) =
                  dspLoop d fuel t1 := by
                simp only [dspLoop, hpk, if_neg htd, hpop, hpr1eq]
                rw [hr1]
              have e2 : dspLoop d (fuel+1)
                  (⟨D, P, H, ddAppend E1 v (b, 8)⟩ : SearchSt) =
                  dspLoop d fuel t2 := by
                simp only [dspLoop, hpk, if_neg htd, hpop, hpr2eq]
                rw [hr2full]
              rw [e1, e2]
              have ht1 : (⟨t1.dist, t1.pred, t1.h, E1⟩ : SearchSt) = t1 := by
                rw [← he1]
              have ht2 : (⟨t1.dist, t1.pred, t1.h, ddAppend E1 v (b, 8)⟩ : SearchSt)
                  = t2 := by
                rw [hdq, hpq, hhq, ← he2]
              have hihx := ih t1.dist t1.pred t1.h E1 hkey hval
              rw [ht1, ht2] at hihx
              exact hihx
          · have hpr2eq : ddProbe (ddAppend E1 a (b, 8)) v =
                ((ddProbe E1 v).1, ddAppend (ddProbe E1 v).2 a (b, 8)) :=
              ddProbe_ddAppend_comm (b, 8) hva hkey
            cases hr1 : relaxList v (D v)
                (⟨D, P, h', (ddProbe E1 v).2⟩ : SearchSt) (ddProbe E1 v).1 with
            | error err =>
              have hr2 : relaxList v (D v)
                  (⟨D, P, h', ddAppend (ddProbe E1 v).2 a (b, 8)⟩ : SearchSt)
                  (ddProbe E1 v).1 = .error err :=
                relaxList_congr_error hr1
              have e1 : dspLoop d (fuel+1) (⟨D, P, H, E1⟩ : SearchSt) = .error err := by
                simp only [dspLoop, hpk, if_neg htd, hpop]
                rw [hr1]
              have e2 : dspLoop d (fuel+1)
                  (⟨D, P, H, ddAppend E1 a (b, 8)⟩ : SearchSt) = .error err := by
                simp only [dspLoop, hpk, if_neg htd, hpop, hpr2eq]
                rw [hr2]
              rw [e1, e2]
              exact rfl
            | ok t1 =>
              obtain ⟨t2, hr2, hdq, hpq, hhq⟩ :=
                @relaxList_congr_ok v (D v) ((ddProbe E1 v).1) D P h'
                  ((ddProbe E1 v).2) (ddAppend (ddProbe E1 v).2 a (b, 8)) t1 hr1
              have he1 : t1.edges = (ddProbe E1 v).2 := relaxList_edges hr1
              have he2 : t2.edges = ddAppend (ddProbe E1 v).2 a (b, 8) :=
                relaxList_edges hr2
              have e1 : dspLoop d (fuel+1) (⟨D, P, H, E1⟩ : SearchSt) =
                  dspLoop d fuel t1 := by
                simp only [dspLoop, hpk, if_neg htd, hpop]
                rw [hr1]
              have e2 : dspLoop d (fuel+1)
                  (⟨D, P, H, ddAppend E1 a (b, 8)⟩ : SearchSt) =
                  dspLoop d fuel t2 := by
                simp only [dspLoop, hpk, if_neg htd, hpop, hpr2eq]
                rw [hr2]
              rw [e1, e2]
              have hkey' : isKey (ddProbe E1 v).2 a := ddProbe_isKey_mono v hkey
              have hval' : lookupD (ddProbe E1 v).2 a = L ++ [(b, 7)] := by
                rw [lookupD_ddProbe, hval]
              have ht1 : (⟨t1.dist, t1.pred, t1.h, (ddProbe E1 v).2⟩ : SearchSt)
                  = t1 := by
                rw [← he1]
              have ht2 : (⟨t1.dist, t1.pred, t1.h,
                  ddAppend (ddProbe E1 v).2 a (b, 8)⟩ : SearchSt) = t2 := by
                rw [hdq, hpq, hhq, ← he2]
              have hihx := ih t1.dist t1.pred t1.h ((ddProbe E1 v).2) hkey' hval'
              rw [ht1, ht2] at hihx
              exact hihx

theorem addVert_of_mem {l : List Nat} {v : Nat} (h : v ∈ l) : addVert l v = l := by
  unfold addVert
  rw [if_pos h]

/-- The initial search state of `distance_and_shortest_path`. -/
def initSt (g : Graph) (s : Nat) : SearchSt :=
  ⟨fun v => if v = s then (0:DistW) else ⊤, fun _ => none,
    IndexedHeap.ofList (g.vertices.map fun v => (if v = s then (0:DistW) else ⊤, v)),
    g.edges⟩

/-- The `(distance, path)` part of the result, as computed from the loop's
outcome. -/
def finishFst (s d len : Nat) :
    Except QErr SearchSt → Except QErr (DistW × Option (List Nat))
  | .error e => .error e
  | .ok st =>
    if st.dist d = ⊤ then .ok (⊤, none)
    else
      match traceAux st.pred s len d with
      | none => .error .keyError
      | some revpath => .ok (st.dist d, some revpath.reverse)

theorem dsp_map_fst (g : Graph) (s d : Nat) :
    (g.distance_and_shortest_path s d).map Prod.fst =
      (if s ∈ g.vertices ∧ d ∈ g.vertices then
        finishFst s d g.vertices.length
          (dspLoop d g.vertices.length (initSt g s))
      else .ok (⊤, none)) := by
  rw [Graph.distance_and_shortest_path]
  by_cases hsd : s ∈ g.vertices ∧ d ∈ g.vertices
  · rw [if_pos hsd, if_pos hsd]
    show ((match dspLoop d g.vertices.length (initSt g s) with
      | Except.error e => Except.error e
      | Except.ok st =>
        if st.dist d = ⊤ then
          Except.ok ((⊤, none), (⟨g.vertices, st.edges⟩ : Graph))
        else
          match traceAux st.pred s g.vertices.length d with
          | none => Except.error QErr.keyError
          | some revpath =>
            Except.ok ((st.dist d, some revpath.reverse),
              (⟨g.vertices, st.edges⟩ : Graph))) :
        Except QErr ((DistW × Option (List Nat)) × Graph)).map Prod.fst = _
    cases hl : dspLoop d g.vertices.length (initSt g s) with
    | error e => rfl
    | ok st =>
      show Except.map Prod.fst
          (if st.dist d = ⊤ then
            Except.ok (((⊤ : DistW), (none : Option (List Nat))),
              (⟨g.vertices, st.edges⟩ : Graph))
          else
            match traceAux st.pred s g.vertices.length d with
            | none => Except.error QErr.keyError
            | some revpath =>
              Except.ok ((st.dist d, some revpath.reverse),
                (⟨g.vertices, st.edges⟩ : Graph))) =
        finishFst s d g.vertices.length (Except.ok st)
      by_cases hT : st.dist d = ⊤
      · rw [if_pos hT]
        show _ = finishFst s d g.vertices.length (.ok st)
        show _ = (if st.dist d = ⊤ then (Except.ok ((⊤ : DistW), (none : Option (List Nat)))) else _)
        rw [if_pos hT]
        rfl
      · rw [if_neg hT]
        show _ = finishFst s d g.vertices.length (.ok st)
        show _ = (if st.dist d = ⊤ then (Except.ok ((⊤ : DistW), (none : Option (List Nat)))) else
          match traceAux st.pred s g.vertices.length d with
          | none => Except.error QErr.keyError
          | some revpath => Except.ok (st.dist d, some revpath.reverse))
        rw [if_neg hT]
        cases htr : traceAux st.pred s g.vertices.length d with
        | none => rfl
        | some revpath => rfl
  · rw [if_neg hsd, if_neg hsd]
    rfl

theorem finishFst_congr {s d len : Nat} {r1 r2 : Except QErr SearchSt}
    (h : LoopRel r1 r2) : finishFst s d len r1 = finishFst s d len r2 := by
  cases r1 with
  | error e1 =>
    cases r2 with
    | error e2 =>
      have he : e1 = e2 := h
      rw [he]
    | ok t2 =>
      exact absurd h (by
        intro hh
        exact hh)
  | ok t1 =>
    cases r2 with
    | error e2 =>
      exact absurd h (by
        intro hh
        exact hh)
    | ok t2 =>
      have hd : t1.dist = t2.dist := h.1
      have hp : t1.pred = t2.pred := h.2
      show (if t1.dist d = ⊤ then (Except.ok ((⊤ : DistW), (none : Option (List Nat)))) else
          match traceAux t1.pred s len d with
          | none => Except.error QErr.keyError
          | some revpath => Except.ok (t1.dist d, some revpath.reverse)) =
        (if t2.dist d = ⊤ then (Except.ok ((⊤ : DistW), (none : Option (List Nat)))) else
          match traceAux t2.pred s len d with
          | none => Except.error QErr.keyError
          | some revpath => Except.ok (t2.dist d, some revpath.reverse))
      rw [hd, hp]

/-- **C9**: starting from any graph, adding the parallel edges `(a, b, 7)`
then `(a, b, 8)` yields a graph on which every query returns the same
`(distance, path)` result as the graph holding only the lighter edge: the
heavier duplicate is relaxed right after the lighter one, at which point the
tentative distance of `b` is already at most `dist a + 7 < dist a + 8`, so
its relaxation never fires. The returned graph objects themselves are
compared through `Prod.fst`, which drops the graph component of the result
pair. -/
theorem claim_C9_parallel_edges (g g1 g2 : Graph) (a b : Nat)
    (h1 : g.add_edge a b 7 = .ok g1) (h2 : g1.add_edge a b 8 = .ok g2)
    (s d : Nat) :
    (g2.distance_and_shortest_path s d).map Prod.fst =
      (g1.distance_and_shortest_path s d).map Prod.fst := by
  obtain ⟨_, hg1⟩ := add_edge_ok h1
  obtain ⟨_, hg2⟩ := add_edge_ok h2
  have ha1 : a ∈ g1.vertices := by
    rw [hg1]
    exact mem_addVert.mpr (Or.inl rfl)
  have hb1 : b ∈ g1.vertices := by
    rw [hg1]
    exact mem_addVert.mpr (Or.inr (mem_addVert.mpr (Or.inl rfl)))
  have hv2 : g2.vertices = g1.vertices := by
    rw [hg2]
    show addVert (addVert g1.vertices b) a = g1.vertices
    rw [addVert_of_mem hb1, addVert_of_mem ha1]
  have he2 : g2.edges = ddAppend g1.edges a (b, 8) := by
    rw [hg2]
  have hkey : isKey g1.edges a := by
    rw [hg1]
    exact ddAppend_isKey g.edges a (b, 7)
  have hval : lookupD g1.edges a = lookupD g.edges a ++ [(b, 7)] := by
    rw [hg1]
    show lookupD (ddAppend g.edges a (b, 7)) a = _
    rw [lookupD_ddAppend, if_pos rfl]
  rw [dsp_map_fst, dsp_map_fst, hv2]
  simp only [initSt, hv2, he2]
  by_cases hsd : s ∈ g1.vertices ∧ d ∈ g1.vertices
  · rw [if_pos hsd, if_pos hsd]
    exact (finishFst_congr (@dspLoop_rel a b d (lookupD g.edges a)
      g1.vertices.length (fun v => if v = s then (0:DistW) else ⊤)
      (fun _ => none)
      (IndexedHeap.ofList (g1.vertices.map fun v =>
        (if v = s then (0:DistW) else ⊤, v)))
      g1.edges hkey hval)).symm
  · rw [if_neg hsd, if_neg hsd]

/-- The two concrete graphs of the C9 witness. -/
def c9G1 : Graph := ⟨[1, 0], [(0, [(1, 7)])]⟩

def c9G2 : Graph := ⟨[1, 0], [(0, [(1, 7), (1, 8)])]⟩

theorem claim_C9_parallel_edges_witness :
    Graph.empty.add_edge 0 1 7 = .ok c9G1 ∧
    c9G1.add_edge 0 1 8 = .ok c9G2 ∧
    (c9G2.distance_and_shortest_path 0 1).map Prod.fst =
      (c9G1.distance_and_shortest_path 0 1).map Prod.fst :=
  ⟨rfl, rfl, claim_C9_parallel_edges Graph.empty c9G1 c9G2 0 1 rfl rfl 0 1⟩
